import Mathlib

/-!
# MapReduce coordinator and worker (package `mr`)

A shallow embedding of `src/mr/rpc.go`, `src/mr/coordinator.go` and
`src/mr/worker.go`, with the properties of the scheduler and of the
map / reduce data plane proved over it.

Conventions of the embedding.

* Go `int` values (task ids, `nReduce`, the wire value of a `TaskType`) are
  `Int`.  No arithmetic is done on them apart from comparisons and one `%`.
* `TaskState` is only ever assigned from its three constants; it is an
  inductive type.  `TaskType` arrives over the wire in `ReportArgs`, so it is
  kept as an `Int` with the four named constants.
* `time.Time` is an `Int` count of nanoseconds; `Time.Sub` saturates to the
  range of `time.Duration` (an `int64`) as the Go library does.
* The mutex is not modelled: every handler runs under `c.mu`, so a handler is
  a function from the state before to the state after.
* A handler that returns `error` returns an `Option String` (`none` is `nil`).
* The working directory is a finite map from file names to contents (`FS`).
  Temporary files are created outside it, so a file appears in it only by
  `os.Rename`, which is `FS.write`; `doMap` and `doReduce` take the directory
  and return the directory they leave together with their `error`.
* `encoding/json` and `sort.Slice` are not part of the repository: they are
  the fields of `Lib`, and `Lib.Ok` is what the worker relies on from them.
  `refLib` is a small instance used to run the examples.
* The grouping loop of `doReduce` is written over the remaining slice
  `kvs[i:]`; its output is the list of `(key, result)` pairs, one per line
  written, and `render` is the text of the file.  `groupIdx` is the same loop
  on the slice with its indices `i`, `j`, `k`, every access checked against
  the length, and `groupCalls` lists the arguments of the calls of `reducef`.
-/

namespace mr

/-! ## rpc.go -/

/-- Go: `type TaskType int`. -/
abbrev TaskType := Int

/-- Go: `TaskNone TaskType = iota` (wait). -/
def TaskNone : TaskType := 0
/-- Go: `TaskMap`. -/
def TaskMap : TaskType := 1
/-- Go: `TaskReduce`. -/
def TaskReduce : TaskType := 2
/-- Go: `TaskExit`. -/
def TaskExit : TaskType := 3

/-- Go: `type TaskState int` with constants `Pending`, `Running`, `Done`. -/
inductive TaskState where
  | Pending
  | Running
  | Done
deriving DecidableEq, Repr

open TaskState

/-- Go: `type RequestReply struct`. -/
structure RequestReply where
  Typ : TaskType
  MapID : Int
  ReduceID : Int
  NReduce : Int
  Files : List String
deriving DecidableEq, Repr

/-- Go: `type ReportArgs struct`. -/
structure ReportArgs where
  Typ : TaskType
  MapID : Int
  ReduceID : Int
  Success : Bool
deriving DecidableEq, Repr

/-! ## coordinator.go -/

/-- Nanoseconds on the coordinator's clock (`time.Time`). -/
abbrev Time := Int

/-- Largest `time.Duration`: `1<<63 - 1` nanoseconds. -/
def maxDuration : Int := 9223372036854775807
/-- Smallest `time.Duration`: `-1 << 63` nanoseconds. -/
def minDuration : Int := -9223372036854775808

/-- Go: `t.Sub(u)`, the duration `t - u`, saturated to the `Duration` range. -/
def Time.Sub (t u : Time) : Int :=
  if t - u > maxDuration then maxDuration
  else if t - u < minDuration then minDuration
  else t - u

/-- Go: `10*time.Second`, in nanoseconds. -/
def leaseTimeout : Int := 10 * 1000000000

/-- Go: `type taskInfo struct`.  The zero `Start` is `0`. -/
structure taskInfo where
  Typ : TaskType
  State : TaskState
  MapID : Int
  ReduceID : Int
  Files : List String
  Start : Time
deriving DecidableEq, Repr

/-- Go: `type Coordinator struct` without the mutex. -/
structure Coordinator where
  maps : List taskInfo
  reduces : List taskInfo
  nReduce : Int
  done : Bool
deriving DecidableEq, Repr

/-- The map task `MakeCoordinator` appends for `files[i] = f`. -/
def newMapTask (i : Nat) (f : String) : taskInfo :=
  { Typ := TaskMap, State := Pending, MapID := (i : Int), ReduceID := 0,
    Files := [f], Start := 0 }

/-- The reduce task `MakeCoordinator` appends for partition `r`. -/
def newReduceTask (r : Nat) : taskInfo :=
  { Typ := TaskReduce, State := Pending, MapID := 0, ReduceID := (r : Int),
    Files := [], Start := 0 }

/-- The first loop of `MakeCoordinator`: `for i, f := range files`, with `i`
counted from `i0`. -/
def makeMaps : Nat → List String → List taskInfo
  | _, [] => []
  | i, f :: fs => newMapTask i f :: makeMaps (i + 1) fs

/-- Go: `MakeCoordinator(files, nReduce)`; starting the RPC server is not part
of the state.  The second loop, `for r := 0; r < nReduce; r++`, runs
`nReduce.toNat` times (not at all when `nReduce ≤ 0`). -/
def MakeCoordinator (files : List String) (nReduce : Int) : Coordinator :=
  { maps := makeMaps 0 files,
    reduces := (List.range nReduce.toNat).map newReduceTask,
    nReduce := nReduce,
    done := false }

/-- One iteration of the body of `reap`. -/
def reapTask (now : Time) (t : taskInfo) : taskInfo :=
  if t.State = Running ∧ Time.Sub now t.Start > leaseTimeout then
    { t with State := Pending }
  else t

/-- The closure `reap` of `RequestTask`: `for i := range ts`. -/
def reap (now : Time) (ts : List taskInfo) : List taskInfo :=
  ts.map (reapTask now)

/-- Go: `allDone(ts)`. -/
def allDone : List taskInfo → Bool
  | [] => true
  | t :: ts => if t.State ≠ Done then false else allDone ts

/-- The assignment loops of `RequestTask` (`for i := range ts` with a
`return` inside): the first `Pending` task is marked `Running` and stamped
with `now`; the result is the task as stored after the update together with
the updated table, or `none` when the loop falls through. -/
def assignFirst (now : Time) : List taskInfo → Option (taskInfo × List taskInfo)
  | [] => none
  | t :: ts =>
    if t.State = Pending then
      let t1 : taskInfo := { t with State := Running, Start := now }
      some (t1, t1 :: ts)
    else
      match assignFirst now ts with
      | some (a, ts1) => some (a, t :: ts1)
      | none => none

/-- Go: `Coordinator.RequestTask`, with `time.Now()` passed as `now`.  Every
path overwrites `*rep` with a fresh literal, so the reply does not depend on
the value `rep` held at entry.  Omitted fields of a literal are zero. -/
def RequestTask (c : Coordinator) (now : Time) :
    Coordinator × RequestReply × Option String :=
  let maps1 := reap now c.maps
  let reduces1 := reap now c.reduces
  match assignFirst now maps1 with
  | some (t, maps2) =>
    ({ c with maps := maps2, reduces := reduces1 },
     { Typ := TaskMap, MapID := t.MapID, ReduceID := 0, NReduce := c.nReduce,
       Files := t.Files },
     none)
  | none =>
    if allDone maps1 then
      match assignFirst now reduces1 with
      | some (t, reduces2) =>
        ({ c with maps := maps1, reduces := reduces2 },
         { Typ := TaskReduce, MapID := 0, ReduceID := t.ReduceID,
           NReduce := c.nReduce, Files := [] },
         none)
      | none =>
        if allDone reduces1 then
          ({ c with maps := maps1, reduces := reduces1, done := true },
           { Typ := TaskExit, MapID := 0, ReduceID := 0, NReduce := 0, Files := [] },
           none)
        else
          ({ c with maps := maps1, reduces := reduces1 },
           { Typ := TaskNone, MapID := 0, ReduceID := 0, NReduce := 0, Files := [] },
           none)
    else
      ({ c with maps := maps1, reduces := reduces1 },
       { Typ := TaskNone, MapID := 0, ReduceID := 0, NReduce := 0, Files := [] },
       none)

/-- The state a report writes: `Done` on success, `Pending` otherwise. -/
def reportState (success : Bool) : TaskState :=
  if success then Done else Pending

/-- The loops of `ReportTask` (`for i := range ts` with a `break`): the first
task whose id, read by `key`, equals `id` has its state set. -/
def reportFirst (key : taskInfo → Int) (id : Int) (success : Bool) :
    List taskInfo → List taskInfo
  | [] => []
  | t :: ts =>
    if key t = id then { t with State := reportState success } :: ts
    else t :: reportFirst key id success ts

/-- Go: `Coordinator.ReportTask`. -/
def ReportTask (c : Coordinator) (args : ReportArgs) : Coordinator × Option String :=
  if args.Typ = TaskMap then
    ({ c with maps := reportFirst taskInfo.MapID args.MapID args.Success c.maps }, none)
  else if args.Typ = TaskReduce then
    ({ c with reduces :=
        reportFirst taskInfo.ReduceID args.ReduceID args.Success c.reduces }, none)
  else (c, none)

/-- Go: `Coordinator.Done`. -/
def Coordinator.Done (c : Coordinator) : Bool := c.done

/-- A call a worker can make on the coordinator: `RequestTask` (made when the
coordinator's clock reads `now`) or `ReportTask`. -/
inductive Call where
  | request (now : Time)
  | report (args : ReportArgs)
deriving DecidableEq, Repr

/-- The coordinator state after one call. -/
def step (c : Coordinator) : Call → Coordinator
  | .request now => (RequestTask c now).1
  | .report args => (ReportTask c args).1

/-- The coordinator state after a sequence of calls, oldest first. -/
def run (c : Coordinator) (calls : List Call) : Coordinator :=
  calls.foldl step c

/-- The part of a task that no handler writes: the task with its `State` and
`Start` reset to their values at construction. -/
def eraseRun (t : taskInfo) : taskInfo :=
  { t with State := Pending, Start := 0 }

/-- The part of the coordinator that is fixed at construction. -/
def shape (c : Coordinator) : List taskInfo × List taskInfo × Int :=
  (c.maps.map eraseRun, c.reduces.map eraseRun, c.nReduce)

/-- A job with one input file and one reduce partition in which worker A is
given map 0 at time 0, is reaped at time 20 s when worker C is given the same
task, and C reports success. -/
def lateCalls : List Call :=
  [.request 0, .request 20000000000,
   .report { Typ := TaskMap, MapID := 0, ReduceID := 0, Success := true }]

/-- A job with two input files in which workers A and B hold maps 0 and 1,
both leases expire, and the next request (at 21 s) reaps both and hands map 0
to worker C, leaving map 1 `Pending` while B is still working on it. -/
def reapedCalls : List Call :=
  [.request 0, .request 1000000000, .request 21000000000]

/-! ## worker.go -/

/-- Go: `type KeyValue struct`.  A `String` stands for a Go string that holds
valid UTF-8, which `encoding/json` writes and reads back unchanged; a Go
string with other bytes has no counterpart here. -/
structure KeyValue where
  Key : String
  Value : String
deriving DecidableEq, Repr

/-- The bytes of a Go string: the UTF-8 encoding of its characters. -/
def utf8Bytes (s : String) : List Nat :=
  (s.data.flatMap String.utf8EncodeChar).map UInt8.toNat

/-- One round of 32-bit FNV-1a (`hash/fnv`, `sum32a.Write`): xor the byte in,
then multiply by the prime 16777619 modulo `2^32`. -/
def fnvStep (h : Nat) (b : Nat) : Nat :=
  ((h ^^^ b) * 16777619) % 4294967296

/-- Go: `fnv.New32a()` followed by `Write` and `Sum32`; the offset basis is
2166136261. -/
def fnv32a (bytes : List Nat) : Nat :=
  bytes.foldl fnvStep 2166136261

/-- Go: `ihash(key)`, `int(h.Sum32() & 0x7fffffff)`. -/
def ihash (key : String) : Int :=
  ((fnv32a (utf8Bytes key) &&& 0x7fffffff : Nat) : Int)

/-- The library calls of `worker.go` whose code is outside the repository:
`encoding/json` and `sort`. -/
structure Lib where
  /-- The bytes `(*json.Encoder).Encode(&kv)` writes for one record. -/
  encode : KeyValue → String
  /-- The records the loop `for { dec.Decode(&kv) ... }` collects from a file
  until `io.EOF`; `none` when a `Decode` fails with another error. -/
  decodeAll : String → Option (List KeyValue)
  /-- The slice after `sort.Slice(kvs, less)`. -/
  sortSlice : (KeyValue → KeyValue → Bool) → List KeyValue → List KeyValue

/-- The `less` closure of `doReduce`: `kvs[i].Key < kvs[j].Key`.  Go compares
strings bytewise, which for UTF-8 is the lexicographic order of the code
points. -/
def keyLess (a b : KeyValue) : Bool :=
  decide (a.Key.data < b.Key.data)

/-- Concatenation of a sequence of writes to one file. -/
def concatStr : List String → String
  | [] => ""
  | s :: l => s ++ concatStr l

/-- What `doMap` and `doReduce` rely on from the library: a stream of encoded
records decodes to the records written, and `sort.Slice` permutes the slice
into an order in which no element is `less` than an earlier one. -/
structure Lib.Ok (L : Lib) : Prop where
  roundtrip : ∀ l : List KeyValue, L.decodeAll (concatStr (l.map L.encode)) = some l
  sort_perm : ∀ l : List KeyValue, (L.sortSlice keyLess l).Perm l
  sort_sorted : ∀ l : List KeyValue,
    (L.sortSlice keyLess l).Pairwise (fun a b => keyLess b a = false)

/-- The working directory: file names with their contents.  A name is the name
of an entry of the directory, not a path: a name with a separator `/` has no
meaning here.  A name occurs at most once in a directory built by `FS.write`
from the empty one; `FS.read` returns the first entry of a name. -/
abbrev FS := List (String × String)

/-- Go: `os.ReadFile(name)` / `os.Open(name)`; `none` is the error. -/
def FS.read : FS → String → Option String
  | [], _ => none
  | (n, c) :: fs, name => if n = name then some c else FS.read fs name

/-- Go: `os.Rename(tmp, name)` of a closed temporary file holding `content`:
the file `name` is created or replaced in one step. -/
def FS.write (fs : FS) (name content : String) : FS :=
  (name, content) :: fs.filter (fun e => e.1 ≠ name)

/-- The names in the directory. -/
def FS.names (fs : FS) : List String :=
  (fs.map Prod.fst).dedup

/-- Go: `%d` of an `int`. -/
def itoa (i : Int) : String :=
  if i < 0 then "-" ++ Nat.repr i.natAbs else Nat.repr i.natAbs

/-- Go: `fmt.Sprintf("mr-%d-%d", mapID, r)`. -/
def shardName (mapID r : Int) : String :=
  "mr-" ++ itoa mapID ++ "-" ++ itoa r

/-- Go: `fmt.Sprintf("mr-out-%d", reduceID)`. -/
def outName (reduceID : Int) : String :=
  "mr-out-" ++ itoa reduceID

/-- Strip a literal from the front: `dropLit lit cs` is `some rest` when
`cs = lit ++ rest`, and `none` otherwise. -/
def dropLit : List Char → List Char → Option (List Char)
  | [], cs => some cs
  | _ :: _, [] => none
  | a :: lit, c :: cs => if a = c then dropLit lit cs else none

/-- Go: `filepath.Match(fmt.Sprintf("mr-*-%d", reduceID), name)`: the name is
`mr-`, then any run of characters other than the separator `/`, then
`-<reduceID>`. -/
def globMatch (reduceID : Int) (name : String) : Bool :=
  match dropLit "mr-".data name.data with
  | none => false
  | some rest =>
    match dropLit ("-" ++ itoa reduceID).data.reverse rest.reverse with
    | none => false
    | some x => x.all (fun c => c ≠ '/')

/-- Go: `filepath.Glob(fmt.Sprintf("mr-*-%d", reduceID))` in the working
directory: the matching names, in the sorted order in which `Glob` lists a
directory. -/
def Glob (fs : FS) (reduceID : Int) : List String :=
  ((FS.names fs).filter (globMatch reduceID)).insertionSort
    (fun a b => ¬ (b.data < a.data))

/-- The loop `for _, kv := range kva` of `doMap`: `bufs[r]` is what has been
written to the temporary file of partition `r`.  `none` is the run-time panic
of an index out of range in `encs[r]`. -/
def encodeLoop (L : Lib) (nReduce : Int) : List String → List KeyValue → Option (List String)
  | bufs, [] => some bufs
  | bufs, kv :: kva =>
    let r := Int.tmod (ihash kv.Key) nReduce
    if r < 0 then none
    else
      match bufs[r.toNat]? with
      | none => none
      | some b => encodeLoop L nReduce (bufs.set r.toNat (b ++ L.encode kv)) kva

/-- The last loop of `doMap`: close and rename the temporary file of each
partition, `r` counting from `r0`. -/
def publish (mapID : Int) : FS → Nat → List String → FS
  | fs, _, [] => fs
  | fs, r, b :: bufs => publish mapID (FS.write fs (shardName mapID r) b) (r + 1) bufs

/-- Go: `doMap(mapID, filename, nReduce, mapf)`.  The temporary files live
outside the working directory; creating, closing and renaming them succeeds. -/
def doMap (L : Lib) (fs : FS) (mapID : Int) (filename : String) (nReduce : Int)
    (mapf : String → String → List KeyValue) : FS × Option String :=
  if nReduce ≤ 0 then (fs, some "nReduce must be > 0")
  else
    match FS.read fs filename with
    | none => (fs, some "open: no such file or directory")
    | some content =>
      match encodeLoop L nReduce (List.replicate nReduce.toNat "") (mapf filename content) with
      | none => (fs, some "panic: index out of range")
      | some bufs => (publish mapID fs 0 bufs, none)

/-- The loop `for _, f := range matches` of `doReduce`: open each file and
append its records to `kvs`. -/
def readShards (L : Lib) (fs : FS) : List String → Option (List KeyValue)
  | [] => some []
  | f :: rest =>
    match FS.read fs f with
    | none => none
    | some content =>
      match L.decodeAll content with
      | none => none
      | some recs =>
        match readShards L fs rest with
        | none => none
        | some kvs => some (recs ++ kvs)

/-- The grouping loop of `doReduce` over `kvs[i:]`: the run of the key of
`kvs[i]` is `kvs[i:j]`, one line is produced for it, and the loop goes on
from `j`.  `fuel` bounds the number of iterations of the outer loop. -/
def groupLoop (reducef : String → List String → String) :
    Nat → List KeyValue → List (String × String)
  | 0, _ => []
  | _ + 1, [] => []
  | fuel + 1, kv :: rest =>
    (kv.Key,
      reducef kv.Key (kv.Value :: (rest.takeWhile (fun x => x.Key = kv.Key)).map KeyValue.Value))
      :: groupLoop reducef fuel (rest.dropWhile (fun x => x.Key = kv.Key))

/-- Go: `fmt.Fprintf(w, "%v %v\n", key, out)`. -/
def formatLine (e : String × String) : String :=
  e.1 ++ " " ++ e.2 ++ "\n"

/-- The content of the output file: the lines in the order written. -/
def render (entries : List (String × String)) : String :=
  concatStr (entries.map formatLine)

/-- The `(key, result)` pairs `doReduce` writes, one per line, or `none` when
it returns an error before writing. -/
def reduceEntries (L : Lib) (fs : FS) (reduceID : Int)
    (reducef : String → List String → String) : Option (List (String × String)) :=
  match readShards L fs (Glob fs reduceID) with
  | none => none
  | some kvs =>
    let sorted := L.sortSlice keyLess kvs
    some (groupLoop reducef sorted.length sorted)

/-- Go: `doReduce(reduceID, _, reducef)`. -/
def doReduce (L : Lib) (fs : FS) (reduceID : Int) (_nReduce : Int)
    (reducef : String → List String → String) : FS × Option String :=
  match reduceEntries L fs reduceID reducef with
  | none => (fs, some "read or decode error")
  | some entries => (FS.write fs (outName reduceID) (render entries), none)

/-- A single worker running the Map tasks `m, m+1, ...` on `files` in order,
stopping at the first error. -/
def runMaps (L : Lib) (mapf : String → String → List KeyValue) (nReduce : Int) :
    FS → Nat → List String → FS × Option String
  | fs, _, [] => (fs, none)
  | fs, m, f :: files =>
    match doMap L fs (m : Int) f nReduce mapf with
    | (fs1, none) => runMaps L mapf nReduce fs1 (m + 1) files
    | (fs1, some e) => (fs1, some e)

/-- A single worker running the `n` Reduce tasks `r, r+1, ...` in order,
stopping at the first error. -/
def runReduces (L : Lib) (reducef : String → List String → String) (nReduce : Int) :
    FS → Nat → Nat → FS × Option String
  | fs, _, 0 => (fs, none)
  | fs, r, n + 1 =>
    match doReduce L fs (r : Int) nReduce reducef with
    | (fs1, none) => runReduces L reducef nReduce fs1 (r + 1) n
    | (fs1, some e) => (fs1, some e)

/-- The whole job run by one worker: `doMap` for each `m` in `[0, M)`, then
`doReduce` for each `r` in `[0, R)`. -/
def runJob (L : Lib) (mapf : String → String → List KeyValue)
    (reducef : String → List String → String) (files : List String) (nReduce : Int)
    (fs : FS) : FS × Option String :=
  match runMaps L mapf nReduce fs 0 files with
  | (fs1, none) => runReduces L reducef nReduce fs1 0 nReduce.toNat
  | (fs1, some e) => (fs1, some e)

/-! ### A reference instance of the library and the word-count application -/

/-- A self-delimiting encoding of a string: every character is preceded by
`.` and the string is closed by `;`. -/
def stuff : List Char → List Char
  | [] => [';']
  | c :: cs => '.' :: c :: stuff cs

/-- Inverse of `stuff`: the string and the rest of the input. -/
def unstuff : List Char → Option (List Char × List Char)
  | ';' :: rest => some ([], rest)
  | '.' :: c :: rest =>
    match unstuff rest with
    | some (s, r) => some (c :: s, r)
    | none => none
  | _ => none

/-- Record stream decoder of the reference instance; `fuel` bounds the
number of records. -/
def unstuffAll : Nat → List Char → Option (List KeyValue)
  | _, [] => some []
  | 0, _ :: _ => none
  | fuel + 1, c :: cs =>
    match unstuff (c :: cs) with
    | none => none
    | some (k, r1) =>
      match unstuff r1 with
      | none => none
      | some (v, r2) =>
        match unstuffAll fuel r2 with
        | none => none
        | some l => some ({ Key := String.mk k, Value := String.mk v } :: l)

/-- A reference instance of `Lib`, standing in for `encoding/json` and `sort`
when an example is evaluated: a record is written as the stuffed key followed
by the stuffed value, decoding fails on text that is not a sequence of such
records, and the slice is sorted by insertion. -/
def refLib : Lib :=
  { encode := fun kv => String.mk (stuff kv.Key.data ++ stuff kv.Value.data),
    decodeAll := fun s => unstuffAll s.data.length s.data,
    sortSlice := fun less l => l.insertionSort (fun a b => less b a = false) }

/-- The words of a text: maximal runs of letters (`cur` is the run being
read, reversed). -/
def wordsOf : List Char → List Char → List String
  | cur, [] => if cur = [] then [] else [String.mk cur.reverse]
  | cur, c :: cs =>
    if c.isAlpha then wordsOf (c :: cur) cs
    else if cur = [] then wordsOf [] cs
    else String.mk cur.reverse :: wordsOf [] cs

/-- The map function of the word-count application: one pair `(w, "1")` per
word. -/
def wcMap (_filename contents : String) : List KeyValue :=
  (wordsOf [] contents.data).map (fun w => { Key := w, Value := "1" })

/-- The reduce function of the word-count application: the number of values. -/
def wcReduce (_key : String) (values : List String) : String :=
  Nat.repr values.length

/-- Value of a string of decimal digits, on top of the value `a` read so far. -/
def decVal (a : Nat) (cs : List Char) : Nat :=
  cs.foldl (fun acc c => 10 * acc + (c.toNat - 48)) a

/-- The coordinator state after a sequence of `ReportTask` calls, oldest
first, with no `RequestTask` in between. -/
def runReports (c : Coordinator) (reports : List ReportArgs) : Coordinator :=
  reports.foldl (fun c a => (ReportTask c a).1) c

/-- The report is addressed to the Map task with `MapID = i`. -/
def forMap (i : Nat) (a : ReportArgs) : Bool :=
  decide (a.Typ = TaskMap ∧ a.MapID = (i : Int))

/-- The report is addressed to the Reduce task with `ReduceID = r`. -/
def forReduce (r : Nat) (a : ReportArgs) : Bool :=
  decide (a.Typ = TaskReduce ∧ a.ReduceID = (r : Int))

/-- The task after the reports addressed to it have been applied in order. -/
def applyReports (t : taskInfo) (l : List ReportArgs) : taskInfo :=
  l.foldl (fun t a => { t with State := reportState a.Success }) t

/-- A job in which map 0 was handed out at time 0 and nothing has happened
since. -/
def heldCalls : List Call := [Call.request 0]

/-- The one-file, one-partition job run to the point where the reduce has been
reported done but no worker has asked for a task since. -/
def finishedCalls : List Call :=
  [Call.request 0,
   Call.report { Typ := TaskMap, MapID := 0, ReduceID := 0, Success := true },
   Call.request 1000000000,
   Call.report { Typ := TaskReduce, MapID := 0, ReduceID := 0, Success := true }]

/-- The one-file, one-partition job in which worker A is given reduce 0 at 1 s,
is reaped at 12 s when worker B is given the same task, B reports success, the
next request (13 s) returns Exit and sets `done`, and then the failure report
of A arrives. -/
def staleFailureCalls : List Call :=
  [Call.request 0,
   Call.report { Typ := TaskMap, MapID := 0, ReduceID := 0, Success := true },
   Call.request 1000000000,
   Call.request 12000000000,
   Call.report { Typ := TaskReduce, MapID := 0, ReduceID := 0, Success := true },
   Call.request 13000000000,
   Call.report { Typ := TaskReduce, MapID := 0, ReduceID := 0, Success := false }]

/-- The arguments of the calls of `reducef` made by the grouping loop of
`doReduce`, in order: the key of each run and the values of the run. -/
def groupCalls : Nat → List KeyValue → List (String × List String)
  | 0, _ => []
  | _ + 1, [] => []
  | fuel + 1, kv :: rest =>
    (kv.Key, kv.Value :: (rest.takeWhile (fun x => x.Key = kv.Key)).map KeyValue.Value)
      :: groupCalls fuel (rest.dropWhile (fun x => x.Key = kv.Key))

/-- How a loop run with a bound on its iterations ends: with a result, with
the run-time panic of an index out of range, or with the bound reached. -/
inductive Outcome (α : Type) where
  | ok (a : α)
  | indexOutOfRange
  | outOfFuel
deriving DecidableEq, Repr

/-- The inner loop of `doReduce` on the slice itself,
`for j < len(kvs) && kvs[j].Key == kvs[i].Key { j++ }`: the final `j`. -/
def scanRun (kvs : List KeyValue) (i : Nat) : Nat → Nat → Outcome Nat
  | 0, _ => Outcome.outOfFuel
  | fuel + 1, j =>
    if j < kvs.length then
      match kvs[j]?, kvs[i]? with
      | some a, some b => if a.Key = b.Key then scanRun kvs i fuel (j + 1) else Outcome.ok j
      | _, _ => Outcome.indexOutOfRange
    else Outcome.ok j

/-- The loop `for k := i; k < j; k++ { vals = append(vals, kvs[k].Value) }`. -/
def collectVals (kvs : List KeyValue) (j : Nat) : Nat → Nat → List String →
    Outcome (List String)
  | 0, _, _ => Outcome.outOfFuel
  | fuel + 1, k, vals =>
    if k < j then
      match kvs[k]? with
      | some kv => collectVals kvs j fuel (k + 1) (vals ++ [kv.Value])
      | none => Outcome.indexOutOfRange
    else Outcome.ok vals

/-- The grouping loop of `doReduce` on the slice itself, `for i < len(kvs)`,
with every index checked against the length: the `(key, result)` pairs
written.  The inner loops get `len(kvs) + 1` iterations. -/
def groupIdx (reducef : String → List String → String) (kvs : List KeyValue) :
    Nat → Nat → Outcome (List (String × String))
  | 0, _ => Outcome.outOfFuel
  | fuel + 1, i =>
    if i < kvs.length then
      match scanRun kvs i (kvs.length + 1) (i + 1) with
      | Outcome.ok j =>
        match collectVals kvs j (kvs.length + 1) i [] with
        | Outcome.ok vals =>
          match kvs[i]? with
          | some kv =>
            match groupIdx reducef kvs fuel j with
            | Outcome.ok lines => Outcome.ok ((kv.Key, reducef kv.Key vals) :: lines)
            | Outcome.indexOutOfRange => Outcome.indexOutOfRange
            | Outcome.outOfFuel => Outcome.outOfFuel
          | none => Outcome.indexOutOfRange
        | Outcome.indexOutOfRange => Outcome.indexOutOfRange
        | Outcome.outOfFuel => Outcome.outOfFuel
      | Outcome.indexOutOfRange => Outcome.indexOutOfRange
      | Outcome.outOfFuel => Outcome.outOfFuel
    else Outcome.ok []

/-- The working directory left by the word-count job of scenario S1, in which
every Reduce task has completed once. -/
def rerunDir : FS :=
  (runJob refLib wcMap wcReduce ["x", "y"] 2 [("x", "a b a"), ("y", "b c")]).1

/-- The pairs of partition 0 of the word-count job of scenario S1. -/
def wcPairs : List KeyValue :=
  [{ Key := "c", Value := "1" }, { Key := "a", Value := "1" }, { Key := "a", Value := "1" }]

end mr

namespace mr

open TaskState

/-! ## Facts about the loops of the coordinator -/

theorem allDone_iff (ts : List taskInfo) :
    allDone ts = true ↔ ∀ t ∈ ts, t.State = Done := by
  induction ts with
  | nil => simp [allDone]
  | cons t ts ih =>
    by_cases h : t.State = Done
    · simp [allDone, h, ih]
    · simp [allDone, h]

theorem sub_gt_lease (now start : Int) :
    Time.Sub now start > leaseTimeout ↔ now - start > 10000000000 := by
  unfold Time.Sub leaseTimeout maxDuration minDuration
  show (if now - start > 9223372036854775807 then (9223372036854775807 : Int)
      else if now - start < -9223372036854775808 then -9223372036854775808
      else now - start) > 10 * 1000000000 ↔ _
  split_ifs with h1 h2
  · constructor <;> intro h <;> omega
  · constructor <;> intro h <;> omega
  · rfl

theorem reapTask_eq (now : Time) (t : taskInfo) :
    reapTask now t =
      if t.State = Running ∧ now - t.Start > 10000000000 then { t with State := Pending }
      else t := by
  unfold reapTask
  simp only [sub_gt_lease]

theorem reapTask_done (now : Time) (t : taskInfo) :
    (reapTask now t).State = Done ↔ t.State = Done := by
  unfold reapTask
  split_ifs with h
  · simp [h.1]
  · rfl

theorem reap_length (now : Time) (ts : List taskInfo) :
    (reap now ts).length = ts.length := by
  simp [reap]

theorem reap_getElem? (now : Time) (ts : List taskInfo) (i : Nat) :
    (reap now ts)[i]? = (ts[i]?).map (reapTask now) := by
  simp [reap]

theorem allDone_reap (now : Time) (ts : List taskInfo) :
    allDone (reap now ts) = allDone ts := by
  rw [Bool.eq_iff_iff, allDone_iff, allDone_iff]
  simp [reap, reapTask_done]

theorem assignFirst_none (now : Time) (ts : List taskInfo) :
    assignFirst now ts = none ↔ ∀ t ∈ ts, t.State ≠ Pending := by
  induction ts with
  | nil => simp [assignFirst]
  | cons t ts ih =>
    by_cases h : t.State = Pending
    · simp [assignFirst, h]
    · simp only [assignFirst, h, if_false, List.mem_cons, forall_eq_or_imp, ne_eq,
        not_false_eq_true, true_and]
      rw [← ih]
      cases assignFirst now ts with
      | none => simp
      | some p => simp

theorem assignFirst_some (now : Time) (ts : List taskInfo) (a : taskInfo)
    (ts1 : List taskInfo) (h : assignFirst now ts = some (a, ts1)) :
    ∃ i t, ts[i]? = some t ∧ t.State = Pending ∧
      (∀ j, j < i → ∀ u, ts[j]? = some u → u.State ≠ Pending) ∧
      a = { t with State := Running, Start := now } ∧ ts1 = ts.set i a := by
  induction ts generalizing ts1 with
  | nil => simp [assignFirst] at h
  | cons t ts ih =>
    by_cases hp : t.State = Pending
    · simp only [assignFirst, hp, if_true, Option.some.injEq, Prod.mk.injEq] at h
      refine ⟨0, t, by simp, hp, ?_, h.1.symm, ?_⟩
      · intro j hj; omega
      · rw [← h.2, ← h.1]; rfl
    · simp only [assignFirst, hp, if_false] at h
      cases hrec : assignFirst now ts with
      | none => rw [hrec] at h; simp at h
      | some p =>
        obtain ⟨b, ts2⟩ := p
        rw [hrec] at h
        simp only [Option.some.injEq, Prod.mk.injEq] at h
        obtain ⟨i, u, hu, hup, hmin, hb, hts2⟩ := ih ts2 (by rw [hrec, h.1])
        refine ⟨i + 1, u, by simpa using hu, hup, ?_, hb, ?_⟩
        · intro j hj v hv
          cases j with
          | zero => simp at hv; subst hv; exact hp
          | succ j => exact hmin j (by omega) v (by simpa using hv)
        · rw [← h.2, hts2]; rfl

end mr

namespace mr

open TaskState

/-! ## The shape of the task tables is fixed at construction -/

theorem eraseRun_reapTask (now : Time) (t : taskInfo) :
    eraseRun (reapTask now t) = eraseRun t := by
  unfold reapTask
  split_ifs <;> rfl

theorem eraseRun_reap (now : Time) (ts : List taskInfo) :
    (reap now ts).map eraseRun = ts.map eraseRun := by
  simp [reap, Function.comp_def, eraseRun_reapTask]

theorem eraseRun_set (ts : List taskInfo) (i : Nat) (t a : taskInfo)
    (h : ts[i]? = some t) (ha : eraseRun a = eraseRun t) :
    (ts.set i a).map eraseRun = ts.map eraseRun := by
  induction ts generalizing i with
  | nil => simp
  | cons u ts ih =>
    cases i with
    | zero =>
      simp only [List.getElem?_cons_zero, Option.some.injEq] at h
      subst h
      simp [ha]
    | succ i =>
      simp only [List.getElem?_cons_succ] at h
      simp [ih i h]

theorem eraseRun_assignFirst (now : Time) (ts : List taskInfo) (a : taskInfo)
    (ts1 : List taskInfo) (h : assignFirst now ts = some (a, ts1)) :
    ts1.map eraseRun = ts.map eraseRun := by
  obtain ⟨i, t, ht, -, -, ha, hts1⟩ := assignFirst_some now ts a ts1 h
  rw [hts1]
  exact eraseRun_set ts i t a ht (by rw [ha]; rfl)

theorem eraseRun_reportFirst (key : taskInfo → Int) (id : Int) (success : Bool)
    (ts : List taskInfo) :
    (reportFirst key id success ts).map eraseRun = ts.map eraseRun := by
  induction ts with
  | nil => rfl
  | cons t ts ih =>
    by_cases h : key t = id
    · simp [reportFirst, h, eraseRun]
    · simp [reportFirst, h, ih]

/-- The four ways `RequestTask` can return, each with the state it leaves. -/
theorem RequestTask_cases (c : Coordinator) (now : Time) :
    (∃ t maps2, assignFirst now (reap now c.maps) = some (t, maps2) ∧
      RequestTask c now =
        ({ c with maps := maps2, reduces := reap now c.reduces },
         { Typ := TaskMap, MapID := t.MapID, ReduceID := 0, NReduce := c.nReduce,
           Files := t.Files }, none)) ∨
    (assignFirst now (reap now c.maps) = none ∧ allDone (reap now c.maps) = true ∧
      ∃ t reduces2, assignFirst now (reap now c.reduces) = some (t, reduces2) ∧
      RequestTask c now =
        ({ c with maps := reap now c.maps, reduces := reduces2 },
         { Typ := TaskReduce, MapID := 0, ReduceID := t.ReduceID,
           NReduce := c.nReduce, Files := [] }, none)) ∨
    (assignFirst now (reap now c.maps) = none ∧ allDone (reap now c.maps) = true ∧
      assignFirst now (reap now c.reduces) = none ∧
      allDone (reap now c.reduces) = true ∧
      RequestTask c now =
        ({ c with maps := reap now c.maps, reduces := reap now c.reduces, done := true },
         { Typ := TaskExit, MapID := 0, ReduceID := 0, NReduce := 0, Files := [] },
         none)) ∨
    (assignFirst now (reap now c.maps) = none ∧
      (allDone (reap now c.maps) = true → assignFirst now (reap now c.reduces) = none) ∧
      ¬ (allDone (reap now c.maps) = true ∧ allDone (reap now c.reduces) = true) ∧
      RequestTask c now =
        ({ c with maps := reap now c.maps, reduces := reap now c.reduces },
         { Typ := TaskNone, MapID := 0, ReduceID := 0, NReduce := 0, Files := [] },
         none)) := by
  cases hm : assignFirst now (reap now c.maps) with
  | some p =>
    obtain ⟨t, maps2⟩ := p
    refine Or.inl ⟨t, maps2, rfl, ?_⟩
    simp [RequestTask, hm]
  | none =>
    by_cases hd : allDone (reap now c.maps) = true
    · cases hr : assignFirst now (reap now c.reduces) with
      | some p =>
        obtain ⟨t, reduces2⟩ := p
        refine Or.inr (Or.inl ⟨rfl, hd, t, reduces2, rfl, ?_⟩)
        simp [RequestTask, hm, hd, hr]
      | none =>
        by_cases hrd : allDone (reap now c.reduces) = true
        · refine Or.inr (Or.inr (Or.inl ⟨rfl, hd, rfl, hrd, ?_⟩))
          simp [RequestTask, hm, hd, hr, hrd]
        · refine Or.inr (Or.inr (Or.inr ⟨rfl, fun _ => rfl, fun h => hrd h.2, ?_⟩))
          simp [RequestTask, hm, hd, hr, hrd]
    · refine Or.inr (Or.inr (Or.inr ⟨rfl, fun h => absurd h hd, fun h => hd h.1, ?_⟩))
      simp [RequestTask, hm, hd]

theorem shape_RequestTask (c : Coordinator) (now : Time) :
    shape (RequestTask c now).1 = shape c := by
  rcases RequestTask_cases c now with ⟨t, m2, hm, h⟩ | ⟨-, -, t, r2, hr, h⟩ |
    ⟨-, -, -, -, h⟩ | ⟨-, -, -, h⟩
  · rw [h]; simp [shape, eraseRun_assignFirst now _ t m2 hm, eraseRun_reap]
  · rw [h]; simp [shape, eraseRun_assignFirst now _ t r2 hr, eraseRun_reap]
  · rw [h]; simp [shape, eraseRun_reap]
  · rw [h]; simp [shape, eraseRun_reap]

theorem shape_ReportTask (c : Coordinator) (args : ReportArgs) :
    shape (ReportTask c args).1 = shape c := by
  unfold ReportTask
  split_ifs <;> simp [shape, eraseRun_reportFirst]

theorem shape_step (c : Coordinator) (call : Call) : shape (step c call) = shape c := by
  cases call with
  | request now => exact shape_RequestTask c now
  | report args => exact shape_ReportTask c args

theorem shape_run (c : Coordinator) (calls : List Call) : shape (run c calls) = shape c := by
  induction calls generalizing c with
  | nil => rfl
  | cons call calls ih =>
    show shape (run (step c call) calls) = shape c
    rw [ih, shape_step]

theorem makeMaps_getElem? (k : Nat) (files : List String) (i : Nat) :
    (makeMaps k files)[i]? = (files[i]?).map (newMapTask (k + i)) := by
  induction files generalizing k i with
  | nil => simp [makeMaps]
  | cons f fs ih =>
    cases i with
    | zero => simp [makeMaps]
    | succ i =>
      simp only [makeMaps, List.getElem?_cons_succ, ih]
      rw [show k + 1 + i = k + (i + 1) by omega]

theorem eraseRun_makeMaps (k : Nat) (files : List String) :
    (makeMaps k files).map eraseRun = makeMaps k files := by
  induction files generalizing k with
  | nil => rfl
  | cons f fs ih => simp [makeMaps, ih, eraseRun, newMapTask]

/-- In a state reached from `MakeCoordinator files R`, the `i`-th map task is
the one built for `files[i]`, apart from its `State` and `Start`. -/
theorem reachable_maps (files : List String) (R : Int) (calls : List Call) (i : Nat)
    (t : taskInfo) (h : (run (MakeCoordinator files R) calls).maps[i]? = some t) :
    ∃ f, files[i]? = some f ∧ eraseRun t = newMapTask i f := by
  have hs := shape_run (MakeCoordinator files R) calls
  have hm : (run (MakeCoordinator files R) calls).maps.map eraseRun = makeMaps 0 files := by
    have := congrArg Prod.fst hs
    simpa [shape, MakeCoordinator, eraseRun_makeMaps] using this
  have h2 : ((run (MakeCoordinator files R) calls).maps.map eraseRun)[i]? =
      some (eraseRun t) := by
    rw [List.getElem?_map, h]; rfl
  rw [hm, makeMaps_getElem?] at h2
  cases hf : files[i]? with
  | none => rw [hf] at h2; simp at h2
  | some f =>
    rw [hf] at h2
    simp only [Option.map_some', Option.some.injEq, Nat.zero_add] at h2
    exact ⟨f, rfl, h2.symm⟩

/-- In a state reached from `MakeCoordinator files R`, the `r`-th reduce task
is the one built for partition `r`, apart from its `State` and `Start`, and
there are `R.toNat` of them. -/
theorem reachable_reduces (files : List String) (R : Int) (calls : List Call) (i : Nat)
    (t : taskInfo) (h : (run (MakeCoordinator files R) calls).reduces[i]? = some t) :
    i < R.toNat ∧ eraseRun t = newReduceTask i := by
  have hs := shape_run (MakeCoordinator files R) calls
  have hm : (run (MakeCoordinator files R) calls).reduces.map eraseRun =
      (List.range R.toNat).map newReduceTask := by
    have := congrArg (fun p => p.2.1) hs
    simpa [shape, MakeCoordinator, eraseRun, newReduceTask, Function.comp_def] using this
  have h2 : ((run (MakeCoordinator files R) calls).reduces.map eraseRun)[i]? =
      some (eraseRun t) := by
    rw [List.getElem?_map, h]; rfl
  rw [hm, List.getElem?_map] at h2
  by_cases hi : i < R.toNat
  · rw [List.getElem?_range hi] at h2
    simp only [Option.map_some', Option.some.injEq] at h2
    exact ⟨hi, h2.symm⟩
  · rw [List.getElem?_eq_none (by simpa using hi)] at h2
    simp at h2

theorem reachable_nReduce (files : List String) (R : Int) (calls : List Call) :
    (run (MakeCoordinator files R) calls).nReduce = R := by
  have hs := shape_run (MakeCoordinator files R) calls
  have := congrArg (fun p => p.2.2) hs
  simpa [shape, MakeCoordinator] using this

end mr

namespace mr

open TaskState

/-! ## Facts about `ReportTask` and the `done` flag -/

theorem reportFirst_set (key : taskInfo → Int) (id : Int) (success : Bool)
    (ts : List taskInfo) (i : Nat) (t : taskInfo) (h : ts[i]? = some t) (hk : key t = id)
    (hfirst : ∀ j, j < i → ∀ u, ts[j]? = some u → key u ≠ id) :
    reportFirst key id success ts = ts.set i { t with State := reportState success } := by
  induction ts generalizing i with
  | nil => simp at h
  | cons u ts ih =>
    cases i with
    | zero =>
      simp only [List.getElem?_cons_zero, Option.some.injEq] at h
      subst h
      simp [reportFirst, hk]
    | succ i =>
      have hu : key u ≠ id := hfirst 0 (by omega) u (by simp)
      simp only [List.getElem?_cons_succ] at h
      simp only [reportFirst, hu, if_false, List.set_cons_succ]
      rw [ih i h]
      intro j hj v hv
      exact hfirst (j + 1) (by omega) v (by simpa using hv)

theorem reportFirst_noop (key : taskInfo → Int) (id : Int) (success : Bool)
    (ts : List taskInfo) (h : ∀ t ∈ ts, key t ≠ id) :
    reportFirst key id success ts = ts := by
  induction ts with
  | nil => rfl
  | cons u ts ih =>
    have hu : key u ≠ id := h u (by simp)
    simp only [reportFirst, hu, if_false]
    rw [ih (fun t ht => h t (by simp [ht]))]

theorem reportFirst_getElem? (key : taskInfo → Int) (id : Int) (success : Bool)
    (ts : List taskInfo) (i : Nat) (t t1 : taskInfo) (h : ts[i]? = some t)
    (h1 : (reportFirst key id success ts)[i]? = some t1) :
    t1 = t ∨ t1 = { t with State := reportState success } := by
  induction ts generalizing i with
  | nil => simp at h
  | cons u ts ih =>
    by_cases hu : key u = id
    · simp only [reportFirst, hu, if_true] at h1
      cases i with
      | zero =>
        simp only [List.getElem?_cons_zero, Option.some.injEq] at h h1
        subst h
        exact Or.inr h1.symm
      | succ i =>
        simp only [List.getElem?_cons_succ] at h h1
        rw [h] at h1
        exact Or.inl (Option.some.inj h1).symm
    · simp only [reportFirst, hu, if_false] at h1
      cases i with
      | zero =>
        simp only [List.getElem?_cons_zero, Option.some.injEq] at h h1
        exact Or.inl (h1.symm.trans h)
      | succ i =>
        simp only [List.getElem?_cons_succ] at h h1
        exact ih i h h1

theorem ReportTask_done (c : Coordinator) (args : ReportArgs) :
    (ReportTask c args).1.done = c.done := by
  unfold ReportTask
  split_ifs <;> rfl

theorem ReportTask_err (c : Coordinator) (args : ReportArgs) :
    (ReportTask c args).2 = none := by
  unfold ReportTask
  split_ifs <;> rfl

/-- The handler `RequestTask` writes `done` only on the `Exit` path, where every task of
the state it leaves is `Done`. -/
theorem RequestTask_done (c : Coordinator) (now : Time) :
    ((RequestTask c now).2.1.Typ = TaskExit ∧ (RequestTask c now).1.done = true ∧
      allDone (RequestTask c now).1.maps = true ∧
      allDone (RequestTask c now).1.reduces = true) ∨
    ((RequestTask c now).2.1.Typ ≠ TaskExit ∧ (RequestTask c now).1.done = c.done) := by
  rcases RequestTask_cases c now with ⟨t, m2, -, e⟩ | ⟨-, -, t, r2, -, e⟩ |
    ⟨-, hd, -, hrd, e⟩ | ⟨-, -, -, e⟩
  · right; rw [e]; exact ⟨show TaskMap ≠ TaskExit by decide, rfl⟩
  · right; rw [e]; exact ⟨show TaskReduce ≠ TaskExit by decide, rfl⟩
  · left; rw [e]; exact ⟨rfl, rfl, hd, hrd⟩
  · right; rw [e]; exact ⟨show TaskNone ≠ TaskExit by decide, rfl⟩

theorem step_done_mono (c : Coordinator) (call : Call) (h : c.done = true) :
    (step c call).done = true := by
  cases call with
  | request now =>
    show (RequestTask c now).1.done = true
    rcases RequestTask_done c now with ⟨-, hd, -, -⟩ | ⟨-, hd⟩
    · exact hd
    · rw [hd, h]
  | report args =>
    show (ReportTask c args).1.done = true
    rw [ReportTask_done, h]

theorem run_done_mono (c : Coordinator) (calls : List Call) (h : c.done = true) :
    (run c calls).done = true := by
  induction calls generalizing c with
  | nil => exact h
  | cons call calls ih => exact ih (step c call) (step_done_mono c call h)

/-- What one `RequestTask` does to the task at index `i` of a table: the
stored task is the reaped one, or the reaped one marked `Running`. -/
theorem request_table (now : Time) (ts ts1 : List taskInfo)
    (h : ts1 = reap now ts ∨ ∃ a, assignFirst now (reap now ts) = some (a, ts1))
    (i : Nat) (t t1 : taskInfo) (ht : ts[i]? = some t) (ht1 : ts1[i]? = some t1) :
    t1 = reapTask now t ∨
      ((reapTask now t).State = Pending ∧
        t1 = { reapTask now t with State := Running, Start := now }) := by
  have hr : (reap now ts)[i]? = some (reapTask now t) := by
    rw [reap_getElem?, ht]; rfl
  rcases h with h | ⟨a, h⟩
  · rw [h, hr] at ht1
    exact Or.inl (Option.some.inj ht1).symm
  · obtain ⟨k, u, hu, hup, -, ha, hts1⟩ := assignFirst_some now _ a ts1 h
    rw [hts1, List.getElem?_set] at ht1
    by_cases hki : k = i
    · subst hki
      rw [hr] at hu
      have hu2 : reapTask now t = u := Option.some.inj hu
      rw [if_pos rfl] at ht1
      split_ifs at ht1 with hlen
      · right
        rw [hu2]
        exact ⟨hup, by rw [← Option.some.inj ht1, ha]⟩
    · rw [if_neg hki, hr] at ht1
      exact Or.inl (Option.some.inj ht1).symm

theorem RequestTask_tables (c : Coordinator) (now : Time) :
    ((RequestTask c now).1.maps = reap now c.maps ∨
      ∃ a, assignFirst now (reap now c.maps) = some (a, (RequestTask c now).1.maps)) ∧
    ((RequestTask c now).1.reduces = reap now c.reduces ∨
      ∃ a, assignFirst now (reap now c.reduces) =
        some (a, (RequestTask c now).1.reduces)) := by
  rcases RequestTask_cases c now with ⟨t, m2, hm, e⟩ | ⟨-, -, t, r2, hr, e⟩ |
    ⟨-, -, -, -, e⟩ | ⟨-, -, -, e⟩
  · rw [e]; exact ⟨Or.inr ⟨t, hm⟩, Or.inl rfl⟩
  · rw [e]; exact ⟨Or.inl rfl, Or.inr ⟨t, hr⟩⟩
  · rw [e]; exact ⟨Or.inl rfl, Or.inl rfl⟩
  · rw [e]; exact ⟨Or.inl rfl, Or.inl rfl⟩

end mr

namespace mr

open TaskState

theorem reportFirst_getElem?_not_first (key : taskInfo → Int) (id : Int) (success : Bool)
    (ts : List taskInfo) (i : Nat) (t : taskInfo) (h : ts[i]? = some t)
    (hn : key t ≠ id ∨ ∃ j, j < i ∧ ∃ u, ts[j]? = some u ∧ key u = id) :
    (reportFirst key id success ts)[i]? = some t := by
  induction ts generalizing i with
  | nil => simp at h
  | cons u ts ih =>
    by_cases hu : key u = id
    · cases i with
      | zero =>
        simp only [List.getElem?_cons_zero, Option.some.injEq] at h
        subst h
        rcases hn with hne | ⟨j, hj, -⟩
        · exact absurd hu hne
        · omega
      | succ i =>
        simp only [List.getElem?_cons_succ] at h
        simp [reportFirst, hu, h]
    · cases i with
      | zero =>
        simp only [List.getElem?_cons_zero, Option.some.injEq] at h
        subst h
        simp [reportFirst, hu]
      | succ i =>
        simp only [List.getElem?_cons_succ] at h
        simp only [reportFirst, hu, if_false, List.getElem?_cons_succ]
        apply ih i h
        rcases hn with hne | ⟨j, hj, v, hv, hvk⟩
        · exact Or.inl hne
        · cases j with
          | zero =>
            simp only [List.getElem?_cons_zero, Option.some.injEq] at hv
            rw [hv] at hu
            exact absurd hvk hu
          | succ j =>
            exact Or.inr ⟨j, by omega, v, by simpa using hv, hvk⟩

/-- What a report does to the task at index `i` of a table searched by `key`:
the first task with the reported id has its state set, `Done` on success and
`Pending` on failure; every other task is untouched. -/
theorem reportFirst_at (key : taskInfo → Int) (id : Int) (success : Bool)
    (ts : List taskInfo) (i : Nat) (t t1 : taskInfo) (h : ts[i]? = some t)
    (h1 : (reportFirst key id success ts)[i]? = some t1) :
    ((key t = id ∧ ∀ j, j < i → ∀ u, ts[j]? = some u → key u ≠ id) →
      t1 = { t with State := if success = true then Done else Pending }) ∧
    (¬ (key t = id ∧ ∀ j, j < i → ∀ u, ts[j]? = some u → key u ≠ id) → t1 = t) := by
  have hlen : i < ts.length := by
    by_contra hge
    rw [List.getElem?_eq_none (by omega)] at h
    simp at h
  constructor
  · rintro ⟨hk, hfirst⟩
    rw [reportFirst_set key id success ts i t h hk hfirst, List.getElem?_set, if_pos rfl,
      if_pos hlen] at h1
    rw [← Option.some.inj h1]
    rfl
  · intro hnot
    have hn : key t ≠ id ∨ ∃ j, j < i ∧ ∃ u, ts[j]? = some u ∧ key u = id := by
      by_cases hk : key t = id
      · right
        by_contra hex
        apply hnot
        refine ⟨hk, ?_⟩
        intro j hj u hu hku
        exact hex ⟨j, hj, u, hu, hku⟩
      · exact Or.inl hk
    rw [reportFirst_getElem?_not_first key id success ts i t h hn] at h1
    exact (Option.some.inj h1).symm

/-! ## The scheduler: claims C1 to C8 -/

/-- C1 (Map/Reduce barrier).  If `RequestTask` returns a Reduce assignment,
every Map task is `Done` in the state the call leaves, was `Done` after the
reaping step, and no Map task was `Pending` or `Running` when the call was
made. -/
theorem requestTask_reduce_barrier (c : Coordinator) (now : Time)
    (h : (RequestTask c now).2.1.Typ = TaskReduce) :
    (∀ t ∈ (RequestTask c now).1.maps, t.State = Done) ∧
    (∀ t ∈ reap now c.maps, t.State = Done) ∧
    ¬ (∃ t ∈ c.maps, t.State = Pending ∨ t.State = Running) := by
  rcases RequestTask_cases c now with ⟨t, m2, -, e⟩ | ⟨-, hd, t, r2, -, e⟩ |
    ⟨-, -, -, -, e⟩ | ⟨-, -, -, e⟩
  · rw [e] at h; exact absurd h (show TaskMap ≠ TaskReduce by decide)
  · have h1 := (allDone_iff _).1 hd
    have h2 := (allDone_iff _).1 ((allDone_reap now c.maps).symm.trans hd)
    rw [e]
    refine ⟨h1, h1, ?_⟩
    rintro ⟨u, hu, hs⟩
    rw [h2 u hu] at hs
    simp at hs
  · rw [e] at h; exact absurd h (show TaskExit ≠ TaskReduce by decide)
  · rw [e] at h; exact absurd h (show TaskNone ≠ TaskReduce by decide)

/-- Witness for C1: after the only Map task has been reported done, the
request made at 1 ns returns the Reduce assignment. -/
theorem requestTask_reduce_barrier_witness :
    (RequestTask (run (MakeCoordinator ["f"] 1) lateCalls) 1).2.1.Typ = TaskReduce ∧
    ((∀ t ∈ (RequestTask (run (MakeCoordinator ["f"] 1) lateCalls) 1).1.maps,
        t.State = Done) ∧
      (∀ t ∈ reap 1 (run (MakeCoordinator ["f"] 1) lateCalls).maps, t.State = Done) ∧
      ¬ (∃ t ∈ (run (MakeCoordinator ["f"] 1) lateCalls).maps,
        t.State = Pending ∨ t.State = Running)) :=
  ⟨by decide, requestTask_reduce_barrier _ 1 (by decide)⟩

/-- C2 (Map-first rule).  In a state reached from `MakeCoordinator files R`,
if some Map task is `Pending` after reaping, `RequestTask` returns the Map
assignment of the `Pending` task of lowest index `i`, with `MapID = i`,
`NReduce = R` and the single path `files[i]`; that task becomes `Running`
with lease `now` and every other task is as reaping left it. -/
theorem requestTask_map_first (files : List String) (R : Int) (calls : List Call)
    (now : Time)
    (h : ∃ t ∈ reap now (run (MakeCoordinator files R) calls).maps, t.State = Pending) :
    ∃ (i : Nat) (f : String) (t : taskInfo),
      files[i]? = some f ∧
      (reap now (run (MakeCoordinator files R) calls).maps)[i]? = some t ∧
      t.State = Pending ∧
      (∀ j, j < i → ∀ u, (reap now (run (MakeCoordinator files R) calls).maps)[j]? = some u →
        u.State ≠ Pending) ∧
      RequestTask (run (MakeCoordinator files R) calls) now =
        ({ maps := (reap now (run (MakeCoordinator files R) calls).maps).set i
              { t with State := Running, Start := now },
           reduces := reap now (run (MakeCoordinator files R) calls).reduces,
           nReduce := R,
           done := (run (MakeCoordinator files R) calls).done },
         { Typ := TaskMap, MapID := (i : Int), ReduceID := 0, NReduce := R, Files := [f] },
         none) := by
  obtain ⟨t0, ht0, hp0⟩ := h
  have hnone : assignFirst now (reap now (run (MakeCoordinator files R) calls).maps) ≠ none :=
    fun hn => (assignFirst_none now _).1 hn t0 ht0 hp0
  rcases RequestTask_cases (run (MakeCoordinator files R) calls) now with
    ⟨a, m2, hm, e⟩ | ⟨hn, -⟩ | ⟨hn, -⟩ | ⟨hn, -⟩
  · obtain ⟨i, t, ht, hp, hmin, ha, hm2⟩ := assignFirst_some now _ a m2 hm
    have ht' := ht
    rw [reap_getElem?] at ht'
    cases hu : (run (MakeCoordinator files R) calls).maps[i]? with
    | none => rw [hu] at ht'; simp at ht'
    | some u =>
      rw [hu] at ht'
      have htu : reapTask now u = t := by simpa using ht'
      obtain ⟨f, hf, hfu⟩ := reachable_maps files R calls i u hu
      have her : eraseRun t = newMapTask i f := by
        rw [← htu, eraseRun_reapTask, hfu]
      have hid : t.MapID = (i : Int) := by
        have := congrArg taskInfo.MapID her
        simpa [eraseRun, newMapTask] using this
      have hfl : t.Files = [f] := by
        have := congrArg taskInfo.Files her
        simpa [eraseRun, newMapTask] using this
      refine ⟨i, f, t, hf, ht, hp, hmin, ?_⟩
      rw [e, hm2, ha, reachable_nReduce]
      simp [hid, hfl]
  · exact absurd hn hnone
  · exact absurd hn hnone
  · exact absurd hn hnone

/-- Witness for C2: two input files, map 0 handed out at time 0; the request
at 5 ns hands out map 1. -/
theorem requestTask_map_first_witness :
    (∃ t ∈ reap 5 (run (MakeCoordinator ["a", "b"] 1) [Call.request 0]).maps,
      t.State = Pending) ∧
    ∃ (i : Nat) (f : String) (t : taskInfo),
      (["a", "b"] : List String)[i]? = some f ∧
      (reap 5 (run (MakeCoordinator ["a", "b"] 1) [Call.request 0]).maps)[i]? = some t ∧
      t.State = Pending ∧
      (∀ j, j < i → ∀ u,
        (reap 5 (run (MakeCoordinator ["a", "b"] 1) [Call.request 0]).maps)[j]? = some u →
        u.State ≠ Pending) ∧
      RequestTask (run (MakeCoordinator ["a", "b"] 1) [Call.request 0]) 5 =
        ({ maps := (reap 5 (run (MakeCoordinator ["a", "b"] 1) [Call.request 0]).maps).set i
              { t with State := Running, Start := 5 },
           reduces := reap 5 (run (MakeCoordinator ["a", "b"] 1) [Call.request 0]).reduces,
           nReduce := 1,
           done := (run (MakeCoordinator ["a", "b"] 1) [Call.request 0]).done },
         { Typ := TaskMap, MapID := (i : Int), ReduceID := 0, NReduce := 1, Files := [f] },
         none) :=
  ⟨by decide, requestTask_map_first ["a", "b"] 1 [Call.request 0] 5 (by decide)⟩

/-- C3 (Lease reaping).  The reaping step sets to `Pending` exactly the tasks
that are `Running` with `now - Start` above 10 s and changes no other task;
and whatever `RequestTask` returns, each table it leaves is the reaped table,
or the reaped table with one task that was `Pending` after reaping marked
`Running` and stamped with `now`. -/
theorem requestTask_reaps (c : Coordinator) (now : Time) :
    (∀ (ts : List taskInfo) (i : Nat) (t : taskInfo), ts[i]? = some t →
      (reap now ts)[i]? = some
        (if t.State = Running ∧ now - t.Start > 10000000000 then { t with State := Pending }
         else t)) ∧
    (∀ ts : List taskInfo, (reap now ts).length = ts.length) ∧
    ((RequestTask c now).1.maps = reap now c.maps ∨
      ∃ (i : Nat) (t : taskInfo), (reap now c.maps)[i]? = some t ∧ t.State = Pending ∧
        (RequestTask c now).1.maps =
          (reap now c.maps).set i { t with State := Running, Start := now }) ∧
    ((RequestTask c now).1.reduces = reap now c.reduces ∨
      ∃ (i : Nat) (t : taskInfo), (reap now c.reduces)[i]? = some t ∧ t.State = Pending ∧
        (RequestTask c now).1.reduces =
          (reap now c.reduces).set i { t with State := Running, Start := now }) := by
  refine ⟨?_, reap_length now, ?_, ?_⟩
  · intro ts i t ht
    rw [reap_getElem?, ht, ← reapTask_eq]
    rfl
  · rcases (RequestTask_tables c now).1 with h | ⟨a, h⟩
    · exact Or.inl h
    · obtain ⟨i, t, ht, hp, -, ha, hset⟩ := assignFirst_some now _ a _ h
      exact Or.inr ⟨i, t, ht, hp, by rw [← ha]; exact hset⟩
  · rcases (RequestTask_tables c now).2 with h | ⟨a, h⟩
    · exact Or.inl h
    · obtain ⟨i, t, ht, hp, -, ha, hset⟩ := assignFirst_some now _ a _ h
      exact Or.inr ⟨i, t, ht, hp, by rw [← ha]; exact hset⟩

/-- C4 (Termination detection).  `RequestTask` returns `Exit` exactly when
every Map and every Reduce task is `Done` at the call; it sets `done` in
that case and leaves `done` as it was otherwise.  With `R = 0`, in any
reached state whose Map tasks are all `Done` the call returns `Exit` and
sets `done`; with no input files and `R = 0` the first call does. -/
theorem requestTask_exit_iff (c : Coordinator) (now : Time) :
    ((RequestTask c now).2.1.Typ = TaskExit ↔
      (∀ t ∈ c.maps, t.State = Done) ∧ (∀ t ∈ c.reduces, t.State = Done)) ∧
    ((RequestTask c now).2.1.Typ = TaskExit → (RequestTask c now).1.done = true) ∧
    ((RequestTask c now).2.1.Typ ≠ TaskExit → (RequestTask c now).1.done = c.done) ∧
    (∀ (files : List String) (calls : List Call),
      (∀ t ∈ (run (MakeCoordinator files 0) calls).maps, t.State = Done) →
      (RequestTask (run (MakeCoordinator files 0) calls) now).2.1.Typ = TaskExit ∧
      (RequestTask (run (MakeCoordinator files 0) calls) now).1.done = true) ∧
    ((RequestTask (MakeCoordinator [] 0) now).2.1.Typ = TaskExit ∧
      (RequestTask (MakeCoordinator [] 0) now).1.done = true) := by
  have key : ∀ c : Coordinator, ((RequestTask c now).2.1.Typ = TaskExit ↔
      (∀ t ∈ c.maps, t.State = Done) ∧ (∀ t ∈ c.reduces, t.State = Done)) := by
    intro c
    rw [← allDone_iff, ← allDone_iff, ← allDone_reap now c.maps, ← allDone_reap now c.reduces]
    rcases RequestTask_cases c now with ⟨t, m2, hm, e⟩ | ⟨-, hd, t, r2, hr, e⟩ |
      ⟨-, hd, -, hrd, e⟩ | ⟨-, -, hnd, e⟩
    · rw [e]
      constructor
      · intro h; exact absurd h (show TaskMap ≠ TaskExit by decide)
      · intro h
        obtain ⟨i, u, hu, hp, -⟩ := assignFirst_some now _ t m2 hm
        have := (allDone_iff _).1 h.1 u (List.getElem?_mem hu)
        rw [hp] at this
        simp at this
    · rw [e]
      constructor
      · intro h; exact absurd h (show TaskReduce ≠ TaskExit by decide)
      · intro h
        obtain ⟨i, u, hu, hp, -⟩ := assignFirst_some now _ t r2 hr
        have := (allDone_iff _).1 h.2 u (List.getElem?_mem hu)
        rw [hp] at this
        simp at this
    · rw [e]
      exact ⟨fun _ => ⟨hd, hrd⟩, fun _ => rfl⟩
    · rw [e]
      constructor
      · intro h; exact absurd h (show TaskNone ≠ TaskExit by decide)
      · intro h; exact absurd h hnd
  have hdone : ∀ c : Coordinator, (RequestTask c now).2.1.Typ = TaskExit →
      (RequestTask c now).1.done = true := by
    intro c h
    rcases RequestTask_done c now with ⟨-, hd, -, -⟩ | ⟨hne, -⟩
    · exact hd
    · exact absurd h hne
  refine ⟨key c, hdone c, ?_, ?_, ?_⟩
  · intro h
    rcases RequestTask_done c now with ⟨he, -⟩ | ⟨-, hd⟩
    · exact absurd he h
    · exact hd
  · intro files calls hmaps
    have hred : ∀ t ∈ (run (MakeCoordinator files 0) calls).reduces, t.State = Done := by
      intro t ht
      obtain ⟨i, hi⟩ := List.getElem?_of_mem ht
      have := (reachable_reduces files 0 calls i t hi).1
      simp at this
    have hx := (key _).2 ⟨hmaps, hred⟩
    exact ⟨hx, hdone _ hx⟩
  · have hx := (key (MakeCoordinator [] 0)).2
      ⟨by simp [MakeCoordinator, makeMaps], by simp [MakeCoordinator]⟩
    exact ⟨hx, hdone _ hx⟩

/-- C5 (The `done` flag is monotone and justified).  `MakeCoordinator` starts
with `done = false`; along any sequence of calls, a call that turns `done`
from false to true is a `RequestTask` that leaves every Map and Reduce task
`Done`; and once `done` is true it is true after any further calls, so
`Done()` keeps returning true. -/
theorem done_monotone_justified (files : List String) (R : Int) (calls : List Call)
    (call : Call) :
    (MakeCoordinator files R).done = false ∧
    ((run (MakeCoordinator files R) calls).done = false →
      (step (run (MakeCoordinator files R) calls) call).done = true →
      (∃ now, call = Call.request now) ∧
      (∀ t ∈ (step (run (MakeCoordinator files R) calls) call).maps, t.State = Done) ∧
      (∀ t ∈ (step (run (MakeCoordinator files R) calls) call).reduces, t.State = Done)) ∧
    ((run (MakeCoordinator files R) calls).done = true →
      ∀ more : List Call,
        (run (run (MakeCoordinator files R) calls) more).done = true ∧
        (run (run (MakeCoordinator files R) calls) more).Done = true) := by
  refine ⟨rfl, ?_, ?_⟩
  · intro h0 h1
    cases call with
    | request now =>
      refine ⟨⟨now, rfl⟩, ?_⟩
      change (RequestTask _ now).1.done = true at h1
      show (∀ t ∈ (RequestTask _ now).1.maps, t.State = Done) ∧
        (∀ t ∈ (RequestTask _ now).1.reduces, t.State = Done)
      rcases RequestTask_done (run (MakeCoordinator files R) calls) now with
        ⟨-, -, hm, hr⟩ | ⟨-, hd⟩
      · exact ⟨(allDone_iff _).1 hm, (allDone_iff _).1 hr⟩
      · rw [hd, h0] at h1
        exact absurd h1 (by decide)
    | report args =>
      change (ReportTask _ args).1.done = true at h1
      rw [ReportTask_done, h0] at h1
      exact absurd h1 (by decide)
  · intro h more
    exact ⟨run_done_mono _ more h, run_done_mono _ more h⟩

/-- Witness for C5: in the one-file job, the request made once the map and the
reduce have been reported done turns `done` on, and it stays on. -/
theorem done_monotone_justified_witness :
    (run (MakeCoordinator ["f"] 1)
      (lateCalls ++ [Call.request 30000000000,
        Call.report { Typ := TaskReduce, MapID := 0, ReduceID := 0, Success := true }])).done
      = false ∧
    (step (run (MakeCoordinator ["f"] 1)
      (lateCalls ++ [Call.request 30000000000,
        Call.report { Typ := TaskReduce, MapID := 0, ReduceID := 0, Success := true }]))
      (Call.request 31000000000)).done = true ∧
    ((∃ now, Call.request 31000000000 = Call.request now) ∧
      (∀ t ∈ (step (run (MakeCoordinator ["f"] 1)
        (lateCalls ++ [Call.request 30000000000,
          Call.report { Typ := TaskReduce, MapID := 0, ReduceID := 0, Success := true }]))
        (Call.request 31000000000)).maps, t.State = Done) ∧
      (∀ t ∈ (step (run (MakeCoordinator ["f"] 1)
        (lateCalls ++ [Call.request 30000000000,
          Call.report { Typ := TaskReduce, MapID := 0, ReduceID := 0, Success := true }]))
        (Call.request 31000000000)).reduces, t.State = Done)) :=
  ⟨by decide, by decide,
    (done_monotone_justified ["f"] 1
      (lateCalls ++ [Call.request 30000000000,
        Call.report { Typ := TaskReduce, MapID := 0, ReduceID := 0, Success := true }])
      (Call.request 31000000000)).2.1 (by decide) (by decide)⟩

/-- C6, as stated, fails (per-task state machine).  In the one-file job a
failure report that arrives after the task is `Done` puts it back to
`Pending`; in the two-file job a success report for a task that was reaped
to `Pending` moves it straight to `Done`. -/
theorem reportTask_leaves_done_and_skips_running :
    ((run (MakeCoordinator ["f"] 1) lateCalls).maps.map taskInfo.State = [Done] ∧
      (ReportTask (run (MakeCoordinator ["f"] 1) lateCalls)
        { Typ := TaskMap, MapID := 0, ReduceID := 0, Success := false }).1.maps.map
          taskInfo.State = [Pending]) ∧
    ((run (MakeCoordinator ["f", "g"] 1) reapedCalls).maps.map taskInfo.State =
        [Running, Pending] ∧
      (ReportTask (run (MakeCoordinator ["f", "g"] 1) reapedCalls)
        { Typ := TaskMap, MapID := 1, ReduceID := 0, Success := true }).1.maps.map
          taskInfo.State = [Running, Done]) := by
  decide

/-- C6, amended (per-task state machine).  For the task at any index of either
table: a `RequestTask` call leaves its state as it was, or moves it
`Pending → Running`, or moves it `Running → Pending` when its lease is older
than 10 s, so it never changes a `Done` task and never makes a task `Done`.
A `ReportTask` call sets the state of the task it addresses (the first task
of the table of the reported kind with the reported id; in a reached state,
the task at index `id`) to `Done` on success and to `Pending` on failure,
whatever that state was, and leaves every other task, `nReduce` and `done`
as they were; so a success report turns a `Pending` task `Done`, a failure
report turns a `Done` task `Pending`, and a success report leaves a `Done`
task `Done`. -/
theorem task_state_edges (c : Coordinator) (call : Call) (i : Nat) (t t1 : taskInfo)
    (h : (c.maps[i]? = some t ∧ (step c call).maps[i]? = some t1) ∨
      (c.reduces[i]? = some t ∧ (step c call).reduces[i]? = some t1)) :
    (∀ now, call = Call.request now →
      (t1.State = t.State ∨
        (t.State = Pending ∧ t1.State = Running) ∨
        (t.State = Running ∧ now - t.Start > 10000000000 ∧ t1.State = Pending)) ∧
      (t.State = Done → t1.State = Done) ∧ (t1.State = Done → t.State = Done)) ∧
    (∀ args, call = Call.report args →
      (c.maps[i]? = some t → (step c call).maps[i]? = some t1 →
        ((args.Typ = TaskMap ∧ t.MapID = args.MapID ∧
            ∀ j, j < i → ∀ u, c.maps[j]? = some u → u.MapID ≠ args.MapID) →
          t1 = { t with State := if args.Success = true then Done else Pending }) ∧
        (¬ (args.Typ = TaskMap ∧ t.MapID = args.MapID ∧
            ∀ j, j < i → ∀ u, c.maps[j]? = some u → u.MapID ≠ args.MapID) →
          t1 = t)) ∧
      (c.reduces[i]? = some t → (step c call).reduces[i]? = some t1 →
        ((args.Typ = TaskReduce ∧ t.ReduceID = args.ReduceID ∧
            ∀ j, j < i → ∀ u, c.reduces[j]? = some u → u.ReduceID ≠ args.ReduceID) →
          t1 = { t with State := if args.Success = true then Done else Pending }) ∧
        (¬ (args.Typ = TaskReduce ∧ t.ReduceID = args.ReduceID ∧
            ∀ j, j < i → ∀ u, c.reduces[j]? = some u → u.ReduceID ≠ args.ReduceID) →
          t1 = t)) ∧
      (args.Success = true → t.State = Done → t1.State = Done) ∧
      (step c call).nReduce = c.nReduce ∧ (step c call).done = c.done ∧
      (step c call).maps.length = c.maps.length ∧
      (step c call).reduces.length = c.reduces.length ∧
      (∀ (files : List String) (R : Int) (calls : List Call),
        c = run (MakeCoordinator files R) calls →
        (c.maps[i]? = some t → (step c call).maps[i]? = some t1 →
          t1 = if args.Typ = TaskMap ∧ args.MapID = (i : Int) then
              { t with State := if args.Success = true then Done else Pending }
            else t) ∧
        (c.reduces[i]? = some t → (step c call).reduces[i]? = some t1 →
          t1 = if args.Typ = TaskReduce ∧ args.ReduceID = (i : Int) then
              { t with State := if args.Success = true then Done else Pending }
            else t))) := by
  constructor
  · intro now hc
    have hedge : t1.State = t.State ∨ (t.State = Pending ∧ t1.State = Running) ∨
        (t.State = Running ∧ now - t.Start > 10000000000 ∧ t1.State = Pending) := by
      subst hc
      have hreq : ∀ ts ts1 : List taskInfo,
          (ts1 = reap now ts ∨ ∃ a, assignFirst now (reap now ts) = some (a, ts1)) →
          ts[i]? = some t → ts1[i]? = some t1 →
          t1.State = t.State ∨ (t.State = Pending ∧ t1.State = Running) ∨
            (t.State = Running ∧ now - t.Start > 10000000000 ∧ t1.State = Pending) := by
        intro ts ts1 hts ht ht1
        have hcase := request_table now ts ts1 hts i t t1 ht ht1
        rw [reapTask_eq] at hcase
        by_cases hexp : t.State = Running ∧ now - t.Start > 10000000000
        · rw [if_pos hexp] at hcase
          rcases hcase with h1 | ⟨-, h1⟩
          · exact Or.inr (Or.inr ⟨hexp.1, hexp.2, by rw [h1]⟩)
          · exact Or.inl (by rw [h1, hexp.1])
        · rw [if_neg hexp] at hcase
          rcases hcase with h1 | ⟨hp, h1⟩
          · exact Or.inl (by rw [h1])
          · exact Or.inr (Or.inl ⟨hp, by rw [h1]⟩)
      rcases h with ⟨ht, ht1⟩ | ⟨ht, ht1⟩
      · exact hreq _ _ (RequestTask_tables c now).1 ht ht1
      · exact hreq _ _ (RequestTask_tables c now).2 ht ht1
    refine ⟨hedge, ?_, ?_⟩
    · intro hd
      rcases hedge with e | ⟨e, -⟩ | ⟨e, -, -⟩
      · rw [e, hd]
      · rw [hd] at e; cases e
      · rw [hd] at e; cases e
    · intro hd
      rcases hedge with e | ⟨-, e⟩ | ⟨-, -, e⟩
      · rw [← e, hd]
      · rw [hd] at e; cases e
      · rw [hd] at e; cases e
  · intro args hc
    subst hc
    have hne : TaskReduce ≠ TaskMap := by decide
    have hm : c.maps[i]? = some t → (step c (Call.report args)).maps[i]? = some t1 →
        ((args.Typ = TaskMap ∧ t.MapID = args.MapID ∧
            ∀ j, j < i → ∀ u, c.maps[j]? = some u → u.MapID ≠ args.MapID) →
          t1 = { t with State := if args.Success = true then Done else Pending }) ∧
        (¬ (args.Typ = TaskMap ∧ t.MapID = args.MapID ∧
            ∀ j, j < i → ∀ u, c.maps[j]? = some u → u.MapID ≠ args.MapID) →
          t1 = t) := by
      intro ht ht1
      change (ReportTask c args).1.maps[i]? = some t1 at ht1
      unfold ReportTask at ht1
      by_cases hty : args.Typ = TaskMap
      · rw [if_pos hty] at ht1
        obtain ⟨a1, a2⟩ := reportFirst_at taskInfo.MapID args.MapID args.Success c.maps i t t1
          ht ht1
        exact ⟨fun hc => a1 ⟨hc.2.1, hc.2.2⟩, fun hc => a2 (fun hk => hc ⟨hty, hk.1, hk.2⟩)⟩
      · have e : t1 = t := by
          rw [if_neg hty] at ht1
          split_ifs at ht1 <;> exact (Option.some.inj (ht.symm.trans ht1)).symm
        exact ⟨fun hc => absurd hc.1 hty, fun _ => e⟩
    have hr : c.reduces[i]? = some t → (step c (Call.report args)).reduces[i]? = some t1 →
        ((args.Typ = TaskReduce ∧ t.ReduceID = args.ReduceID ∧
            ∀ j, j < i → ∀ u, c.reduces[j]? = some u → u.ReduceID ≠ args.ReduceID) →
          t1 = { t with State := if args.Success = true then Done else Pending }) ∧
        (¬ (args.Typ = TaskReduce ∧ t.ReduceID = args.ReduceID ∧
            ∀ j, j < i → ∀ u, c.reduces[j]? = some u → u.ReduceID ≠ args.ReduceID) →
          t1 = t) := by
      intro ht ht1
      change (ReportTask c args).1.reduces[i]? = some t1 at ht1
      unfold ReportTask at ht1
      by_cases hty : args.Typ = TaskReduce
      · have hnm : args.Typ ≠ TaskMap := by rw [hty]; exact hne
        rw [if_neg hnm, if_pos hty] at ht1
        obtain ⟨a1, a2⟩ := reportFirst_at taskInfo.ReduceID args.ReduceID args.Success
          c.reduces i t t1 ht ht1
        exact ⟨fun hc => a1 ⟨hc.2.1, hc.2.2⟩, fun hc => a2 (fun hk => hc ⟨hty, hk.1, hk.2⟩)⟩
      · have e : t1 = t := by
          split_ifs at ht1 <;> exact (Option.some.inj (ht.symm.trans ht1)).symm
        exact ⟨fun hc => absurd hc.1 hty, fun _ => e⟩
    have hkeep : ∀ u : Prop,
        ((u → t1 = { t with State := if args.Success = true then Done else Pending }) ∧
          (¬ u → t1 = t)) →
        args.Success = true → t.State = Done → t1.State = Done := by
      intro u hu hs hd
      by_cases hc : u
      · rw [hu.1 hc, if_pos hs]
      · rw [hu.2 hc, hd]
    refine ⟨hm, hr, ?_, ?_, ReportTask_done c args, ?_, ?_, ?_⟩
    · rcases h with ⟨ht, ht1⟩ | ⟨ht, ht1⟩
      · exact hkeep _ (hm ht ht1)
      · exact hkeep _ (hr ht ht1)
    · have := congrArg (fun p => p.2.2) (shape_ReportTask c args)
      simpa [shape] using this
    · have := congrArg (fun p => p.1.length) (shape_ReportTask c args)
      simpa [shape] using this
    · have := congrArg (fun p => p.2.1.length) (shape_ReportTask c args)
      simpa [shape] using this
    · intro files R calls hcr
      constructor
      · intro ht ht1
        have hmid : ∀ (j : Nat) (u : taskInfo), c.maps[j]? = some u → u.MapID = (j : Int) := by
          intro j u hu
          rw [hcr] at hu
          obtain ⟨f, -, hf⟩ := reachable_maps files R calls j u hu
          have := congrArg taskInfo.MapID hf
          simpa [eraseRun, newMapTask] using this
        obtain ⟨a1, a2⟩ := hm ht ht1
        by_cases hcnd : args.Typ = TaskMap ∧ args.MapID = (i : Int)
        · rw [if_pos hcnd]
          refine a1 ⟨hcnd.1, (hmid i t ht).trans hcnd.2.symm, ?_⟩
          intro j hj u hu
          rw [hmid j u hu, hcnd.2]
          omega
        · rw [if_neg hcnd]
          exact a2 (fun hk => hcnd ⟨hk.1, hk.2.1.symm.trans (hmid i t ht)⟩)
      · intro ht ht1
        have hrid : ∀ (j : Nat) (u : taskInfo),
            c.reduces[j]? = some u → u.ReduceID = (j : Int) := by
          intro j u hu
          rw [hcr] at hu
          obtain ⟨-, hf⟩ := reachable_reduces files R calls j u hu
          have := congrArg taskInfo.ReduceID hf
          simpa [eraseRun, newReduceTask] using this
        obtain ⟨a1, a2⟩ := hr ht ht1
        by_cases hcnd : args.Typ = TaskReduce ∧ args.ReduceID = (i : Int)
        · rw [if_pos hcnd]
          refine a1 ⟨hcnd.1, (hrid i t ht).trans hcnd.2.symm, ?_⟩
          intro j hj u hu
          rw [hrid j u hu, hcnd.2]
          omega
        · rw [if_neg hcnd]
          exact a2 (fun hk => hcnd ⟨hk.1, hk.2.1.symm.trans (hrid i t ht)⟩)

/-- Witness for C6 amended: the request at 21 s in the two-file job reaps map 1
(`Running → Pending`), and in the one-file job a failure report for map 0
that arrives after the task is `Done` puts it back to `Pending`. -/
theorem task_state_edges_witness :
    ((((run (MakeCoordinator ["f", "g"] 1) [Call.request 0, Call.request 1000000000]).maps[1]? =
        some { Typ := TaskMap, State := Running, MapID := 1, ReduceID := 0, Files := ["g"],
               Start := 1000000000 } ∧
      (step (run (MakeCoordinator ["f", "g"] 1) [Call.request 0, Call.request 1000000000])
        (Call.request 21000000000)).maps[1]? =
        some { Typ := TaskMap, State := Pending, MapID := 1, ReduceID := 0, Files := ["g"],
               Start := 1000000000 })) ∧
    ((Pending : TaskState) = Running ∨
      ((Running : TaskState) = Pending ∧ (Pending : TaskState) = Running) ∨
      ((Running : TaskState) = Running ∧ (21000000000 : Int) - 1000000000 > 10000000000 ∧
        (Pending : TaskState) = Pending))) ∧
    (((run (MakeCoordinator ["f"] 1) lateCalls).maps[0]? =
        some { Typ := TaskMap, State := Done, MapID := 0, ReduceID := 0, Files := ["f"],
               Start := 20000000000 } ∧
      (step (run (MakeCoordinator ["f"] 1) lateCalls)
        (Call.report { Typ := TaskMap, MapID := 0, ReduceID := 0, Success := false })).maps[0]? =
        some { Typ := TaskMap, State := Pending, MapID := 0, ReduceID := 0, Files := ["f"],
               Start := 20000000000 }) ∧
      ({ Typ := TaskMap, State := Pending, MapID := 0, ReduceID := 0, Files := ["f"],
         Start := 20000000000 } : taskInfo) =
        { ({ Typ := TaskMap, State := Done, MapID := 0, ReduceID := 0, Files := ["f"],
             Start := 20000000000 } : taskInfo) with
          State := if false = true then Done else Pending }) :=
  ⟨⟨by decide,
    ((task_state_edges
      (run (MakeCoordinator ["f", "g"] 1) [Call.request 0, Call.request 1000000000])
      (Call.request 21000000000) 1
      { Typ := TaskMap, State := Running, MapID := 1, ReduceID := 0, Files := ["g"],
        Start := 1000000000 }
      { Typ := TaskMap, State := Pending, MapID := 1, ReduceID := 0, Files := ["g"],
        Start := 1000000000 }
      (Or.inl (by decide))).1 21000000000 rfl).1⟩,
   ⟨by decide,
    (((task_state_edges (run (MakeCoordinator ["f"] 1) lateCalls)
      (Call.report { Typ := TaskMap, MapID := 0, ReduceID := 0, Success := false }) 0
      { Typ := TaskMap, State := Done, MapID := 0, ReduceID := 0, Files := ["f"],
        Start := 20000000000 }
      { Typ := TaskMap, State := Pending, MapID := 0, ReduceID := 0, Files := ["f"],
        Start := 20000000000 }
      (Or.inl (by decide))).2
        { Typ := TaskMap, MapID := 0, ReduceID := 0, Success := false } rfl).1
        (by decide) (by decide)).1 ⟨rfl, rfl, by intro j hj; omega⟩⟩⟩

/-- C7 (ReportTask effect and frame).  `ReportTask` never returns an error.  A
Map report whose `MapID` is that of a task of the Map table sets the state of
that task (the first one with that id; the only one in a reached state, where
`MapID` is the index) to `Done` on success and `Pending` otherwise, and
changes nothing else: not that task's lease, ids or files, no other task,
not `nReduce`, not `done`.  The same holds for Reduce reports and
`ReduceID`.  A Map report ignores `ReduceID` and a Reduce report `MapID`. -/
theorem reportTask_effect_frame (c : Coordinator) (args : ReportArgs) (i : Nat)
    (t : taskInfo) :
    (ReportTask c args).2 = none ∧
    (args.Typ = TaskMap → c.maps[i]? = some t → t.MapID = args.MapID →
      (∀ j, j < i → ∀ u, c.maps[j]? = some u → u.MapID ≠ args.MapID) →
      (ReportTask c args).1 =
        { maps := c.maps.set i
              { t with State := if args.Success = true then Done else Pending },
          reduces := c.reduces, nReduce := c.nReduce, done := c.done }) ∧
    (args.Typ = TaskReduce → c.reduces[i]? = some t → t.ReduceID = args.ReduceID →
      (∀ j, j < i → ∀ u, c.reduces[j]? = some u → u.ReduceID ≠ args.ReduceID) →
      (ReportTask c args).1 =
        { maps := c.maps,
          reduces := c.reduces.set i
              { t with State := if args.Success = true then Done else Pending },
          nReduce := c.nReduce, done := c.done }) ∧
    (∀ (files : List String) (R : Int) (calls : List Call),
      c = run (MakeCoordinator files R) calls →
      (args.Typ = TaskMap → c.maps[i]? = some t → args.MapID = (i : Int) →
        (ReportTask c args).1 =
          { maps := c.maps.set i
              { t with State := if args.Success = true then Done else Pending },
            reduces := c.reduces, nReduce := c.nReduce, done := c.done }) ∧
      (args.Typ = TaskReduce → c.reduces[i]? = some t → args.ReduceID = (i : Int) →
        (ReportTask c args).1 =
          { maps := c.maps,
            reduces := c.reduces.set i
              { t with State := if args.Success = true then Done else Pending },
            nReduce := c.nReduce, done := c.done })) ∧
    (∀ x : Int, args.Typ = TaskMap →
      ReportTask c { args with ReduceID := x } = ReportTask c args) ∧
    (∀ x : Int, args.Typ = TaskReduce →
      ReportTask c { args with MapID := x } = ReportTask c args) := by
  have hmap : args.Typ = TaskMap → c.maps[i]? = some t → t.MapID = args.MapID →
      (∀ j, j < i → ∀ u, c.maps[j]? = some u → u.MapID ≠ args.MapID) →
      (ReportTask c args).1 =
        { maps := c.maps.set i
              { t with State := if args.Success = true then Done else Pending },
          reduces := c.reduces, nReduce := c.nReduce, done := c.done } := by
    intro hty ht hid hfirst
    unfold ReportTask
    rw [if_pos hty]
    show ({ c with maps := _ } : Coordinator) = _
    rw [reportFirst_set taskInfo.MapID args.MapID args.Success c.maps i t ht hid hfirst]
    rfl
  have hred : args.Typ = TaskReduce → c.reduces[i]? = some t → t.ReduceID = args.ReduceID →
      (∀ j, j < i → ∀ u, c.reduces[j]? = some u → u.ReduceID ≠ args.ReduceID) →
      (ReportTask c args).1 =
        { maps := c.maps,
          reduces := c.reduces.set i
              { t with State := if args.Success = true then Done else Pending },
          nReduce := c.nReduce, done := c.done } := by
    intro hty ht hid hfirst
    have hne : args.Typ ≠ TaskMap := by rw [hty]; decide
    unfold ReportTask
    rw [if_neg hne, if_pos hty]
    show ({ c with reduces := _ } : Coordinator) = _
    rw [reportFirst_set taskInfo.ReduceID args.ReduceID args.Success c.reduces i t ht hid hfirst]
    rfl
  refine ⟨ReportTask_err c args, hmap, hred, ?_, ?_, ?_⟩
  · intro files R calls hc
    constructor
    · intro hty ht hid
      have hmid : ∀ (j : Nat) (u : taskInfo), c.maps[j]? = some u → u.MapID = (j : Int) := by
        intro j u hu
        rw [hc] at hu
        obtain ⟨f, -, hf⟩ := reachable_maps files R calls j u hu
        have := congrArg taskInfo.MapID hf
        simpa [eraseRun, newMapTask] using this
      refine hmap hty ht ((hmid i t ht).trans hid.symm) ?_
      intro j hj u hu
      rw [hmid j u hu, hid]
      omega
    · intro hty ht hid
      have hrid : ∀ (j : Nat) (u : taskInfo), c.reduces[j]? = some u → u.ReduceID = (j : Int) := by
        intro j u hu
        rw [hc] at hu
        obtain ⟨-, hf⟩ := reachable_reduces files R calls j u hu
        have := congrArg taskInfo.ReduceID hf
        simpa [eraseRun, newReduceTask] using this
      refine hred hty ht ((hrid i t ht).trans hid.symm) ?_
      intro j hj u hu
      rw [hrid j u hu, hid]
      omega
  · intro x hty
    unfold ReportTask
    simp [hty]
  · intro x hty
    have hne : TaskReduce ≠ TaskMap := by decide
    unfold ReportTask
    simp [hty, hne]

/-- Witness for C7: in the one-file job after one request, the success report
for map 0 sets task 0 to `Done`, the failure report sets it to `Pending`, and
neither changes anything else. -/
theorem reportTask_effect_frame_witness :
    (ReportTask (run (MakeCoordinator ["f"] 1) [Call.request 0])
      { Typ := TaskMap, MapID := 0, ReduceID := 7, Success := true }).1 =
      { maps := [{ Typ := TaskMap, State := Done, MapID := 0, ReduceID := 0,
                   Files := ["f"], Start := 0 }],
        reduces := (run (MakeCoordinator ["f"] 1) [Call.request 0]).reduces,
        nReduce := (run (MakeCoordinator ["f"] 1) [Call.request 0]).nReduce,
        done := (run (MakeCoordinator ["f"] 1) [Call.request 0]).done } ∧
    (ReportTask (run (MakeCoordinator ["f"] 1) [Call.request 0])
      { Typ := TaskMap, MapID := 0, ReduceID := 7, Success := false }).1 =
      { maps := [{ Typ := TaskMap, State := Pending, MapID := 0, ReduceID := 0,
                   Files := ["f"], Start := 0 }],
        reduces := (run (MakeCoordinator ["f"] 1) [Call.request 0]).reduces,
        nReduce := (run (MakeCoordinator ["f"] 1) [Call.request 0]).nReduce,
        done := (run (MakeCoordinator ["f"] 1) [Call.request 0]).done } :=
  ⟨(reportTask_effect_frame (run (MakeCoordinator ["f"] 1) [Call.request 0])
      { Typ := TaskMap, MapID := 0, ReduceID := 7, Success := true } 0
      { Typ := TaskMap, State := Running, MapID := 0, ReduceID := 0, Files := ["f"],
        Start := 0 }).2.1 (by decide) (by decide) (by decide) (by intro j hj; omega),
   (reportTask_effect_frame (run (MakeCoordinator ["f"] 1) [Call.request 0])
      { Typ := TaskMap, MapID := 0, ReduceID := 7, Success := false } 0
      { Typ := TaskMap, State := Running, MapID := 0, ReduceID := 0, Files := ["f"],
        Start := 0 }).2.1 (by decide) (by decide) (by decide) (by intro j hj; omega)⟩

/-- C8 (Unknown reports are no-ops).  A report whose id is the id of no task
of the reported table, or whose kind is neither Map nor Reduce, leaves the
coordinator state unchanged and returns no error; in a state reached from
`MakeCoordinator files R` that covers every Map report with `MapID < 0` or
`MapID ≥ len(files)` and every Reduce report with `ReduceID < 0` or
`ReduceID ≥ R`. -/
theorem reportTask_unknown_noop (c : Coordinator) (args : ReportArgs) :
    (args.Typ = TaskMap → (∀ t ∈ c.maps, t.MapID ≠ args.MapID) →
      ReportTask c args = (c, none)) ∧
    (args.Typ = TaskReduce → (∀ t ∈ c.reduces, t.ReduceID ≠ args.ReduceID) →
      ReportTask c args = (c, none)) ∧
    (args.Typ ≠ TaskMap → args.Typ ≠ TaskReduce → ReportTask c args = (c, none)) ∧
    (∀ (files : List String) (R : Int) (calls : List Call),
      c = run (MakeCoordinator files R) calls →
      (args.Typ = TaskMap → (args.MapID < 0 ∨ args.MapID ≥ (files.length : Int)) →
        ReportTask c args = (c, none)) ∧
      (args.Typ = TaskReduce → (args.ReduceID < 0 ∨ args.ReduceID ≥ R) →
        ReportTask c args = (c, none))) := by
  have hmap : args.Typ = TaskMap → (∀ t ∈ c.maps, t.MapID ≠ args.MapID) →
      ReportTask c args = (c, none) := by
    intro hty h
    unfold ReportTask
    rw [if_pos hty, reportFirst_noop _ _ _ _ h]
  have hred : args.Typ = TaskReduce → (∀ t ∈ c.reduces, t.ReduceID ≠ args.ReduceID) →
      ReportTask c args = (c, none) := by
    intro hty h
    have hne : args.Typ ≠ TaskMap := by rw [hty]; decide
    unfold ReportTask
    rw [if_neg hne, if_pos hty, reportFirst_noop _ _ _ _ h]
  refine ⟨hmap, hred, ?_, ?_⟩
  · intro h1 h2
    unfold ReportTask
    rw [if_neg h1, if_neg h2]
  · intro files R calls hc
    constructor
    · intro hty hid
      refine hmap hty ?_
      intro t ht
      obtain ⟨j, hj⟩ := List.getElem?_of_mem ht
      rw [hc] at hj
      obtain ⟨f, hf, hfu⟩ := reachable_maps files R calls j t hj
      have hm : t.MapID = (j : Int) := by
        have := congrArg taskInfo.MapID hfu
        simpa [eraseRun, newMapTask] using this
      have hlt : j < files.length := by
        by_contra hge
        rw [List.getElem?_eq_none (by omega)] at hf
        simp at hf
      rw [hm]
      omega
    · intro hty hid
      refine hred hty ?_
      intro t ht
      obtain ⟨j, hj⟩ := List.getElem?_of_mem ht
      rw [hc] at hj
      obtain ⟨hlt, hfu⟩ := reachable_reduces files R calls j t hj
      have hm : t.ReduceID = (j : Int) := by
        have := congrArg taskInfo.ReduceID hfu
        simpa [eraseRun, newReduceTask] using this
      rw [hm]
      omega

/-- Witness for C8: in the one-file job, reports for map 1, for map -1, for
reduce 1 and of kind `Exit` change nothing. -/
theorem reportTask_unknown_noop_witness :
    ReportTask (run (MakeCoordinator ["f"] 1) [Call.request 0])
        { Typ := TaskMap, MapID := 1, ReduceID := 0, Success := true } =
      (run (MakeCoordinator ["f"] 1) [Call.request 0], none) ∧
    ReportTask (run (MakeCoordinator ["f"] 1) [Call.request 0])
        { Typ := TaskExit, MapID := 0, ReduceID := 0, Success := true } =
      (run (MakeCoordinator ["f"] 1) [Call.request 0], none) :=
  ⟨((reportTask_unknown_noop (run (MakeCoordinator ["f"] 1) [Call.request 0])
      { Typ := TaskMap, MapID := 1, ReduceID := 0, Success := true }).2.2.2
        ["f"] 1 [Call.request 0] rfl).1 (by decide) (by decide),
   (reportTask_unknown_noop (run (MakeCoordinator ["f"] 1) [Call.request 0])
      { Typ := TaskExit, MapID := 0, ReduceID := 0, Success := true }).2.2.1
        (by decide) (by decide)⟩

end mr

namespace mr

/-! ## The worker: file names, the model directory, `doMap` and `doReduce` -/


theorem concatStr_append (l1 l2 : List String) :
    concatStr (l1 ++ l2) = concatStr l1 ++ concatStr l2 := by
  induction l1 with
  | nil => simp [concatStr]
  | cons s l ih => simp [concatStr, ih, String.append_assoc]

theorem foldl_append_concatStr (l : List String) :
    ∀ acc : String, l.foldl (fun r s => r ++ s) acc = acc ++ concatStr l := by
  induction l with
  | nil => intro acc; simp [concatStr]
  | cons s l ih => intro acc; simp [concatStr, ih, String.append_assoc]

theorem concatStr_eq_join (l : List String) : concatStr l = String.join l := by
  unfold String.join
  rw [foldl_append_concatStr]
  simp

/-- The output file is the lines `<key> <result>\n` of the entries, in order. -/
theorem render_eq_join (entries : List (String × String)) :
    render entries = String.join (entries.map (fun e => e.1 ++ " " ++ e.2 ++ "\n")) := by
  unfold render
  rw [concatStr_eq_join]
  rfl

theorem dropLit_eq_some (lit cs rest : List Char) :
    dropLit lit cs = some rest ↔ cs = lit ++ rest := by
  induction lit generalizing cs with
  | nil => simp [dropLit, eq_comm]
  | cons a lit ih =>
    cases cs with
    | nil => simp [dropLit]
    | cons c cs =>
      by_cases h : a = c
      · subst h; simp [dropLit, ih]
      · simp only [dropLit, h, if_false, List.cons_append, List.cons.injEq]
        constructor
        · intro h1; cases h1
        · intro h1; exact absurd h1.1.symm h

theorem dropLit_eq_none (lit cs : List Char) :
    dropLit lit cs = none ↔ ∀ rest, cs ≠ lit ++ rest := by
  constructor
  · intro h rest hr
    rw [(dropLit_eq_some lit cs rest).2 hr] at h
    cases h
  · intro h
    cases hd : dropLit lit cs with
    | none => rfl
    | some rest => exact absurd ((dropLit_eq_some lit cs rest).1 hd) (h rest)

/-- The decimal digits. -/
theorem digitChar_isDigit (k : Nat) (h : k < 10) :
    (Nat.digitChar k).isDigit = true ∧ (Nat.digitChar k).toNat - 48 = k := by
  interval_cases k <;> decide

theorem toDigitsCore_digits (fuel n : Nat) (ds : List Char) :
    ∀ c ∈ Nat.toDigitsCore 10 fuel n ds, c.isDigit = true ∨ c ∈ ds := by
  induction fuel generalizing n ds with
  | zero => intro c hc; exact Or.inr (by simpa [Nat.toDigitsCore] using hc)
  | succ fuel ih =>
    intro c hc
    simp only [Nat.toDigitsCore] at hc
    have hd := (digitChar_isDigit (n % 10) (Nat.mod_lt _ (by omega))).1
    split_ifs at hc with h0
    · rcases List.mem_cons.1 hc with h | h
      · exact Or.inl (by rw [h]; exact hd)
      · exact Or.inr h
    · rcases ih _ _ c hc with h | h
      · exact Or.inl h
      · rcases List.mem_cons.1 h with h | h
        · exact Or.inl (by rw [h]; exact hd)
        · exact Or.inr h

theorem toDigitsCore_decVal (fuel n : Nat) (ds : List Char) (h : n < fuel) :
    decVal 0 (Nat.toDigitsCore 10 fuel n ds) = decVal n ds := by
  induction fuel generalizing n ds with
  | zero => omega
  | succ fuel ih =>
    have hd := (digitChar_isDigit (n % 10) (Nat.mod_lt _ (by omega))).2
    simp only [Nat.toDigitsCore]
    split_ifs with h0
    · simp only [decVal, List.foldl_cons, hd]
      congr 1
      omega
    · rw [ih (n / 10) _ (by omega)]
      simp only [decVal, List.foldl_cons, hd]
      congr 1
      omega

theorem repr_data (n : Nat) : (Nat.repr n).data = Nat.toDigits 10 n := rfl

theorem repr_digits (n : Nat) : ∀ c ∈ (Nat.repr n).data, c.isDigit = true := by
  intro c hc
  rw [repr_data] at hc
  rcases toDigitsCore_digits _ _ _ c hc with h | h
  · exact h
  · simp at h

theorem repr_injective (a b : Nat) (h : Nat.repr a = Nat.repr b) : a = b := by
  have h1 := toDigitsCore_decVal (a + 1) a [] (by omega)
  have h2 := toDigitsCore_decVal (b + 1) b [] (by omega)
  have hd : Nat.toDigits 10 a = Nat.toDigits 10 b := by
    rw [← repr_data, ← repr_data, h]
  unfold Nat.toDigits at hd
  rw [hd, h2] at h1
  simpa [decVal] using h1.symm

theorem itoa_natCast (n : Nat) : itoa (n : Int) = Nat.repr n := by
  unfold itoa
  rw [if_neg (by omega)]
  simp

theorem last_sep (c : Char) (l1 l2 d1 d2 : List Char) (h1 : c ∉ d1) (h2 : c ∉ d2)
    (h : l1 ++ c :: d1 = l2 ++ c :: d2) : l1 = l2 ∧ d1 = d2 := by
  induction l1 generalizing l2 with
  | nil =>
    cases l2 with
    | nil => simpa using h
    | cons y l2 =>
      simp only [List.nil_append, List.cons_append, List.cons.injEq] at h
      exact absurd (by rw [h.2]; simp) h1
  | cons x l1 ih =>
    cases l2 with
    | nil =>
      simp only [List.nil_append, List.cons_append, List.cons.injEq] at h
      exact absurd (by rw [← h.2]; simp) h2
    | cons y l2 =>
      simp only [List.cons_append, List.cons.injEq] at h
      obtain ⟨e1, e2⟩ := ih l2 h.2
      exact ⟨by rw [h.1, e1], e2⟩

theorem repr_no_dash (n : Nat) : '-' ∉ (Nat.repr n).data := by
  intro h
  have := repr_digits n _ h
  exact absurd this (by decide)

theorem repr_no_slash (n : Nat) : ∀ c ∈ (Nat.repr n).data, c ≠ '/' := by
  intro c hc hs
  have := repr_digits n c hc
  rw [hs] at this
  exact absurd this (by decide)

theorem shardName_data (m r : Int) :
    (shardName m r).data = "mr-".data ++ (itoa m).data ++ '-' :: (itoa r).data := by
  simp [shardName, String.data_append]

theorem outName_data (r : Int) :
    (outName r).data = "mr-out".data ++ '-' :: (itoa r).data := by
  simp [outName, String.data_append]

/-- For a fixed map id, distinct partitions have distinct shard names. -/
theorem shardName_inj_right (m : Int) (a b : Nat)
    (h : shardName m (a : Int) = shardName m (b : Int)) : a = b := by
  have hd := congrArg String.data h
  rw [shardName_data, shardName_data, itoa_natCast, itoa_natCast] at hd
  have := List.append_cancel_left hd
  simp only [List.cons.injEq, true_and] at this
  exact repr_injective a b (String.ext this)

/-- What the pattern `mr-*-<r>` matches. -/
theorem globMatch_iff (r : Int) (name : String) :
    globMatch r name = true ↔
      ∃ x : List Char, name.data = "mr-".data ++ x ++ '-' :: (itoa r).data ∧
        ∀ c ∈ x, c ≠ '/' := by
  have hsuf : ("-" ++ itoa r).data = '-' :: (itoa r).data := by
    simp [String.data_append]
  unfold globMatch
  rw [hsuf]
  constructor
  · intro h
    cases h1 : dropLit "mr-".data name.data with
    | none => rw [h1] at h; simp at h
    | some rest =>
      rw [h1] at h
      simp only at h
      cases h2 : dropLit ('-' :: (itoa r).data).reverse rest.reverse with
      | none => rw [h2] at h; simp at h
      | some y =>
        rw [h2] at h
        simp only at h
        have e1 := (dropLit_eq_some _ _ _).1 h1
        have e2 := (dropLit_eq_some _ _ _).1 h2
        have e3 : rest = y.reverse ++ '-' :: (itoa r).data := by
          have := congrArg List.reverse e2
          simpa using this
        refine ⟨y.reverse, by rw [e1, e3, List.append_assoc], ?_⟩
        intro c hc
        have := (List.all_eq_true.1 h) c (List.mem_reverse.1 hc)
        simpa using this
  · rintro ⟨x, hx, hall⟩
    have h1 : dropLit "mr-".data name.data = some (x ++ '-' :: (itoa r).data) :=
      (dropLit_eq_some _ _ _).2 (by rw [hx, List.append_assoc])
    have h2 : dropLit ('-' :: (itoa r).data).reverse (x ++ '-' :: (itoa r).data).reverse =
        some x.reverse :=
      (dropLit_eq_some _ _ _).2 (by simp)
    rw [h1]
    simp only
    rw [h2]
    simp only
    rw [List.all_eq_true]
    intro c hc
    have := hall c (List.mem_reverse.1 hc)
    simpa using this

/-- The pattern of partition `r` selects the shard `mr-<m>-<p>` exactly when
`p = r`. -/
theorem globMatch_shardName (r m p : Nat) :
    globMatch (r : Int) (shardName (m : Int) (p : Int)) = true ↔ p = r := by
  rw [globMatch_iff]
  constructor
  · rintro ⟨x, hx, -⟩
    simp only [shardName_data, itoa_natCast] at hx
    obtain ⟨-, e⟩ := last_sep '-' _ _ _ _ (repr_no_dash p) (repr_no_dash r) hx
    exact repr_injective p r (String.ext e)
  · intro h
    subst h
    exact ⟨(Nat.repr m).data, by simp only [shardName_data, itoa_natCast], repr_no_slash m⟩

/-- The pattern of partition `r` selects the output name `mr-out-<q>` exactly
when `q = r`. -/
theorem globMatch_outName (r q : Nat) :
    globMatch (r : Int) (outName (q : Int)) = true ↔ q = r := by
  rw [globMatch_iff]
  constructor
  · rintro ⟨x, hx, -⟩
    simp only [outName_data, itoa_natCast] at hx
    obtain ⟨-, e⟩ := last_sep '-' _ _ _ _ (repr_no_dash q) (repr_no_dash r) hx
    exact repr_injective q r (String.ext e)
  · intro h
    subst h
    refine ⟨['o', 'u', 't'], by simp only [outName_data, itoa_natCast]; rfl, ?_⟩
    intro c hc
    simp only [List.mem_cons, List.mem_singleton, List.not_mem_nil, or_false] at hc
    rcases hc with h | h | h <;> rw [h] <;> decide

/-! ### The model directory -/

theorem read_filter_ne (fs : FS) (n x : String) (h : x ≠ n) :
    FS.read (fs.filter (fun e => e.1 ≠ n)) x = FS.read fs x := by
  induction fs with
  | nil => rfl
  | cons e fs ih =>
    obtain ⟨a, c⟩ := e
    by_cases ha : a = n
    · subst ha
      have hx : ¬ a = x := fun e => h e.symm
      rw [List.filter_cons_of_neg (by simp)]
      simp only [FS.read, hx, if_false]
      exact ih
    · rw [List.filter_cons_of_pos (by simpa using ha)]
      by_cases hax : a = x
      · simp only [FS.read, hax, if_true]
      · simp only [FS.read, hax, if_false]
        exact ih

theorem read_write_same (fs : FS) (n c : String) : FS.read (FS.write fs n c) n = some c := by
  simp [FS.write, FS.read]

theorem read_write_other (fs : FS) (n c x : String) (h : x ≠ n) :
    FS.read (FS.write fs n c) x = FS.read fs x := by
  have hn : ¬ n = x := fun e => h e.symm
  simp only [FS.write, FS.read, hn, if_false]
  exact read_filter_ne fs n x h

theorem mem_names_write (fs : FS) (n c x : String) :
    x ∈ FS.names (FS.write fs n c) ↔ x = n ∨ x ∈ FS.names fs := by
  simp only [FS.names, FS.write, List.mem_dedup, List.map_cons, List.mem_cons, List.mem_map,
    List.mem_filter]
  constructor
  · rintro (h | ⟨e, ⟨he, -⟩, hx⟩)
    · exact Or.inl h
    · exact Or.inr ⟨e, he, hx⟩
  · rintro (h | ⟨e, he, hx⟩)
    · exact Or.inl h
    · by_cases hxn : x = n
      · exact Or.inl hxn
      · exact Or.inr ⟨e, ⟨he, by simpa [hx] using hxn⟩, hx⟩

theorem ihash_nonneg (key : String) : 0 ≤ ihash key := by
  unfold ihash
  exact Int.natCast_nonneg _

/-- The partition index `ihash(key) % nReduce` is a valid index. -/
theorem partition_range (key : String) (R : Int) (hR : 0 < R) :
    ∃ p : Nat, (p : Int) < R ∧ Int.tmod (ihash key) R = (p : Int) ∧
      Int.tmod (ihash key) R = ihash key % R := by
  have h0 := Int.tmod_nonneg R (ihash_nonneg key)
  have h1 := Int.tmod_lt_of_pos (ihash key) hR
  refine ⟨(Int.tmod (ihash key) R).toNat, ?_, ?_, Int.tmod_eq_emod (ihash_nonneg key) (by omega)⟩
  · rw [Int.toNat_of_nonneg h0]; exact h1
  · rw [Int.toNat_of_nonneg h0]

theorem encodeLoop_spec (L : Lib) (R : Int) (hR : 0 < R) (kva : List KeyValue)
    (bufs : List String) (hlen : bufs.length = R.toNat) :
    ∃ bufs1, encodeLoop L R bufs kva = some bufs1 ∧ bufs1.length = R.toNat ∧
      ∀ (p : Nat) (b : String), bufs[p]? = some b →
        bufs1[p]? = some (b ++ concatStr
          ((kva.filter (fun kv => Int.tmod (ihash kv.Key) R = (p : Int))).map L.encode)) := by
  induction kva generalizing bufs with
  | nil =>
    refine ⟨bufs, rfl, hlen, ?_⟩
    intro p b hb
    simp [concatStr, hb]
  | cons kv kva ih =>
    obtain ⟨q, hq, hqe, -⟩ := partition_range kv.Key R hR
    have hqlen : q < bufs.length := by rw [hlen]; omega
    obtain ⟨b0, hb0⟩ : ∃ b0, bufs[q]? = some b0 :=
      ⟨bufs[q], List.getElem?_eq_getElem hqlen⟩
    obtain ⟨bufs1, h1, hl1, hspec⟩ :=
      ih (bufs.set q (b0 ++ L.encode kv)) (by rw [List.length_set]; exact hlen)
    refine ⟨bufs1, ?_, hl1, ?_⟩
    · simp only [encodeLoop, hqe]
      rw [if_neg (by omega)]
      simp only [Int.toNat_ofNat, hb0]
      exact h1
    · intro p b hb
      by_cases hpq : q = p
      · subst hpq
        have hbb : b = b0 := Option.some.inj (hb.symm.trans hb0)
        have := hspec q (b0 ++ L.encode kv) (by
          rw [List.getElem?_set, if_pos rfl, if_pos hqlen])
        rw [this, hbb]
        simp [List.filter_cons, hqe, concatStr, String.append_assoc]
      · have := hspec p b (by rw [List.getElem?_set, if_neg hpq]; exact hb)
        rw [this]
        have hne : ¬ Int.tmod (ihash kv.Key) R = (p : Int) := by
          rw [hqe]; omega
        simp [List.filter_cons, hne]

theorem publish_spec (mapID : Int) (bufs : List String) (fs : FS) (r0 : Nat) :
    (∀ p, p < bufs.length →
      FS.read (publish mapID fs r0 bufs) (shardName mapID ((r0 + p : Nat) : Int)) = bufs[p]?) ∧
    (∀ n, (∀ p, p < bufs.length → n ≠ shardName mapID ((r0 + p : Nat) : Int)) →
      FS.read (publish mapID fs r0 bufs) n = FS.read fs n) ∧
    (∀ n, n ∈ FS.names (publish mapID fs r0 bufs) ↔
      n ∈ FS.names fs ∨ ∃ p, p < bufs.length ∧ n = shardName mapID ((r0 + p : Nat) : Int)) := by
  induction bufs generalizing fs r0 with
  | nil =>
    refine ⟨?_, ?_, ?_⟩
    · intro p hp; simp at hp
    · intro n _; rfl
    · intro n; simp [publish]
  | cons b bufs ih =>
    obtain ⟨ih1, ih2, ih3⟩ := ih (FS.write fs (shardName mapID (r0 : Int)) b) (r0 + 1)
    refine ⟨?_, ?_, ?_⟩
    · intro p hp
      cases p with
      | zero =>
        simp only [publish, Nat.add_zero, List.getElem?_cons_zero]
        rw [ih2]
        · exact read_write_same _ _ _
        · intro q _ hq
          have := shardName_inj_right mapID _ _ hq
          omega
      | succ p =>
        simp only [publish, List.getElem?_cons_succ]
        have := ih1 p (by simpa using hp)
        rw [show r0 + (p + 1) = r0 + 1 + p by omega]
        exact this
    · intro n hn
      simp only [publish]
      rw [ih2]
      · apply read_write_other
        have := hn 0 (by simp)
        simpa using this
      · intro q hq
        have := hn (q + 1) (by simpa using hq)
        rw [show r0 + (q + 1) = r0 + 1 + q by omega] at this
        exact this
    · intro n
      simp only [publish]
      rw [ih3, mem_names_write]
      constructor
      · rintro ((h | h) | ⟨q, hq, h⟩)
        · exact Or.inr ⟨0, by simp, by simpa using h⟩
        · exact Or.inl h
        · exact Or.inr ⟨q + 1, by simpa using hq, by
            rw [show r0 + (q + 1) = r0 + 1 + q by omega]; exact h⟩
      · rintro (h | ⟨q, hq, h⟩)
        · exact Or.inl (Or.inr h)
        · cases q with
          | zero => exact Or.inl (Or.inl (by simpa using h))
          | succ q =>
            exact Or.inr ⟨q, by simpa using hq, by
              rw [show r0 + 1 + q = r0 + (q + 1) by omega]; exact h⟩

theorem replicate_getElem? (n p : Nat) (h : p < n) :
    (List.replicate n "")[p]? = some "" := by
  rw [List.getElem?_eq_getElem (by simpa using h)]
  simp

/-- What a successful `doMap` leaves in the working directory. -/
theorem doMap_spec (L : Lib) (fs : FS) (mapID : Int) (filename content : String)
    (nReduce : Int) (mapf : String → String → List KeyValue) (hR : 0 < nReduce)
    (hread : FS.read fs filename = some content) :
    ∃ fs1, doMap L fs mapID filename nReduce mapf = (fs1, none) ∧
      (∀ p : Nat, (p : Int) < nReduce →
        FS.read fs1 (shardName mapID (p : Int)) = some (concatStr
          (((mapf filename content).filter
            (fun kv => Int.tmod (ihash kv.Key) nReduce = (p : Int))).map L.encode))) ∧
      (∀ n, (∀ p : Nat, (p : Int) < nReduce → n ≠ shardName mapID (p : Int)) →
        FS.read fs1 n = FS.read fs n) ∧
      (∀ n, n ∈ FS.names fs1 ↔
        n ∈ FS.names fs ∨ ∃ p : Nat, (p : Int) < nReduce ∧ n = shardName mapID (p : Int)) := by
  obtain ⟨bufs, hb, hlen, hspec⟩ := encodeLoop_spec L nReduce hR (mapf filename content)
    (List.replicate nReduce.toNat "") (by simp)
  obtain ⟨p1, p2, p3⟩ := publish_spec mapID bufs fs 0
  refine ⟨publish mapID fs 0 bufs, ?_, ?_, ?_, ?_⟩
  · unfold doMap
    rw [if_neg (by omega), hread]
    simp only [hb]
  · intro p hp
    have hpl : p < bufs.length := by rw [hlen]; omega
    have := p1 p hpl
    rw [Nat.zero_add] at this
    rw [this, hspec p "" (replicate_getElem? _ _ (by omega))]
    simp
  · intro n hn
    apply p2
    intro p hp
    rw [Nat.zero_add]
    exact hn p (by rw [hlen] at hp; omega)
  · intro n
    rw [p3]
    constructor
    · rintro (h | ⟨p, hp, h⟩)
      · exact Or.inl h
      · exact Or.inr ⟨p, by rw [hlen] at hp; omega, by simpa using h⟩
    · rintro (h | ⟨p, hp, h⟩)
      · exact Or.inl h
      · exact Or.inr ⟨p, by rw [hlen]; omega, by simpa using h⟩

/-- Splitting a list by the value of an index below `n` and concatenating the
parts in index order gives a permutation of the list. -/
theorem perm_flatMap_filter {α : Type} (f : α → Nat) (n : Nat) (l : List α)
    (h : ∀ a ∈ l, f a < n) :
    ((List.range n).flatMap (fun p => l.filter (fun a => f a = p))).Perm l := by
  induction n generalizing l with
  | zero =>
    cases l with
    | nil => simp
    | cons a l => exact absurd (h a (by simp)) (by omega)
  | succ n ih =>
    rw [List.range_succ, List.flatMap_append]
    simp only [List.flatMap_cons, List.flatMap_nil, List.append_nil]
    have h1 : (List.range n).flatMap (fun p => l.filter (fun a => f a = p)) =
        (List.range n).flatMap
          (fun p => (l.filter (fun a => f a < n)).filter (fun a => f a = p)) := by
      apply List.flatMap_congr
      intro p hp
      rw [List.filter_filter]
      apply List.filter_congr
      intro a _
      have hpn : p < n := List.mem_range.1 hp
      by_cases hap : f a = p
      · simp [hap, hpn]
      · simp [hap]
    have h2 : l.filter (fun a => f a = n) = l.filter (fun a => !decide (f a < n)) := by
      apply List.filter_congr
      intro a ha
      have := h a ha
      by_cases hn : f a = n
      · simp [hn]
      · have : f a < n := by omega
        simp [hn, this]
    rw [h1, h2]
    have h3 := ih (l.filter (fun a => f a < n)) (by
      intro a ha
      simpa using (List.mem_filter.1 ha).2)
    exact (List.Perm.append_right _ h3).trans
      (List.filter_append_perm (fun a => decide (f a < n)) l)

theorem keyLess_false_iff (a b : KeyValue) : keyLess b a = false ↔ a.Key ≤ b.Key := by
  unfold keyLess
  rw [decide_eq_false_iff_not, ← not_lt]
  exact not_congr String.lt_iff_toList_lt.symm

/-- In a list sorted by key whose keys are all at least `k0`, the leading run
of `k0` holds every element of key `k0`. -/
theorem sorted_run (k0 : String) (l : List KeyValue)
    (hs : l.Pairwise (fun a b => a.Key ≤ b.Key)) (hge : ∀ x ∈ l, k0 ≤ x.Key) :
    l.takeWhile (fun x => x.Key = k0) = l.filter (fun x => x.Key = k0) ∧
    ∀ x ∈ l.dropWhile (fun x => x.Key = k0), x.Key ≠ k0 := by
  induction l with
  | nil => simp
  | cons y ys ih =>
    rw [List.pairwise_cons] at hs
    by_cases hy : y.Key = k0
    · obtain ⟨i1, i2⟩ := ih hs.2 (fun x hx => hge x (by simp [hx]))
      constructor
      · simp [List.takeWhile_cons, List.filter_cons, hy, i1]
      · simpa [List.dropWhile_cons, hy] using i2
    · have hlt : k0 < y.Key := lt_of_le_of_ne (hge y (by simp)) (fun e => hy e.symm)
      have hall : ∀ z ∈ ys, z.Key ≠ k0 := by
        intro z hz e
        have := hs.1 z hz
        rw [e] at this
        exact absurd hlt (not_lt.2 this)
      constructor
      · simp only [List.takeWhile_cons, List.filter_cons, hy, decide_False, Bool.false_eq_true,
          if_false]
        symm
        rw [List.filter_eq_nil_iff]
        intro z hz
        simpa using hall z hz
      · intro x hx
        simp only [List.dropWhile_cons, hy, decide_False, Bool.false_eq_true, if_false,
          List.mem_cons] at hx
        rcases hx with h | h
        · rw [h]; exact hy
        · exact hall x h

theorem unstuff_stuff (s rest : List Char) : unstuff (stuff s ++ rest) = some (s, rest) := by
  induction s with
  | nil => rfl
  | cons c s ih =>
    show unstuff ('.' :: c :: (stuff s ++ rest)) = some (c :: s, rest)
    rw [unstuff, ih]

theorem stuff_ne_nil (s : List Char) : ∃ c cs, stuff s = c :: cs := by
  cases s with
  | nil => exact ⟨_, _, rfl⟩
  | cons a s => exact ⟨_, _, rfl⟩

theorem concatStr_data (l : List String) :
    (concatStr l).data = l.flatMap String.data := by
  induction l with
  | nil => rfl
  | cons s l ih => simp [concatStr, String.data_append, ih]

theorem unstuffAll_spec (l : List KeyValue) :
    ∀ fuel, l.length ≤ fuel →
      unstuffAll fuel (l.flatMap (fun kv => stuff kv.Key.data ++ stuff kv.Value.data)) =
        some l := by
  induction l with
  | nil => intro fuel _; cases fuel <;> rfl
  | cons kv l ih =>
    intro fuel hf
    cases fuel with
    | zero => simp at hf
    | succ fuel =>
      obtain ⟨c, cs, hc⟩ := stuff_ne_nil kv.Key.data
      have hlist : (kv :: l).flatMap (fun kv => stuff kv.Key.data ++ stuff kv.Value.data) =
          stuff kv.Key.data ++ (stuff kv.Value.data ++
            l.flatMap (fun kv => stuff kv.Key.data ++ stuff kv.Value.data)) := by
        simp [List.flatMap_cons, List.append_assoc]
      have hcons : (kv :: l).flatMap (fun kv => stuff kv.Key.data ++ stuff kv.Value.data) =
          c :: (cs ++ (stuff kv.Value.data ++
            l.flatMap (fun kv => stuff kv.Key.data ++ stuff kv.Value.data))) := by
        rw [hlist, hc]; rfl
      rw [hcons, unstuffAll, ← hcons, hlist, unstuff_stuff]
      simp only
      rw [unstuff_stuff]
      simp only
      rw [ih fuel (by simpa using hf)]

theorem flatMap_length_ge (l : List KeyValue) :
    l.length ≤ (l.flatMap (fun kv => stuff kv.Key.data ++ stuff kv.Value.data)).length := by
  induction l with
  | nil => simp
  | cons kv l ih =>
    obtain ⟨c, cs, hc⟩ := stuff_ne_nil kv.Key.data
    simp only [List.flatMap_cons, List.length_append, List.length_cons, hc]
    omega

theorem refLib_ok : refLib.Ok := by
  refine ⟨?_, ?_, ?_⟩
  · intro l
    have hdata : (concatStr (l.map refLib.encode)).data =
        l.flatMap (fun kv => stuff kv.Key.data ++ stuff kv.Value.data) := by
      rw [concatStr_data, List.flatMap_map]
      rfl
    show unstuffAll (concatStr (l.map refLib.encode)).data.length
      (concatStr (l.map refLib.encode)).data = some l
    rw [hdata]
    exact unstuffAll_spec l _ (flatMap_length_ge l)
  · intro l
    exact List.perm_insertionSort _ l
  · intro l
    haveI : IsTotal KeyValue (fun a b => keyLess b a = false) :=
      ⟨fun a b => by
        simp only [keyLess_false_iff]
        exact le_total _ _⟩
    haveI : IsTrans KeyValue (fun a b => keyLess b a = false) :=
      ⟨fun a b c => by
        simp only [keyLess_false_iff]
        exact le_trans⟩
    exact List.sorted_insertionSort (fun a b => keyLess b a = false) l

/-- C10 (Map partitioning).  With `R > 0` and a readable input, `doMap`
succeeds and publishes the `R` distinct shards `mr-<m>-0 .. mr-<m>-(R-1)`:
shard `p` holds the encodings of exactly the emitted pairs with
`ihash(key) mod R = p`, in emission order (so it decodes to them), every
emitted pair has exactly one such `p` below `R`, the shards put together are
a permutation of the emitted pairs, no other file is created or changed, and
when the map emits nothing every shard is empty. -/
theorem doMap_partitioning (L : Lib) (fs : FS) (mapID : Int) (filename content : String)
    (nReduce : Int) (mapf : String → String → List KeyValue) (hR : 0 < nReduce)
    (hread : FS.read fs filename = some content) :
    ∃ fs1, doMap L fs mapID filename nReduce mapf = (fs1, none) ∧
      (∀ p : Nat, (p : Int) < nReduce →
        FS.read fs1 (shardName mapID (p : Int)) = some (concatStr
          (((mapf filename content).filter
            (fun kv => ihash kv.Key % nReduce = (p : Int))).map L.encode))) ∧
      (L.Ok → ∀ p : Nat, (p : Int) < nReduce →
        ∃ c, FS.read fs1 (shardName mapID (p : Int)) = some c ∧
          L.decodeAll c = some ((mapf filename content).filter
            (fun kv => ihash kv.Key % nReduce = (p : Int)))) ∧
      (∀ kv ∈ mapf filename content, ∃ p : Nat, (p : Int) < nReduce ∧
        ihash kv.Key % nReduce = (p : Int) ∧
        Int.tmod (ihash kv.Key) nReduce = ihash kv.Key % nReduce) ∧
      ((List.range nReduce.toNat).flatMap (fun p => (mapf filename content).filter
          (fun kv => ihash kv.Key % nReduce = (p : Int)))).Perm (mapf filename content) ∧
      (∀ p q : Nat, shardName mapID (p : Int) = shardName mapID (q : Int) → p = q) ∧
      (∀ n, n ∈ FS.names fs1 ↔
        n ∈ FS.names fs ∨ ∃ p : Nat, (p : Int) < nReduce ∧ n = shardName mapID (p : Int)) ∧
      (∀ n, (∀ p : Nat, (p : Int) < nReduce → n ≠ shardName mapID (p : Int)) →
        FS.read fs1 n = FS.read fs n) ∧
      (mapf filename content = [] → ∀ p : Nat, (p : Int) < nReduce →
        FS.read fs1 (shardName mapID (p : Int)) = some "") := by
  obtain ⟨fs1, hdo, d1, d2, d3⟩ := doMap_spec L fs mapID filename content nReduce mapf hR hread
  have hmod : ∀ (p : Nat),
      (mapf filename content).filter (fun kv => Int.tmod (ihash kv.Key) nReduce = (p : Int)) =
      (mapf filename content).filter (fun kv => ihash kv.Key % nReduce = (p : Int)) := by
    intro p
    apply List.filter_congr
    intro kv _
    rw [Int.tmod_eq_emod (ihash_nonneg _) (le_of_lt hR)]
  have hshard : ∀ p : Nat, (p : Int) < nReduce →
      FS.read fs1 (shardName mapID (p : Int)) = some (concatStr
        (((mapf filename content).filter
          (fun kv => ihash kv.Key % nReduce = (p : Int))).map L.encode)) := by
    intro p hp
    rw [d1 p hp, hmod p]
  refine ⟨fs1, hdo, hshard, ?_, ?_, ?_, ?_, d3, d2, ?_⟩
  · intro hL p hp
    exact ⟨_, hshard p hp, hL.roundtrip _⟩
  · intro kv _
    obtain ⟨p, hp, hpe, hte⟩ := partition_range kv.Key nReduce hR
    exact ⟨p, hp, by rw [← hte, hpe], hte⟩
  · have hf : ∀ p : Nat, (mapf filename content).filter
        (fun kv => ihash kv.Key % nReduce = (p : Int)) =
        (mapf filename content).filter (fun kv => (ihash kv.Key % nReduce).toNat = p) := by
      intro p
      apply List.filter_congr
      intro kv _
      have h0 : 0 ≤ ihash kv.Key % nReduce := Int.emod_nonneg _ (by omega)
      have : (ihash kv.Key % nReduce = (p : Int)) ↔ ((ihash kv.Key % nReduce).toNat = p) := by
        constructor
        · intro h; rw [h]; simp
        · intro h; rw [← h, Int.toNat_of_nonneg h0]
      simp only [this]
    simp only [hf]
    apply perm_flatMap_filter
    intro kv _
    have h0 : 0 ≤ ihash kv.Key % nReduce := Int.emod_nonneg _ (by omega)
    have h1 := Int.emod_lt_of_pos (ihash kv.Key) hR
    omega
  · intro p q h
    exact shardName_inj_right mapID p q h
  · intro he p hp
    rw [hshard p hp, he]
    rfl

/-- Witness for C10: the word-count map of `a b a` with `R = 2` publishes
`mr-0-0` holding the two pairs of `a` and `mr-0-1` holding the pair of `b`. -/
theorem doMap_partitioning_witness :
    (doMap refLib [("x", "a b a")] 0 "x" 2 wcMap).1 =
      [("mr-0-1", ".b;.1;"), ("mr-0-0", ".a;.1;.a;.1;"), ("x", "a b a")] ∧
    ∃ fs1, doMap refLib [("x", "a b a")] 0 "x" 2 wcMap = (fs1, none) ∧
      (∀ p : Nat, (p : Int) < 2 →
        FS.read fs1 (shardName 0 (p : Int)) = some (concatStr
          (((wcMap "x" "a b a").filter
            (fun kv => ihash kv.Key % 2 = (p : Int))).map refLib.encode))) :=
  ⟨by decide,
    (doMap_partitioning refLib [("x", "a b a")] 0 "x" "a b a" 2 wcMap (by decide)
      (by decide)).imp (fun _ h => ⟨h.1, h.2.1⟩)⟩

end mr

namespace mr

open TaskState


/-! ## More facts about the coordinator -/

theorem set_getElem?_self (ts : List taskInfo) (i : Nat) (t : taskInfo) (h : ts[i]? = some t) :
    ts.set i t = ts := by
  induction ts generalizing i with
  | nil => rfl
  | cons u ts ih =>
    cases i with
    | zero =>
      simp only [List.getElem?_cons_zero, Option.some.injEq] at h
      rw [h]; rfl
    | succ i =>
      simp only [List.getElem?_cons_succ] at h
      simp [ih i h]

theorem reportFirst_idem (key : taskInfo → Int)
    (hkey : ∀ (t : taskInfo) (s : TaskState), key { t with State := s } = key t)
    (id : Int) (success : Bool) (ts : List taskInfo) :
    reportFirst key id success (reportFirst key id success ts) =
      reportFirst key id success ts := by
  induction ts with
  | nil => rfl
  | cons t ts ih =>
    by_cases h : key t = id
    · have h2 : key { t with State := reportState success } = id := by rw [hkey]; exact h
      simp only [reportFirst, h, if_true, h2]
    · simp only [reportFirst, h, if_false]
      rw [ih]

/-- The handler `RequestTask` returns `Exit` exactly when every task is `Done`
at the call. -/
theorem RequestTask_exit_iff_allDone (c : Coordinator) (now : Time) :
    (RequestTask c now).2.1.Typ = TaskExit ↔
      (allDone c.maps = true ∧ allDone c.reduces = true) := by
  rw [← allDone_reap now c.maps, ← allDone_reap now c.reduces]
  rcases RequestTask_cases c now with ⟨t, m2, hm, e⟩ | ⟨-, hd, t, r2, hr, e⟩ |
    ⟨-, hd, -, hrd, e⟩ | ⟨-, -, hnd, e⟩
  · rw [e]
    constructor
    · intro h; exact absurd h (show TaskMap ≠ TaskExit by decide)
    · intro h
      obtain ⟨i, u, hu, hp, -⟩ := assignFirst_some now _ t m2 hm
      have := (allDone_iff _).1 h.1 u (List.getElem?_mem hu)
      rw [hp] at this
      simp at this
  · rw [e]
    constructor
    · intro h; exact absurd h (show TaskReduce ≠ TaskExit by decide)
    · intro h
      obtain ⟨i, u, hu, hp, -⟩ := assignFirst_some now _ t r2 hr
      have := (allDone_iff _).1 h.2 u (List.getElem?_mem hu)
      rw [hp] at this
      simp at this
  · rw [e]
    exact ⟨fun _ => ⟨hd, hrd⟩, fun _ => rfl⟩
  · rw [e]
    constructor
    · intro h; exact absurd h (show TaskNone ≠ TaskExit by decide)
    · intro h; exact absurd h hnd

theorem makeMaps_length (k : Nat) (files : List String) :
    (makeMaps k files).length = files.length := by
  induction files generalizing k with
  | nil => rfl
  | cons f fs ih => simp [makeMaps, ih]

theorem reachable_lengths (files : List String) (R : Int) (calls : List Call) :
    (run (MakeCoordinator files R) calls).maps.length = files.length ∧
    (run (MakeCoordinator files R) calls).reduces.length = R.toNat := by
  have hs := shape_run (MakeCoordinator files R) calls
  constructor
  · have := congrArg (fun p => p.1.length) hs
    simpa [shape, MakeCoordinator, makeMaps_length] using this
  · have := congrArg (fun p => p.2.1.length) hs
    simpa [shape, MakeCoordinator] using this

/-- The task a successful assignment loop hands out, in terms of the table
before reaping. -/
theorem assign_source (now : Time) (ts ts1 : List taskInfo) (a : taskInfo)
    (h : assignFirst now (reap now ts) = some (a, ts1)) :
    ∃ (i : Nat) (t0 : taskInfo), ts[i]? = some t0 ∧
      (reapTask now t0).State = Pending ∧ t0.State ≠ Done ∧
      ¬ (t0.State = Running ∧ now - t0.Start ≤ 10000000000) ∧
      a = { reapTask now t0 with State := Running, Start := now } ∧
      ts1 = (reap now ts).set i { reapTask now t0 with State := Running, Start := now } := by
  obtain ⟨i, t, ht, hp, -, ha, hts1⟩ := assignFirst_some now _ a ts1 h
  rw [reap_getElem?] at ht
  cases hu : ts[i]? with
  | none => rw [hu] at ht; simp at ht
  | some t0 =>
    rw [hu] at ht
    have htu : reapTask now t0 = t := by simpa using ht
    refine ⟨i, t0, hu, by rw [htu]; exact hp, ?_, ?_, by rw [htu]; exact ha,
      by rw [htu, ← ha]; exact hts1⟩
    · intro hd
      have := (reapTask_done now t0).2 hd
      rw [htu, hp] at this
      simp at this
    · rintro ⟨hr, hfresh⟩
      have hne : ¬ (t0.State = Running ∧ now - t0.Start > 10000000000) := by
        rintro ⟨-, hgt⟩
        exact absurd hfresh (not_le.2 hgt)
      rw [reapTask_eq, if_neg hne] at htu
      rw [← htu, hr] at hp
      simp at hp

/-! ## The scheduler: claims C13 to C18 -/

/-- C13 (Late success is idempotent).  Applying the same report twice gives
the state and result of applying it once.  A successful report addressed to
a task that is already `Done` (the first task of the table with the reported
id; in a reached state, the task at index `id`) leaves the whole coordinator
state unchanged and returns no error. -/
theorem reportTask_success_idempotent (c : Coordinator) (args : ReportArgs) (i : Nat)
    (t : taskInfo) :
    ReportTask (ReportTask c args).1 args = ReportTask c args ∧
    (args.Success = true → t.State = Done → args.Typ = TaskMap → c.maps[i]? = some t →
      t.MapID = args.MapID →
      (∀ j, j < i → ∀ u, c.maps[j]? = some u → u.MapID ≠ args.MapID) →
      ReportTask c args = (c, none)) ∧
    (args.Success = true → t.State = Done → args.Typ = TaskReduce → c.reduces[i]? = some t →
      t.ReduceID = args.ReduceID →
      (∀ j, j < i → ∀ u, c.reduces[j]? = some u → u.ReduceID ≠ args.ReduceID) →
      ReportTask c args = (c, none)) ∧
    (∀ (files : List String) (R : Int) (calls : List Call),
      c = run (MakeCoordinator files R) calls → args.Success = true → t.State = Done →
      (args.Typ = TaskMap → c.maps[i]? = some t → args.MapID = (i : Int) →
        ReportTask c args = (c, none)) ∧
      (args.Typ = TaskReduce → c.reduces[i]? = some t → args.ReduceID = (i : Int) →
        ReportTask c args = (c, none))) := by
  have hself : t.State = Done → ({ t with State := reportState true } : taskInfo) = t := by
    intro hd
    cases t
    simp only [reportState] at hd ⊢
    simp_all
  have hmap : args.Success = true → t.State = Done → args.Typ = TaskMap →
      c.maps[i]? = some t → t.MapID = args.MapID →
      (∀ j, j < i → ∀ u, c.maps[j]? = some u → u.MapID ≠ args.MapID) →
      ReportTask c args = (c, none) := by
    intro hs hd hty ht hid hfirst
    unfold ReportTask
    rw [if_pos hty, reportFirst_set taskInfo.MapID args.MapID args.Success c.maps i t ht hid
      hfirst, hs, hself hd, set_getElem?_self _ _ _ ht]
  have hred : args.Success = true → t.State = Done → args.Typ = TaskReduce →
      c.reduces[i]? = some t → t.ReduceID = args.ReduceID →
      (∀ j, j < i → ∀ u, c.reduces[j]? = some u → u.ReduceID ≠ args.ReduceID) →
      ReportTask c args = (c, none) := by
    intro hs hd hty ht hid hfirst
    have hne : args.Typ ≠ TaskMap := by rw [hty]; decide
    unfold ReportTask
    rw [if_neg hne, if_pos hty,
      reportFirst_set taskInfo.ReduceID args.ReduceID args.Success c.reduces i t ht hid hfirst,
      hs, hself hd, set_getElem?_self _ _ _ ht]
  refine ⟨?_, hmap, hred, ?_⟩
  · by_cases h1 : args.Typ = TaskMap
    · have e1 : ReportTask c args =
          ({ c with maps := reportFirst taskInfo.MapID args.MapID args.Success c.maps },
            none) := by
        unfold ReportTask
        rw [if_pos h1]
      rw [e1]
      unfold ReportTask
      rw [if_pos h1]
      simp only
      rw [reportFirst_idem taskInfo.MapID (fun _ _ => rfl)]
    · by_cases h2 : args.Typ = TaskReduce
      · have e1 : ReportTask c args =
            ({ c with reduces :=
                reportFirst taskInfo.ReduceID args.ReduceID args.Success c.reduces },
              none) := by
          unfold ReportTask
          rw [if_neg h1, if_pos h2]
        rw [e1]
        unfold ReportTask
        rw [if_neg h1, if_pos h2]
        simp only
        rw [reportFirst_idem taskInfo.ReduceID (fun _ _ => rfl)]
      · have e1 : ReportTask c args = (c, none) := by
          unfold ReportTask
          rw [if_neg h1, if_neg h2]
        rw [e1]
        exact e1
  · intro files R calls hc hs hd
    constructor
    · intro hty ht hid
      have hmid : ∀ (j : Nat) (u : taskInfo), c.maps[j]? = some u → u.MapID = (j : Int) := by
        intro j u hu
        rw [hc] at hu
        obtain ⟨f, -, hf⟩ := reachable_maps files R calls j u hu
        have := congrArg taskInfo.MapID hf
        simpa [eraseRun, newMapTask] using this
      refine hmap hs hd hty ht ((hmid i t ht).trans hid.symm) ?_
      intro j hj u hu
      rw [hmid j u hu, hid]
      omega
    · intro hty ht hid
      have hrid : ∀ (j : Nat) (u : taskInfo), c.reduces[j]? = some u →
          u.ReduceID = (j : Int) := by
        intro j u hu
        rw [hc] at hu
        obtain ⟨-, hf⟩ := reachable_reduces files R calls j u hu
        have := congrArg taskInfo.ReduceID hf
        simpa [eraseRun, newReduceTask] using this
      refine hred hs hd hty ht ((hrid i t ht).trans hid.symm) ?_
      intro j hj u hu
      rw [hrid j u hu, hid]
      omega

/-- Witness for C13, scenario S4: in the one-file job, after worker A was
reaped and worker C reported success for map 0, the late success report of A
changes nothing. -/
theorem reportTask_success_idempotent_witness :
    ReportTask (run (MakeCoordinator ["f"] 1) lateCalls)
        { Typ := TaskMap, MapID := 0, ReduceID := 0, Success := true } =
      (run (MakeCoordinator ["f"] 1) lateCalls, none) :=
  ((reportTask_success_idempotent (run (MakeCoordinator ["f"] 1) lateCalls)
    { Typ := TaskMap, MapID := 0, ReduceID := 0, Success := true } 0
    { Typ := TaskMap, State := Done, MapID := 0, ReduceID := 0, Files := ["f"],
      Start := 20000000000 }).2.2.2 ["f"] 1 lateCalls rfl rfl rfl).1
    (by decide) (by decide) (by decide)

/-- C15 (Idle directive).  `RequestTask` returns `Idle` exactly when, after
reaping, no Map task is `Pending` and either some Map task is `Running`, or
every Map task is `Done`, no Reduce task is `Pending` and some Reduce task is
`Running`; the state it then leaves is the reaped one, with `done` as it was.
The reply is always one of Map, Reduce, Idle, Exit (four distinct values) and
the error is always nil. -/
theorem requestTask_idle_iff (c : Coordinator) (now : Time) :
    ((RequestTask c now).2.1.Typ = TaskNone ↔
      (∀ t ∈ reap now c.maps, t.State ≠ Pending) ∧
      ((∃ t ∈ reap now c.maps, t.State = Running) ∨
        ((∀ t ∈ reap now c.maps, t.State = Done) ∧
          (∀ t ∈ reap now c.reduces, t.State ≠ Pending) ∧
          ∃ t ∈ reap now c.reduces, t.State = Running))) ∧
    ((RequestTask c now).2.1.Typ = TaskNone →
      (RequestTask c now).1 =
        { maps := reap now c.maps, reduces := reap now c.reduces, nReduce := c.nReduce,
          done := c.done }) ∧
    ((RequestTask c now).2.1.Typ = TaskMap ∨ (RequestTask c now).2.1.Typ = TaskReduce ∨
      (RequestTask c now).2.1.Typ = TaskNone ∨ (RequestTask c now).2.1.Typ = TaskExit) ∧
    (TaskMap ≠ TaskReduce ∧ TaskMap ≠ TaskNone ∧ TaskMap ≠ TaskExit ∧
      TaskReduce ≠ TaskNone ∧ TaskReduce ≠ TaskExit ∧ TaskNone ≠ TaskExit) ∧
    (RequestTask c now).2.2 = none := by
  have hnotdone : ∀ ts : List taskInfo, allDone ts ≠ true → (∀ t ∈ ts, t.State ≠ Pending) →
      ∃ t ∈ ts, t.State = Running := by
    intro ts hnd hnp
    have : ¬ ∀ t ∈ ts, t.State = Done := fun h => hnd ((allDone_iff ts).2 h)
    push_neg at this
    obtain ⟨t, ht, hs⟩ := this
    refine ⟨t, ht, ?_⟩
    have := hnp t ht
    cases hst : t.State with
    | Pending => exact absurd hst this
    | Running => rfl
    | Done => exact absurd hst hs
  have hpend : ∀ (ts ts1 : List taskInfo) (a : taskInfo),
      assignFirst now ts = some (a, ts1) → ¬ ∀ t ∈ ts, t.State ≠ Pending := by
    intro ts ts1 a h hall
    have := (assignFirst_none now ts).2 hall
    rw [this] at h
    cases h
  rcases RequestTask_cases c now with ⟨t, m2, hm, e⟩ | ⟨hmn, hd, t, r2, hr, e⟩ |
    ⟨hmn, hd, hrn, hrd, e⟩ | ⟨hmn, hrn, hnd, e⟩
  · rw [e]
    refine ⟨⟨fun h => absurd h (show TaskMap ≠ TaskNone by decide),
      fun h => absurd h.1 (hpend _ _ _ hm)⟩,
      fun h => absurd h (show TaskMap ≠ TaskNone by decide), Or.inl rfl, by decide, rfl⟩
  · rw [e]
    refine ⟨⟨fun h => absurd h (show TaskReduce ≠ TaskNone by decide), ?_⟩,
      fun h => absurd h (show TaskReduce ≠ TaskNone by decide), Or.inr (Or.inl rfl),
      by decide, rfl⟩
    rintro ⟨-, ⟨u, hu, hrun⟩ | ⟨-, hnp, -⟩⟩
    · have := (allDone_iff _).1 hd u hu
      rw [hrun] at this
      cases this
    · exact (hpend _ _ _ hr hnp).elim
  · rw [e]
    refine ⟨⟨fun h => absurd h (show TaskExit ≠ TaskNone by decide), ?_⟩,
      fun h => absurd h (show TaskExit ≠ TaskNone by decide), Or.inr (Or.inr (Or.inr rfl)),
      by decide, rfl⟩
    rintro ⟨-, ⟨u, hu, hrun⟩ | ⟨-, -, u, hu, hrun⟩⟩
    · have := (allDone_iff _).1 hd u hu
      rw [hrun] at this
      cases this
    · have := (allDone_iff _).1 hrd u hu
      rw [hrun] at this
      cases this
  · rw [e]
    refine ⟨⟨fun _ => ?_, fun _ => rfl⟩, fun _ => rfl, Or.inr (Or.inr (Or.inl rfl)),
      by decide, rfl⟩
    have hmp := (assignFirst_none now _).1 hmn
    refine ⟨hmp, ?_⟩
    by_cases hd : allDone (reap now c.maps) = true
    · right
      have hrp := (assignFirst_none now _).1 (hrn hd)
      have hrnd : allDone (reap now c.reduces) ≠ true := fun h => hnd ⟨hd, h⟩
      exact ⟨(allDone_iff _).1 hd, hrp, hnotdone _ hrnd hrp⟩
    · left
      exact hnotdone _ hd hmp

/-- C17 (Task-table shape is invariant).  In every state reached from
`MakeCoordinator files R` there are `len(files)` Map tasks and `R` Reduce
tasks (none when `R < 0`), `nReduce` is `R`, the `i`-th Map task has
`MapID = i` and the single path `files[i]`, the `r`-th Reduce task has
`ReduceID = r`; so a Map assignment carries a `MapID` in `[0, M)` and a Reduce
assignment a `ReduceID` in `[0, R)`. -/
theorem task_table_shape (files : List String) (R : Int) (calls : List Call) (now : Time) :
    (run (MakeCoordinator files R) calls).maps.length = files.length ∧
    (run (MakeCoordinator files R) calls).reduces.length = R.toNat ∧
    (0 ≤ R → ((run (MakeCoordinator files R) calls).reduces.length : Int) = R) ∧
    (run (MakeCoordinator files R) calls).nReduce = R ∧
    (∀ (i : Nat) (t : taskInfo), (run (MakeCoordinator files R) calls).maps[i]? = some t →
      t.Typ = TaskMap ∧ t.MapID = (i : Int) ∧ ∃ f, files[i]? = some f ∧ t.Files = [f]) ∧
    (∀ (r : Nat) (t : taskInfo), (run (MakeCoordinator files R) calls).reduces[r]? = some t →
      t.Typ = TaskReduce ∧ t.ReduceID = (r : Int) ∧ t.Files = []) ∧
    ((RequestTask (run (MakeCoordinator files R) calls) now).2.1.Typ = TaskMap →
      0 ≤ (RequestTask (run (MakeCoordinator files R) calls) now).2.1.MapID ∧
      (RequestTask (run (MakeCoordinator files R) calls) now).2.1.MapID <
        (files.length : Int)) ∧
    ((RequestTask (run (MakeCoordinator files R) calls) now).2.1.Typ = TaskReduce →
      0 ≤ (RequestTask (run (MakeCoordinator files R) calls) now).2.1.ReduceID ∧
      (RequestTask (run (MakeCoordinator files R) calls) now).2.1.ReduceID < R) := by
  obtain ⟨hl1, hl2⟩ := reachable_lengths files R calls
  have hmaps : ∀ (i : Nat) (t : taskInfo),
      (run (MakeCoordinator files R) calls).maps[i]? = some t →
      t.Typ = TaskMap ∧ t.MapID = (i : Int) ∧ ∃ f, files[i]? = some f ∧ t.Files = [f] := by
    intro i t ht
    obtain ⟨f, hf, he⟩ := reachable_maps files R calls i t ht
    refine ⟨?_, ?_, f, hf, ?_⟩
    · have := congrArg taskInfo.Typ he
      simpa [eraseRun, newMapTask] using this
    · have := congrArg taskInfo.MapID he
      simpa [eraseRun, newMapTask] using this
    · have := congrArg taskInfo.Files he
      simpa [eraseRun, newMapTask] using this
  have hreds : ∀ (r : Nat) (t : taskInfo),
      (run (MakeCoordinator files R) calls).reduces[r]? = some t →
      t.Typ = TaskReduce ∧ t.ReduceID = (r : Int) ∧ t.Files = [] := by
    intro r t ht
    obtain ⟨-, he⟩ := reachable_reduces files R calls r t ht
    refine ⟨?_, ?_, ?_⟩
    · have := congrArg taskInfo.Typ he
      simpa [eraseRun, newReduceTask] using this
    · have := congrArg taskInfo.ReduceID he
      simpa [eraseRun, newReduceTask] using this
    · have := congrArg taskInfo.Files he
      simpa [eraseRun, newReduceTask] using this
  refine ⟨hl1, hl2, ?_, reachable_nReduce files R calls, hmaps, hreds, ?_, ?_⟩
  · intro hR
    rw [hl2, Int.toNat_of_nonneg hR]
  · intro hty
    rcases RequestTask_cases (run (MakeCoordinator files R) calls) now with
      ⟨a, m2, hm, e⟩ | ⟨-, -, a, r2, -, e⟩ | ⟨-, -, -, -, e⟩ | ⟨-, -, -, e⟩
    · obtain ⟨i, t0, ht0, -, -, -, ha, -⟩ := assign_source now _ m2 a hm
      obtain ⟨-, hid, f, hf, -⟩ := hmaps i t0 ht0
      have hlt : i < files.length := by
        by_contra hge
        rw [List.getElem?_eq_none (by omega)] at hf
        simp at hf
      have hrid : (reapTask now t0).MapID = t0.MapID := by
        have := congrArg taskInfo.MapID (eraseRun_reapTask now t0)
        simpa [eraseRun] using this
      rw [e, ha]
      show 0 ≤ (reapTask now t0).MapID ∧ (reapTask now t0).MapID < (files.length : Int)
      rw [hrid, hid]
      omega
    · rw [e] at hty; exact absurd hty (show TaskReduce ≠ TaskMap by decide)
    · rw [e] at hty; exact absurd hty (show TaskExit ≠ TaskMap by decide)
    · rw [e] at hty; exact absurd hty (show TaskNone ≠ TaskMap by decide)
  · intro hty
    rcases RequestTask_cases (run (MakeCoordinator files R) calls) now with
      ⟨a, m2, -, e⟩ | ⟨-, -, a, r2, hr, e⟩ | ⟨-, -, -, -, e⟩ | ⟨-, -, -, e⟩
    · rw [e] at hty; exact absurd hty (show TaskMap ≠ TaskReduce by decide)
    · obtain ⟨i, t0, ht0, -, -, -, ha, -⟩ := assign_source now _ r2 a hr
      obtain ⟨-, hid, -⟩ := hreds i t0 ht0
      have hlt := (reachable_reduces files R calls i t0 ht0).1
      have hrid : (reapTask now t0).ReduceID = t0.ReduceID := by
        have := congrArg taskInfo.ReduceID (eraseRun_reapTask now t0)
        simpa [eraseRun] using this
      rw [e, ha]
      show 0 ≤ (reapTask now t0).ReduceID ∧ (reapTask now t0).ReduceID < R
      rw [hrid, hid]
      omega
    · rw [e] at hty; exact absurd hty (show TaskExit ≠ TaskReduce by decide)
    · rw [e] at hty; exact absurd hty (show TaskNone ≠ TaskReduce by decide)

/-- C18 (Single holder).  The task `RequestTask` hands out was `Pending` after
the reaping step: when the call was made it was not `Done` and not `Running`
with a lease at most 10 s old.  The call marks that one task `Running` and
leaves every other task of both tables as reaping left it; a call that
returns Idle or Exit marks no task. -/
theorem requestTask_single_holder (c : Coordinator) (now : Time) :
    ((RequestTask c now).2.1.Typ = TaskMap →
      ∃ (i : Nat) (t0 : taskInfo), c.maps[i]? = some t0 ∧
        t0.MapID = (RequestTask c now).2.1.MapID ∧
        (reapTask now t0).State = Pending ∧ t0.State ≠ Done ∧
        ¬ (t0.State = Running ∧ now - t0.Start ≤ 10000000000) ∧
        (RequestTask c now).1.maps =
          (reap now c.maps).set i { reapTask now t0 with State := Running, Start := now } ∧
        (RequestTask c now).1.reduces = reap now c.reduces) ∧
    ((RequestTask c now).2.1.Typ = TaskReduce →
      ∃ (i : Nat) (t0 : taskInfo), c.reduces[i]? = some t0 ∧
        t0.ReduceID = (RequestTask c now).2.1.ReduceID ∧
        (reapTask now t0).State = Pending ∧ t0.State ≠ Done ∧
        ¬ (t0.State = Running ∧ now - t0.Start ≤ 10000000000) ∧
        (RequestTask c now).1.reduces =
          (reap now c.reduces).set i { reapTask now t0 with State := Running, Start := now } ∧
        (RequestTask c now).1.maps = reap now c.maps) ∧
    ((RequestTask c now).2.1.Typ ≠ TaskMap → (RequestTask c now).2.1.Typ ≠ TaskReduce →
      (RequestTask c now).1.maps = reap now c.maps ∧
      (RequestTask c now).1.reduces = reap now c.reduces) := by
  rcases RequestTask_cases c now with ⟨a, m2, hm, e⟩ | ⟨-, -, a, r2, hr, e⟩ |
    ⟨-, -, -, -, e⟩ | ⟨-, -, -, e⟩
  · obtain ⟨i, t0, ht0, hp, hnd, hfresh, ha, hset⟩ := assign_source now _ m2 a hm
    have hrid : (reapTask now t0).MapID = t0.MapID := by
      have := congrArg taskInfo.MapID (eraseRun_reapTask now t0)
      simpa [eraseRun] using this
    rw [e]
    refine ⟨fun _ => ⟨i, t0, ht0, ?_, hp, hnd, hfresh, hset, rfl⟩,
      fun h => absurd h (show TaskMap ≠ TaskReduce by decide), fun h => absurd rfl h⟩
    show t0.MapID = a.MapID
    rw [ha]
    exact hrid.symm
  · obtain ⟨i, t0, ht0, hp, hnd, hfresh, ha, hset⟩ := assign_source now _ r2 a hr
    have hrid : (reapTask now t0).ReduceID = t0.ReduceID := by
      have := congrArg taskInfo.ReduceID (eraseRun_reapTask now t0)
      simpa [eraseRun] using this
    rw [e]
    refine ⟨fun h => absurd h (show TaskReduce ≠ TaskMap by decide),
      fun _ => ⟨i, t0, ht0, ?_, hp, hnd, hfresh, hset, rfl⟩, fun _ h => absurd rfl h⟩
    show t0.ReduceID = a.ReduceID
    rw [ha]
    exact hrid.symm
  · rw [e]
    exact ⟨fun h => absurd h (show TaskExit ≠ TaskMap by decide),
      fun h => absurd h (show TaskExit ≠ TaskReduce by decide), fun _ _ => ⟨rfl, rfl⟩⟩
  · rw [e]
    exact ⟨fun h => absurd h (show TaskNone ≠ TaskMap by decide),
      fun h => absurd h (show TaskNone ≠ TaskReduce by decide), fun _ _ => ⟨rfl, rfl⟩⟩

theorem reportFirst_getElem?_ne (key : taskInfo → Int) (id : Int) (success : Bool)
    (ts : List taskInfo) (i : Nat) (t : taskInfo) (h : ts[i]? = some t) (hk : key t ≠ id) :
    (reportFirst key id success ts)[i]? = some t := by
  induction ts generalizing i with
  | nil => simp at h
  | cons u ts ih =>
    cases i with
    | zero =>
      simp only [List.getElem?_cons_zero, Option.some.injEq] at h
      subst h
      simp [reportFirst, hk]
    | succ i =>
      simp only [List.getElem?_cons_succ] at h
      by_cases hu : key u = id
      · simp [reportFirst, hu, h]
      · simp [reportFirst, hu, ih i h]

theorem run_append (c : Coordinator) (l1 l2 : List Call) :
    run c (l1 ++ l2) = run (run c l1) l2 := by
  simp [run, List.foldl_append]

/-- In a reached state a report changes the Map task at index `i` exactly
when it is addressed to it. -/
theorem reportTask_maps_at (files : List String) (R : Int) (calls : List Call)
    (a : ReportArgs) (i : Nat) (t : taskInfo)
    (h : (run (MakeCoordinator files R) calls).maps[i]? = some t) :
    (ReportTask (run (MakeCoordinator files R) calls) a).1.maps[i]? =
      some (if forMap i a = true then { t with State := reportState a.Success } else t) := by
  have hmid : ∀ (j : Nat) (u : taskInfo),
      (run (MakeCoordinator files R) calls).maps[j]? = some u → u.MapID = (j : Int) := by
    intro j u hu
    obtain ⟨f, -, hf⟩ := reachable_maps files R calls j u hu
    have := congrArg taskInfo.MapID hf
    simpa [eraseRun, newMapTask] using this
  have hlen : i < (run (MakeCoordinator files R) calls).maps.length := by
    by_contra hge
    rw [List.getElem?_eq_none (by omega)] at h
    simp at h
  unfold ReportTask forMap
  by_cases hty : a.Typ = TaskMap
  · rw [if_pos hty]
    by_cases hid : a.MapID = (i : Int)
    · have hfirst : ∀ j, j < i → ∀ u, (run (MakeCoordinator files R) calls).maps[j]? = some u →
          u.MapID ≠ a.MapID := by
        intro j hj u hu
        rw [hmid j u hu, hid]
        omega
      simp only [hty, hid, and_self, decide_True, if_true]
      rw [← hid, reportFirst_set taskInfo.MapID a.MapID a.Success _ i t h
        ((hmid i t h).trans hid.symm) hfirst, List.getElem?_set, if_pos rfl, if_pos hlen]
    · simp only [hty, hid, and_false, decide_False, Bool.false_eq_true, if_false]
      exact reportFirst_getElem?_ne _ _ _ _ i t h (by rw [hmid i t h]; exact fun e => hid e.symm)
  · rw [if_neg hty]
    simp only [hty, false_and, decide_False, Bool.false_eq_true, if_false]
    split_ifs <;> exact h

/-- In a reached state a report changes the Reduce task at index `r` exactly
when it is addressed to it. -/
theorem reportTask_reduces_at (files : List String) (R : Int) (calls : List Call)
    (a : ReportArgs) (i : Nat) (t : taskInfo)
    (h : (run (MakeCoordinator files R) calls).reduces[i]? = some t) :
    (ReportTask (run (MakeCoordinator files R) calls) a).1.reduces[i]? =
      some (if forReduce i a = true then { t with State := reportState a.Success } else t) := by
  have hrid : ∀ (j : Nat) (u : taskInfo),
      (run (MakeCoordinator files R) calls).reduces[j]? = some u → u.ReduceID = (j : Int) := by
    intro j u hu
    obtain ⟨-, hf⟩ := reachable_reduces files R calls j u hu
    have := congrArg taskInfo.ReduceID hf
    simpa [eraseRun, newReduceTask] using this
  have hlen : i < (run (MakeCoordinator files R) calls).reduces.length := by
    by_contra hge
    rw [List.getElem?_eq_none (by omega)] at h
    simp at h
  unfold ReportTask forReduce
  by_cases hty : a.Typ = TaskReduce
  · have hne : a.Typ ≠ TaskMap := by rw [hty]; decide
    rw [if_neg hne, if_pos hty]
    by_cases hid : a.ReduceID = (i : Int)
    · have hfirst : ∀ j, j < i → ∀ u,
          (run (MakeCoordinator files R) calls).reduces[j]? = some u →
          u.ReduceID ≠ a.ReduceID := by
        intro j hj u hu
        rw [hrid j u hu, hid]
        omega
      simp only [hty, hid, and_self, decide_True, if_true]
      rw [← hid, reportFirst_set taskInfo.ReduceID a.ReduceID a.Success _ i t h
        ((hrid i t h).trans hid.symm) hfirst, List.getElem?_set, if_pos rfl, if_pos hlen]
    · simp only [hty, hid, and_false, decide_False, Bool.false_eq_true, if_false]
      exact reportFirst_getElem?_ne _ _ _ _ i t h (by rw [hrid i t h]; exact fun e => hid e.symm)
  · simp only [hty, false_and, decide_False, Bool.false_eq_true, if_false]
    split_ifs <;> exact h

theorem runReports_maps_at (files : List String) (R : Int) (reports : List ReportArgs) :
    ∀ (calls : List Call) (i : Nat) (t : taskInfo),
    (run (MakeCoordinator files R) calls).maps[i]? = some t →
    (runReports (run (MakeCoordinator files R) calls) reports).maps[i]? =
      some (applyReports t (reports.filter (forMap i))) := by
  induction reports with
  | nil => intro calls i t h; exact h
  | cons a rest ih =>
    intro calls i t h
    have h1 := reportTask_maps_at files R calls a i t h
    have hstep : (ReportTask (run (MakeCoordinator files R) calls) a).1 =
        run (MakeCoordinator files R) (calls ++ [Call.report a]) := by
      rw [run_append]; rfl
    rw [hstep] at h1
    have := ih (calls ++ [Call.report a]) i _ h1
    rw [← hstep] at this
    show (runReports (ReportTask (run (MakeCoordinator files R) calls) a).1 rest).maps[i]? = _
    rw [this]
    by_cases hf : forMap i a = true
    · simp [List.filter_cons, hf, applyReports]
    · simp [List.filter_cons, hf, applyReports]

theorem runReports_reduces_at (files : List String) (R : Int) (reports : List ReportArgs) :
    ∀ (calls : List Call) (i : Nat) (t : taskInfo),
    (run (MakeCoordinator files R) calls).reduces[i]? = some t →
    (runReports (run (MakeCoordinator files R) calls) reports).reduces[i]? =
      some (applyReports t (reports.filter (forReduce i))) := by
  induction reports with
  | nil => intro calls i t h; exact h
  | cons a rest ih =>
    intro calls i t h
    have h1 := reportTask_reduces_at files R calls a i t h
    have hstep : (ReportTask (run (MakeCoordinator files R) calls) a).1 =
        run (MakeCoordinator files R) (calls ++ [Call.report a]) := by
      rw [run_append]; rfl
    rw [hstep] at h1
    have := ih (calls ++ [Call.report a]) i _ h1
    rw [← hstep] at this
    show (runReports (ReportTask (run (MakeCoordinator files R) calls) a).1 rest).reduces[i]? = _
    rw [this]
    by_cases hf : forReduce i a = true
    · simp [List.filter_cons, hf, applyReports]
    · simp [List.filter_cons, hf, applyReports]

/-- The state of a task after a sequence of reports addressed to it is the one
written by the last of them. -/
theorem applyReports_state (l : List ReportArgs) :
    ∀ t : taskInfo, (l = [] → applyReports t l = t) ∧
      (∀ a, l.getLast? = some a → (applyReports t l).State = reportState a.Success) := by
  induction l with
  | nil => intro t; exact ⟨fun _ => rfl, fun a h => by simp at h⟩
  | cons b l ih =>
    intro t
    refine ⟨fun h => by simp at h, ?_⟩
    intro a ha
    obtain ⟨i1, i2⟩ := ih { t with State := reportState b.Success }
    show (applyReports { t with State := reportState b.Success } l).State = _
    cases hl : l.getLast? with
    | none =>
      have hnil : l = [] := List.getLast?_eq_none_iff.1 hl
      rw [List.getLast?_cons, hl] at ha
      simp only [Option.getD_none, Option.some.injEq] at ha
      rw [i1 hnil, ← ha]
    | some x =>
      rw [List.getLast?_cons, hl] at ha
      simp only [Option.getD_some, Option.some.injEq] at ha
      rw [i2 x hl, ha]

/-- Which state a list of reports addressed to one task leaves it in. -/
theorem applyReports_done (t : taskInfo) (l : List ReportArgs) :
    ((applyReports t l).State = Done ↔
      (∃ a, l.getLast? = some a ∧ a.Success = true) ∨ (l = [] ∧ t.State = Done)) ∧
    ((∀ a ∈ l, a.Success = true) →
      ((applyReports t l).State = Done ↔ (t.State = Done ∨ l ≠ []))) := by
  obtain ⟨h1, h2⟩ := applyReports_state l t
  have hsucc : ∀ a : ReportArgs, reportState a.Success = Done ↔ a.Success = true := by
    intro a
    cases hs : a.Success <;> simp [reportState]
  cases hl : l.getLast? with
  | none =>
    have hnil : l = [] := List.getLast?_eq_none_iff.1 hl
    rw [h1 hnil]
    constructor
    · constructor
      · intro h; exact Or.inr ⟨hnil, h⟩
      · rintro (⟨a, ha, -⟩ | ⟨-, h⟩)
        · cases ha
        · exact h
    · intro _
      constructor
      · intro h; exact Or.inl h
      · rintro (h | h)
        · exact h
        · exact absurd hnil h
  | some x =>
    have hne : l ≠ [] := by
      intro e
      rw [e] at hl
      simp at hl
    rw [h2 x hl, hsucc]
    constructor
    · constructor
      · intro h; exact Or.inl ⟨x, rfl, h⟩
      · rintro (⟨a, ha, hs⟩ | ⟨hnil, -⟩)
        · rw [Option.some.inj ha]; exact hs
        · exact absurd hnil hne
    · intro hall
      have hx : x ∈ l := List.mem_of_getLast?_eq_some hl
      exact ⟨fun _ => Or.inr hne, fun _ => hall x hx⟩

/-- C14, as stated, fails (order-independence of reports).  Map 0 is `Running`;
a success report followed by a failure report leaves it `Pending` although a
successful report occurs in the sequence, and the same two reports in the
other order leave it `Done`. -/
theorem reports_order_matters :
    (run (MakeCoordinator ["f"] 1) heldCalls).maps.map taskInfo.State = [Running] ∧
    (runReports (run (MakeCoordinator ["f"] 1) heldCalls)
      [{ Typ := TaskMap, MapID := 0, ReduceID := 0, Success := true },
       { Typ := TaskMap, MapID := 0, ReduceID := 0, Success := false }]).maps.map
        taskInfo.State = [Pending] ∧
    (runReports (run (MakeCoordinator ["f"] 1) heldCalls)
      [{ Typ := TaskMap, MapID := 0, ReduceID := 0, Success := false },
       { Typ := TaskMap, MapID := 0, ReduceID := 0, Success := true }]).maps.map
        taskInfo.State = [Done] := by
  decide

/-- C14, amended (the last report decides).  In a state reached from
`MakeCoordinator`, after any sequence of `ReportTask` calls the task with a
known id is `Done` exactly when the last report of the sequence addressed to
it is successful, or no report is addressed to it and it was `Done` at the
start.  When every report addressed to it is successful, it is `Done` at the
end exactly when it was `Done` at the start or some report is addressed to
it, whatever the order of the reports. -/
theorem reports_last_wins (files : List String) (R : Int) (calls : List Call)
    (reports : List ReportArgs) (i : Nat) (t : taskInfo) :
    ((run (MakeCoordinator files R) calls).maps[i]? = some t →
      ∃ t1, (runReports (run (MakeCoordinator files R) calls) reports).maps[i]? = some t1 ∧
        (t1.State = Done ↔
          (∃ a, (reports.filter (forMap i)).getLast? = some a ∧ a.Success = true) ∨
          (reports.filter (forMap i) = [] ∧ t.State = Done)) ∧
        ((∀ a ∈ reports, forMap i a = true → a.Success = true) →
          (t1.State = Done ↔
            (t.State = Done ∨ ∃ a ∈ reports, forMap i a = true ∧ a.Success = true)))) ∧
    ((run (MakeCoordinator files R) calls).reduces[i]? = some t →
      ∃ t1, (runReports (run (MakeCoordinator files R) calls) reports).reduces[i]? = some t1 ∧
        (t1.State = Done ↔
          (∃ a, (reports.filter (forReduce i)).getLast? = some a ∧ a.Success = true) ∨
          (reports.filter (forReduce i) = [] ∧ t.State = Done)) ∧
        ((∀ a ∈ reports, forReduce i a = true → a.Success = true) →
          (t1.State = Done ↔
            (t.State = Done ∨ ∃ a ∈ reports, forReduce i a = true ∧ a.Success = true)))) := by
  have key : ∀ (p : ReportArgs → Bool),
      ((applyReports t (reports.filter p)).State = Done ↔
        (∃ a, (reports.filter p).getLast? = some a ∧ a.Success = true) ∨
        (reports.filter p = [] ∧ t.State = Done)) ∧
      ((∀ a ∈ reports, p a = true → a.Success = true) →
        ((applyReports t (reports.filter p)).State = Done ↔
          (t.State = Done ∨ ∃ a ∈ reports, p a = true ∧ a.Success = true))) := by
    intro p
    obtain ⟨k1, k2⟩ := applyReports_done t (reports.filter p)
    refine ⟨k1, ?_⟩
    intro hall
    have hall2 : ∀ a ∈ reports.filter p, a.Success = true := by
      intro a ha
      obtain ⟨h1, h2⟩ := List.mem_filter.1 ha
      exact hall a h1 h2
    rw [k2 hall2]
    constructor
    · rintro (hd | hne)
      · exact Or.inl hd
      · obtain ⟨a, ha⟩ := List.exists_mem_of_ne_nil _ hne
        obtain ⟨h1, h2⟩ := List.mem_filter.1 ha
        exact Or.inr ⟨a, h1, h2, hall a h1 h2⟩
    · rintro (hd | ⟨a, h1, h2, -⟩)
      · exact Or.inl hd
      · exact Or.inr (List.ne_nil_of_mem (List.mem_filter.2 ⟨h1, h2⟩))
  constructor
  · intro hm
    exact ⟨_, runReports_maps_at files R reports calls i t hm, key (forMap i)⟩
  · intro hr
    exact ⟨_, runReports_reduces_at files R reports calls i t hr, key (forReduce i)⟩

/-- Witness for C14 amended: map 0 of the one-file job is `Running`; after a
failure report and then a success report it is `Done`. -/
theorem reports_last_wins_witness :
    (run (MakeCoordinator ["f"] 1) heldCalls).maps[0]? =
      some { Typ := TaskMap, State := Running, MapID := 0, ReduceID := 0, Files := ["f"],
             Start := 0 } ∧
    ∃ t1, (runReports (run (MakeCoordinator ["f"] 1) heldCalls)
        [{ Typ := TaskMap, MapID := 0, ReduceID := 0, Success := false },
         { Typ := TaskMap, MapID := 0, ReduceID := 0, Success := true }]).maps[0]? = some t1 ∧
      t1.State = Done :=
  ⟨by decide,
    ((reports_last_wins ["f"] 1 heldCalls
      [{ Typ := TaskMap, MapID := 0, ReduceID := 0, Success := false },
       { Typ := TaskMap, MapID := 0, ReduceID := 0, Success := true }] 0
      { Typ := TaskMap, State := Running, MapID := 0, ReduceID := 0, Files := ["f"],
        Start := 0 }).1 (by decide)).imp
      (fun _ h => ⟨h.1, h.2.1.2 (Or.inl
        ⟨{ Typ := TaskMap, MapID := 0, ReduceID := 0, Success := true }, by decide, rfl⟩)⟩)⟩

/-- C16, as stated, fails (the `done` flag and Reduce completion).  After the
only Reduce task has been reported done, `Done()` is still false; with
`R = 0` every Reduce task is `Done` from the start and `Done()` is false; and
after `done` was set, a late failure report makes the Reduce task `Pending`
while `Done()` stays true. -/
theorem done_flag_differs_from_reduces_done :
    ((run (MakeCoordinator ["f"] 1) finishedCalls).reduces.map taskInfo.State = [Done] ∧
      (run (MakeCoordinator ["f"] 1) finishedCalls).Done = false) ∧
    ((∀ t ∈ (MakeCoordinator ["f"] 0).reduces, t.State = Done) ∧
      (MakeCoordinator ["f"] 0).Done = false) ∧
    ((run (MakeCoordinator ["f"] 1) staleFailureCalls).reduces.map taskInfo.State =
        [Pending] ∧
      (run (MakeCoordinator ["f"] 1) staleFailureCalls).Done = true) := by
  decide

/-- C16, amended (when `Done()` is true).  In a state reached from
`MakeCoordinator`, `Done()` returns true exactly when some `RequestTask` of
the history was made in a state in which every Map task and every Reduce task
was `Done` (that call returned Exit and set the flag). -/
theorem done_iff_all_done_seen (files : List String) (R : Int) (calls : List Call) :
    (run (MakeCoordinator files R) calls).Done = true ↔
      ∃ (pre : List Call) (now : Time) (post : List Call),
        calls = pre ++ Call.request now :: post ∧
        (∀ t ∈ (run (MakeCoordinator files R) pre).maps, t.State = Done) ∧
        (∀ t ∈ (run (MakeCoordinator files R) pre).reduces, t.State = Done) := by
  induction calls using List.reverseRecOn with
  | nil =>
    constructor
    · intro h
      exact absurd h (by simp [run, MakeCoordinator, Coordinator.Done])
    · rintro ⟨pre, now, post, e, -⟩
      simp at e
  | append_singleton calls call ih =>
    rw [run_append]
    show (step (run (MakeCoordinator files R) calls) call).done = true ↔ _
    constructor
    · intro h
      by_cases hprev : (run (MakeCoordinator files R) calls).done = true
      · obtain ⟨pre, now, post, e, h1, h2⟩ := ih.1 hprev
        exact ⟨pre, now, post ++ [call], by rw [e]; simp, h1, h2⟩
      · cases call with
        | request now =>
          change (RequestTask _ now).1.done = true at h
          rcases RequestTask_done (run (MakeCoordinator files R) calls) now with
            ⟨hx, -⟩ | ⟨-, hd⟩
          · obtain ⟨a1, a2⟩ := (RequestTask_exit_iff_allDone _ now).1 hx
            exact ⟨calls, now, [], rfl, (allDone_iff _).1 a1, (allDone_iff _).1 a2⟩
          · rw [hd] at h
            exact absurd h hprev
        | report args =>
          change (ReportTask _ args).1.done = true at h
          rw [ReportTask_done] at h
          exact absurd h hprev
    · rintro ⟨pre, now, post, e, h1, h2⟩
      rcases List.eq_nil_or_concat post with hp | ⟨post1, b, hp⟩
      · subst hp
        obtain ⟨e1, e2⟩ := List.append_inj' e rfl
        simp only [List.cons.injEq, and_true] at e2
        subst e1 e2
        show (RequestTask _ now).1.done = true
        have hx := (RequestTask_exit_iff_allDone (run (MakeCoordinator files R) calls) now).2
          ⟨(allDone_iff _).2 h1, (allDone_iff _).2 h2⟩
        rcases RequestTask_done (run (MakeCoordinator files R) calls) now with
          ⟨-, hd, -⟩ | ⟨hne, -⟩
        · exact hd
        · exact absurd hx hne
      · rw [hp, List.concat_eq_append] at e
        have e' : calls ++ [call] = (pre ++ Call.request now :: post1) ++ [b] := by
          rw [e]; simp
        obtain ⟨e1, -⟩ := List.append_inj' e' rfl
        exact step_done_mono _ call (ih.2 ⟨pre, now, post1, e1, h1, h2⟩)

/-! ### The grouping loop on the slice itself -/

theorem take_length_takeWhile {α : Type} (p : α → Bool) (l : List α) :
    l.take (l.takeWhile p).length = l.takeWhile p ∧
    l.drop (l.takeWhile p).length = l.dropWhile p := by
  have h := List.takeWhile_append_dropWhile p l
  constructor
  · conv_lhs => arg 2; rw [← h]
    exact List.take_left _ _
  · conv_lhs => arg 2; rw [← h]
    exact List.drop_left _ _

theorem scanRun_spec (kvs : List KeyValue) (i : Nat) (kv : KeyValue)
    (hi : kvs[i]? = some kv) (fuel : Nat) :
    ∀ j, j ≤ kvs.length → kvs.length - j < fuel →
      scanRun kvs i fuel j =
        Outcome.ok (j + ((kvs.drop j).takeWhile (fun x => x.Key = kv.Key)).length) := by
  induction fuel with
  | zero => intro j _ h; omega
  | succ fuel ih =>
    intro j hj hf
    by_cases hlt : j < kvs.length
    · have hjs : kvs[j]? = some kvs[j] := List.getElem?_eq_getElem hlt
      have hdrop : kvs.drop j = kvs[j] :: kvs.drop (j + 1) := List.drop_eq_getElem_cons hlt
      simp only [scanRun, hlt, if_true, hjs, hi]
      by_cases hk : kvs[j].Key = kv.Key
      · rw [if_pos hk, ih (j + 1) (by omega) (by omega), hdrop]
        simp only [List.takeWhile_cons, hk, decide_True, if_true, List.length_cons]
        congr 1
        omega
      · rw [if_neg hk, hdrop]
        simp [List.takeWhile_cons, hk]
    · have hje : j = kvs.length := by omega
      simp only [scanRun, hlt, if_false]
      rw [hje, List.drop_length]
      simp

theorem collectVals_spec (kvs : List KeyValue) (j : Nat) (hj : j ≤ kvs.length) (fuel : Nat) :
    ∀ (k : Nat) (vals : List String), k ≤ j → j - k < fuel →
      collectVals kvs j fuel k vals =
        Outcome.ok (vals ++ ((kvs.drop k).take (j - k)).map KeyValue.Value) := by
  induction fuel with
  | zero => intro k vals _ h; omega
  | succ fuel ih =>
    intro k vals hk hf
    by_cases hlt : k < j
    · have hklen : k < kvs.length := by omega
      have hks : kvs[k]? = some kvs[k] := List.getElem?_eq_getElem hklen
      have hdrop : kvs.drop k = kvs[k] :: kvs.drop (k + 1) := List.drop_eq_getElem_cons hklen
      simp only [collectVals, hlt, if_true, hks]
      rw [ih (k + 1) _ (by omega) (by omega), hdrop,
        show j - k = (j - (k + 1)) + 1 by omega, List.take_succ_cons]
      simp
    · have hke : k = j := by omega
      simp only [collectVals, hlt, if_false]
      rw [hke]
      simp

theorem groupLoop_fuel (reducef : String → List String → String) (fuel : Nat) :
    ∀ (fuel1 : Nat) (l : List KeyValue), l.length ≤ fuel → l.length ≤ fuel1 →
      groupLoop reducef fuel l = groupLoop reducef fuel1 l := by
  induction fuel with
  | zero =>
    intro fuel1 l h _
    have : l = [] := List.length_eq_zero.1 (by omega)
    subst this
    cases fuel1 <;> rfl
  | succ fuel ih =>
    intro fuel1 l h h1
    cases l with
    | nil => cases fuel1 <;> rfl
    | cons kv rest =>
      cases fuel1 with
      | zero => simp at h1
      | succ fuel1 =>
        have hlen : (rest.dropWhile (fun x => decide (x.Key = kv.Key))).length ≤ rest.length :=
          (List.dropWhile_sublist _).length_le
        simp only [List.length_cons] at h h1
        simp only [groupLoop]
        rw [ih fuel1 _ (by omega) (by omega)]

/-- The loop on the slice, started at index `i` with enough iterations, ends
without a panic and writes what the loop over `kvs[i:]` writes. -/
theorem groupIdx_spec (reducef : String → List String → String) (kvs : List KeyValue)
    (fuel : Nat) :
    ∀ i, i ≤ kvs.length → kvs.length - i < fuel →
      groupIdx reducef kvs fuel i =
        Outcome.ok (groupLoop reducef (kvs.length - i) (kvs.drop i)) := by
  induction fuel with
  | zero => intro i _ h; omega
  | succ fuel ih =>
    intro i hi hf
    by_cases hlt : i < kvs.length
    · have his : kvs[i]? = some kvs[i] := List.getElem?_eq_getElem hlt
      have hdrop : kvs.drop i = kvs[i] :: kvs.drop (i + 1) := List.drop_eq_getElem_cons hlt
      obtain ⟨htake, hdropw⟩ := take_length_takeWhile
        (fun x : KeyValue => decide (x.Key = kvs[i].Key)) (kvs.drop (i + 1))
      have hn : ((kvs.drop (i + 1)).takeWhile (fun x => decide (x.Key = kvs[i].Key))).length ≤
          kvs.length - (i + 1) := by
        have := (List.takeWhile_sublist (fun x : KeyValue => decide (x.Key = kvs[i].Key))
          (l := kvs.drop (i + 1))).length_le
        simpa using this
      have hscan := scanRun_spec kvs i kvs[i] his (kvs.length + 1) (i + 1) (by omega) (by omega)
      have hcol := collectVals_spec kvs
        (i + 1 + ((kvs.drop (i + 1)).takeWhile (fun x => decide (x.Key = kvs[i].Key))).length)
        (by omega) (kvs.length + 1) i [] (by omega) (by omega)
      have hrec := ih
        (i + 1 + ((kvs.drop (i + 1)).takeWhile (fun x => decide (x.Key = kvs[i].Key))).length)
        (by omega) (by omega)
      have hvals : ((kvs.drop i).take
          (i + 1 + ((kvs.drop (i + 1)).takeWhile
            (fun x => decide (x.Key = kvs[i].Key))).length - i)).map KeyValue.Value =
          kvs[i].Value :: ((kvs.drop (i + 1)).takeWhile
            (fun x => decide (x.Key = kvs[i].Key))).map KeyValue.Value := by
        rw [hdrop, show i + 1 + ((kvs.drop (i + 1)).takeWhile
            (fun x => decide (x.Key = kvs[i].Key))).length - i =
          ((kvs.drop (i + 1)).takeWhile (fun x => decide (x.Key = kvs[i].Key))).length + 1
          by omega, List.take_succ_cons, htake]
        rfl
      have hrest : kvs.drop
          (i + 1 + ((kvs.drop (i + 1)).takeWhile
            (fun x => decide (x.Key = kvs[i].Key))).length) =
          (kvs.drop (i + 1)).dropWhile (fun x => decide (x.Key = kvs[i].Key)) := by
        rw [← hdropw, List.drop_drop]
      simp only [groupIdx, hlt, if_true, hscan, hcol, his, hrec, hvals, hrest,
        List.nil_append]
      rw [hdrop, show kvs.length - i = (kvs.length - i - 1) + 1 by omega]
      simp only [groupLoop]
      rw [groupLoop_fuel reducef _ (kvs.length - i - 1) _ (by rw [← hrest]; simp)
        (by
          have := (List.dropWhile_sublist (fun x : KeyValue => decide (x.Key = kvs[i].Key))
            (l := kvs.drop (i + 1))).length_le
          simp only [List.length_drop] at this
          omega)]
    · have hie : i = kvs.length := by omega
      simp only [groupIdx, hlt, if_false]
      rw [hie, List.drop_length, Nat.sub_self]
      rfl

/-! ### The calls of `reducef` and the keys of the output -/

theorem groupLoop_eq_map_calls (reducef : String → List String → String) (fuel : Nat) :
    ∀ l : List KeyValue, groupLoop reducef fuel l =
      (groupCalls fuel l).map (fun c => (c.1, reducef c.1 c.2)) := by
  induction fuel with
  | zero => intro l; rfl
  | succ fuel ih =>
    intro l
    cases l with
    | nil => rfl
    | cons kv rest => simp [groupLoop, groupCalls, ih]

/-- On a slice sorted by key, the grouping loop calls `reducef` once for every
key of the slice, with the values of that key in slice order, and makes no
other call. -/
theorem groupCalls_spec (fuel : Nat) :
    ∀ l : List KeyValue, l.length ≤ fuel → l.Pairwise (fun a b => a.Key ≤ b.Key) →
    ∀ k : String, (groupCalls fuel l).filter (fun e => e.1 = k) =
      if k ∈ l.map KeyValue.Key then
        [(k, (l.filter (fun x => x.Key = k)).map KeyValue.Value)]
      else [] := by
  induction fuel with
  | zero =>
    intro l hl _ k
    have : l = [] := List.length_eq_zero.1 (by omega)
    subst this
    simp [groupCalls]
  | succ fuel ih =>
    intro l hl hs k
    cases l with
    | nil => simp [groupCalls]
    | cons kv rest =>
      rw [List.pairwise_cons] at hs
      obtain ⟨hrun, hrem⟩ := sorted_run kv.Key rest hs.2 hs.1
      have hsplit := List.takeWhile_append_dropWhile (fun x => decide (x.Key = kv.Key)) rest
      have hremlen : (rest.dropWhile (fun x => x.Key = kv.Key)).length ≤ fuel := by
        have := congrArg List.length hsplit
        simp only [List.length_append, List.length_cons] at this hl
        omega
      have hremsorted : (rest.dropWhile (fun x => x.Key = kv.Key)).Pairwise
          (fun a b => a.Key ≤ b.Key) :=
        hs.2.sublist (List.dropWhile_sublist _)
      have hih := ih _ hremlen hremsorted k
      simp only [groupCalls, List.filter_cons]
      by_cases hk : kv.Key = k
      · subst hk
        have hnot : kv.Key ∉ (rest.dropWhile (fun x => x.Key = kv.Key)).map KeyValue.Key := by
          intro hmem
          obtain ⟨x, hx, hxk⟩ := List.mem_map.1 hmem
          exact hrem x hx hxk
        rw [hih, if_neg hnot]
        simp [hrun]
      · have hfilter : rest.filter (fun x => x.Key = k) =
            (rest.dropWhile (fun x => x.Key = kv.Key)).filter (fun x => x.Key = k) := by
          conv_lhs => rw [← hsplit]
          rw [List.filter_append]
          have : (rest.takeWhile (fun x => decide (x.Key = kv.Key))).filter
              (fun x => x.Key = k) = [] := by
            rw [List.filter_eq_nil_iff]
            intro x hx
            have := List.mem_takeWhile_imp hx
            simp only [decide_eq_true_eq] at this
            simp [this, hk]
          rw [this, List.nil_append]
        have hmem : k ∈ (kv :: rest).map KeyValue.Key ↔
            k ∈ (rest.dropWhile (fun x => x.Key = kv.Key)).map KeyValue.Key := by
          constructor
          · intro h
            obtain ⟨x, hx, hxk⟩ := List.mem_map.1 h
            rcases List.mem_cons.1 hx with e | hxr
            · rw [e] at hxk; exact absurd hxk hk
            · have : x ∈ rest.filter (fun x => x.Key = k) :=
                List.mem_filter.2 ⟨hxr, by simpa using hxk⟩
              rw [hfilter] at this
              exact List.mem_map.2 ⟨x, (List.mem_filter.1 this).1, hxk⟩
          · intro h
            obtain ⟨x, hx, hxk⟩ := List.mem_map.1 h
            exact List.mem_map.2 ⟨x, List.mem_cons_of_mem _ ((List.dropWhile_sublist _).subset hx),
              hxk⟩
        rw [hih]
        simp only [hk, decide_False, Bool.false_eq_true, if_false]
        by_cases hin : k ∈ (rest.dropWhile (fun x => x.Key = kv.Key)).map KeyValue.Key
        · rw [if_pos hin, if_pos (hmem.2 hin), hfilter]
        · rw [if_neg hin, if_neg (fun h => hin (hmem.1 h))]

theorem groupCalls_mem_keys (fuel : Nat) (l : List KeyValue) (hl : l.length ≤ fuel)
    (hs : l.Pairwise (fun a b => a.Key ≤ b.Key)) (k : String) :
    k ∈ (groupCalls fuel l).map Prod.fst ↔ k ∈ l.map KeyValue.Key := by
  have hspec := groupCalls_spec fuel l hl hs k
  constructor
  · intro h
    obtain ⟨c, hc, hck⟩ := List.mem_map.1 h
    by_contra hnot
    rw [if_neg hnot] at hspec
    have : c ∈ (groupCalls fuel l).filter (fun e => e.1 = k) :=
      List.mem_filter.2 ⟨hc, by simpa using hck⟩
    rw [hspec] at this
    simp at this
  · intro h
    rw [if_pos h] at hspec
    have : (k, (l.filter (fun x => x.Key = k)).map KeyValue.Value) ∈
        (groupCalls fuel l).filter (fun e => e.1 = k) := by
      rw [hspec]; simp
    exact List.mem_map.2 ⟨_, (List.mem_filter.1 this).1, rfl⟩

theorem groupCalls_mem (fuel : Nat) (l : List KeyValue) (hl : l.length ≤ fuel)
    (hs : l.Pairwise (fun a b => a.Key ≤ b.Key)) (c : String × List String)
    (hc : c ∈ groupCalls fuel l) :
    c.2 = (l.filter (fun x => x.Key = c.1)).map KeyValue.Value := by
  have hspec := groupCalls_spec fuel l hl hs c.1
  have hk : c.1 ∈ l.map KeyValue.Key :=
    (groupCalls_mem_keys fuel l hl hs c.1).1 (List.mem_map.2 ⟨c, hc, rfl⟩)
  rw [if_pos hk] at hspec
  have : c ∈ (groupCalls fuel l).filter (fun e => e.1 = c.1) :=
    List.mem_filter.2 ⟨hc, by simp⟩
  rw [hspec] at this
  simp only [List.mem_singleton] at this
  rw [this]

/-- On a slice sorted by key the keys of the calls are strictly ascending. -/
theorem groupCalls_keys_lt (fuel : Nat) :
    ∀ l : List KeyValue, l.length ≤ fuel → l.Pairwise (fun a b => a.Key ≤ b.Key) →
      ((groupCalls fuel l).map Prod.fst).Pairwise (fun a b => a < b) := by
  induction fuel with
  | zero => intro l _ _; simp [groupCalls]
  | succ fuel ih =>
    intro l hl hs
    cases l with
    | nil => simp [groupCalls]
    | cons kv rest =>
      rw [List.pairwise_cons] at hs
      obtain ⟨-, hrem⟩ := sorted_run kv.Key rest hs.2 hs.1
      have hsub := List.dropWhile_sublist (fun x : KeyValue => decide (x.Key = kv.Key))
        (l := rest)
      have hremlen : (rest.dropWhile (fun x => x.Key = kv.Key)).length ≤ fuel := by
        have := hsub.length_le
        simp only [List.length_cons] at hl
        omega
      have hremsorted : (rest.dropWhile (fun x => x.Key = kv.Key)).Pairwise
          (fun a b => a.Key ≤ b.Key) := hs.2.sublist hsub
      simp only [groupCalls, List.map_cons, List.pairwise_cons]
      refine ⟨?_, ih _ hremlen hremsorted⟩
      intro k hk
      obtain ⟨x, hx, hxk⟩ := List.mem_map.1
        ((groupCalls_mem_keys fuel _ hremlen hremsorted k).1 hk)
      have hle := hs.1 x (hsub.subset hx)
      have hne := hrem x hx
      rw [hxk] at hle hne
      exact lt_of_le_of_ne hle (fun e => hne e.symm)

theorem sortSlice_sorted (L : Lib) (hL : L.Ok) (kvs : List KeyValue) :
    (L.sortSlice keyLess kvs).Pairwise (fun a b => a.Key ≤ b.Key) :=
  (hL.sort_sorted kvs).imp (fun h => (keyLess_false_iff _ _).1 h)

theorem fnv_fold_lt (bs : List Nat) :
    ∀ h, h < 4294967296 → bs.foldl fnvStep h < 4294967296 := by
  induction bs with
  | nil => intro h hh; exact hh
  | cons b bs ih =>
    intro h _
    exact ih _ (Nat.mod_lt _ (by decide))

/-! ## The worker: claims C11, C12, C19 and C20 -/

/-- C12 (Reduce grouping).  On the sorted slice the grouping loop calls
`reducef` exactly once for every distinct key of the pairs read, with the
key and the values paired with it in the order of the sorted slice (a
permutation of those values in the order read, hence the same length), and
writes for that call the line `<key> <result>\n`: when the shards of task
`reduceID` are read as `kvs`, `doReduce` returns no error and leaves in
`mr-out-<reduceID>` exactly those lines, one per call and in call order, and
every other file as it was.  Run on the slice with every index checked, the
loop ends within `len(kvs) + 1` iterations without an index out of range and
writes the same lines. -/
theorem doReduce_groups_by_key (L : Lib) (hL : L.Ok) (reducef : String → List String → String)
    (kvs : List KeyValue) :
    groupLoop reducef (L.sortSlice keyLess kvs).length (L.sortSlice keyLess kvs) =
      (groupCalls (L.sortSlice keyLess kvs).length (L.sortSlice keyLess kvs)).map
        (fun c => (c.1, reducef c.1 c.2)) ∧
    ((groupCalls (L.sortSlice keyLess kvs).length (L.sortSlice keyLess kvs)).map
      Prod.fst).Nodup ∧
    (∀ k : String,
      k ∈ (groupCalls (L.sortSlice keyLess kvs).length (L.sortSlice keyLess kvs)).map Prod.fst ↔
        k ∈ kvs.map KeyValue.Key) ∧
    (∀ c ∈ groupCalls (L.sortSlice keyLess kvs).length (L.sortSlice keyLess kvs),
      c.2 = ((L.sortSlice keyLess kvs).filter (fun x => x.Key = c.1)).map KeyValue.Value ∧
      c.2.Perm ((kvs.filter (fun x => x.Key = c.1)).map KeyValue.Value) ∧
      c.2.length = (kvs.filter (fun x => x.Key = c.1)).length) ∧
    (∀ e : String × String, formatLine e = e.1 ++ " " ++ e.2 ++ "\n") ∧
    (∀ (fs : FS) (reduceID nReduce : Int), readShards L fs (Glob fs reduceID) = some kvs →
      doReduce L fs reduceID nReduce reducef =
        (FS.write fs (outName reduceID)
          (String.join
            ((groupCalls (L.sortSlice keyLess kvs).length (L.sortSlice keyLess kvs)).map
              (fun c => c.1 ++ " " ++ reducef c.1 c.2 ++ "\n"))), none) ∧
      FS.read (doReduce L fs reduceID nReduce reducef).1 (outName reduceID) =
        some (String.join
          ((groupCalls (L.sortSlice keyLess kvs).length (L.sortSlice keyLess kvs)).map
            (fun c => c.1 ++ " " ++ reducef c.1 c.2 ++ "\n"))) ∧
      (∀ name : String, name ≠ outName reduceID →
        FS.read (doReduce L fs reduceID nReduce reducef).1 name = FS.read fs name)) ∧
    (∀ (fs : FS) (reduceID : Int), readShards L fs (Glob fs reduceID) = some kvs →
      reduceEntries L fs reduceID reducef =
        some (groupLoop reducef (L.sortSlice keyLess kvs).length (L.sortSlice keyLess kvs))) ∧
    (∀ fuel : Nat, (L.sortSlice keyLess kvs).length < fuel →
      groupIdx reducef (L.sortSlice keyLess kvs) fuel 0 =
        Outcome.ok
          (groupLoop reducef (L.sortSlice keyLess kvs).length (L.sortSlice keyLess kvs))) := by
  have hs := sortSlice_sorted L hL kvs
  refine ⟨groupLoop_eq_map_calls reducef _ _, ?_, ?_, ?_, fun _ => rfl, ?_, ?_, ?_⟩
  · exact (groupCalls_keys_lt _ _ (le_refl _) hs).imp (fun h => ne_of_lt h)
  · intro k
    rw [groupCalls_mem_keys _ _ (le_refl _) hs k]
    exact (hL.sort_perm kvs).map KeyValue.Key |>.mem_iff
  · intro c hc
    have e := groupCalls_mem _ _ (le_refl _) hs c hc
    have hp : c.2.Perm ((kvs.filter (fun x => x.Key = c.1)).map KeyValue.Value) := by
      rw [e]
      exact ((hL.sort_perm kvs).filter _).map _
    refine ⟨e, hp, ?_⟩
    rw [hp.length_eq, List.length_map]
  · intro fs reduceID nReduce h
    have he : reduceEntries L fs reduceID reducef =
        some (groupLoop reducef (L.sortSlice keyLess kvs).length (L.sortSlice keyLess kvs)) := by
      unfold reduceEntries
      rw [h]
    have hd : doReduce L fs reduceID nReduce reducef =
        (FS.write fs (outName reduceID)
          (String.join
            ((groupCalls (L.sortSlice keyLess kvs).length (L.sortSlice keyLess kvs)).map
              (fun c => c.1 ++ " " ++ reducef c.1 c.2 ++ "\n"))), none) := by
      unfold doReduce
      rw [he]
      simp only [render_eq_join, groupLoop_eq_map_calls, List.map_map]
      rfl
    refine ⟨hd, ?_, ?_⟩
    · rw [hd]
      exact read_write_same _ _ _
    · intro name hn
      rw [hd]
      exact read_write_other _ _ _ _ hn
  · intro fs reduceID h
    unfold reduceEntries
    rw [h]
  · intro fuel hf
    have := groupIdx_spec reducef (L.sortSlice keyLess kvs) fuel 0 (Nat.zero_le _) (by omega)
    rw [this]
    simp

/-- Witness for C12: Reduce task 0 of the word-count job over "a b a" and
"b c" with two partitions reads the pairs of `a`, `a` and `c`, calls the
reduce function on `a` with two values and on `c` with one, and leaves the
lines `a 2` and `c 1` in `mr-out-0`. -/
theorem doReduce_groups_by_key_witness :
    readShards refLib (runMaps refLib wcMap 2 [("x", "a b a"), ("y", "b c")] 0 ["x", "y"]).1
        (Glob (runMaps refLib wcMap 2 [("x", "a b a"), ("y", "b c")] 0 ["x", "y"]).1 0) =
      some [{ Key := "a", Value := "1" }, { Key := "a", Value := "1" },
            { Key := "c", Value := "1" }] ∧
    groupCalls
        (refLib.sortSlice keyLess [{ Key := "a", Value := "1" }, { Key := "a", Value := "1" },
          { Key := "c", Value := "1" }]).length
        (refLib.sortSlice keyLess [{ Key := "a", Value := "1" }, { Key := "a", Value := "1" },
          { Key := "c", Value := "1" }]) =
      [("a", ["1", "1"]), ("c", ["1"])] ∧
    FS.read (doReduce refLib
        (runMaps refLib wcMap 2 [("x", "a b a"), ("y", "b c")] 0 ["x", "y"]).1 0 2 wcReduce).1
        "mr-out-0" = some "a 2\nc 1\n" ∧
    groupIdx wcReduce (refLib.sortSlice keyLess wcPairs) 4 0 =
      Outcome.ok [("a", "2"), ("c", "1")] ∧
    FS.read (doReduce refLib
        (runMaps refLib wcMap 2 [("x", "a b a"), ("y", "b c")] 0 ["x", "y"]).1 0 2 wcReduce).1
        (outName 0) =
      some (String.join
        ((groupCalls
          (refLib.sortSlice keyLess [{ Key := "a", Value := "1" }, { Key := "a", Value := "1" },
            { Key := "c", Value := "1" }]).length
          (refLib.sortSlice keyLess [{ Key := "a", Value := "1" }, { Key := "a", Value := "1" },
            { Key := "c", Value := "1" }])).map
          (fun c => c.1 ++ " " ++ wcReduce c.1 c.2 ++ "\n"))) :=
  ⟨by decide, by decide, by decide, by decide,
    ((doReduce_groups_by_key refLib refLib_ok wcReduce
      [{ Key := "a", Value := "1" }, { Key := "a", Value := "1" },
        { Key := "c", Value := "1" }]).2.2.2.2.2.1
      (runMaps refLib wcMap 2 [("x", "a b a"), ("y", "b c")] 0 ["x", "y"]).1 0 2
      (by decide)).2.1⟩

/-- C19 fails on the code (Reduce reads only shards of its own partition).
The pattern `mr-*-<r>` selects the shards `mr-<m>-<p>` with `p = r` and no
shard of another partition, but it also selects the output name `mr-out-<r>`:
in the directory a completed word-count job leaves, `doReduce` for partition 0
lists `mr-out-0` among the files to decode, fails on it and returns an
error. -/
theorem doReduce_selects_own_output :
    (∀ r : Nat, globMatch (r : Int) (outName (r : Int)) = true) ∧
    (∀ (fs : FS) (r : Nat), outName (r : Int) ∈ FS.names fs →
      outName (r : Int) ∈ Glob fs (r : Int)) ∧
    (∀ r m p : Nat, globMatch (r : Int) (shardName (m : Int) (p : Int)) = true ↔ p = r) ∧
    FS.read rerunDir "mr-out-0" = some "a 2\nc 1\n" ∧
    Glob rerunDir 0 = ["mr-0-0", "mr-1-0", "mr-out-0"] ∧
    refLib.decodeAll "a 2\nc 1\n" = none ∧
    (doReduce refLib rerunDir 0 2 wcReduce).2 ≠ none := by
  refine ⟨fun r => (globMatch_outName r r).2 rfl, ?_, globMatch_shardName,
    by decide, by decide, by decide, by decide⟩
  intro fs r hmem
  unfold Glob
  rw [List.mem_insertionSort, List.mem_filter]
  exact ⟨hmem, (globMatch_outName r r).2 rfl⟩

/-- C20 (Partition index is always in range).  `ihash` is 32-bit FNV-1a
(offset basis 2166136261, prime 16777619, arithmetic modulo `2^32`) of the
bytes of the key with the top bit cleared, so `0 ≤ ihash(key) < 2^31`, and
`ihash("") = 18652613`.  For `R > 0` the index `ihash(key) % R` lies in
`[0, R)` (Go's `%` and the mathematical `mod` agree here), the encode loop of
`doMap` never indexes `encs` out of range, and `doMap` never panics. -/
theorem ihash_partition_in_range (key : String) (R : Int) (hR : 0 < R) :
    fnv32a [] = 2166136261 ∧
    (∀ (bs : List Nat) (b : Nat),
      fnv32a (bs ++ [b]) = ((fnv32a bs ^^^ b) * 16777619) % 4294967296) ∧
    fnv32a (utf8Bytes key) < 4294967296 ∧
    ihash key = ((fnv32a (utf8Bytes key) % 2147483648 : Nat) : Int) ∧
    0 ≤ ihash key ∧ ihash key < 2147483648 ∧
    ihash "" = 18652613 ∧
    (0 ≤ Int.tmod (ihash key) R ∧ Int.tmod (ihash key) R < R ∧
      Int.tmod (ihash key) R = ihash key % R) ∧
    (∀ (L : Lib) (bufs : List String) (kva : List KeyValue), bufs.length = R.toNat →
      encodeLoop L R bufs kva ≠ none) ∧
    (∀ (L : Lib) (fs : FS) (mapID : Int) (filename : String)
      (mapf : String → String → List KeyValue),
      (doMap L fs mapID filename R mapf).2 ≠ some "panic: index out of range") := by
  have hmask : ihash key = ((fnv32a (utf8Bytes key) % 2147483648 : Nat) : Int) := by
    unfold ihash
    have := Nat.and_pow_two_sub_one_eq_mod (fnv32a (utf8Bytes key)) 31
    norm_num at this
    rw [this]
  have hlt : ihash key < 2147483648 := by
    rw [hmask]
    have := Nat.mod_lt (fnv32a (utf8Bytes key)) (show 0 < 2147483648 by decide)
    omega
  refine ⟨rfl, ?_, fnv_fold_lt _ _ (by decide), hmask, ihash_nonneg key, hlt, by decide,
    ?_, ?_, ?_⟩
  · intro bs b
    simp [fnv32a, List.foldl_append, fnvStep]
  · exact ⟨Int.tmod_nonneg R (ihash_nonneg key), Int.tmod_lt_of_pos (ihash key) hR,
      Int.tmod_eq_emod (ihash_nonneg key) (le_of_lt hR)⟩
  · intro L bufs kva hlen
    obtain ⟨bufs1, h1, -⟩ := encodeLoop_spec L R hR kva bufs hlen
    rw [h1]
    exact Option.some_ne_none _
  · intro L fs mapID filename mapf
    unfold doMap
    rw [if_neg (by omega)]
    cases FS.read fs filename with
    | none =>
      show some "open: no such file or directory" ≠ some "panic: index out of range"
      decide
    | some content =>
      obtain ⟨bufs1, h1, -⟩ := encodeLoop_spec L R hR (mapf filename content)
        (List.replicate R.toNat "") (by simp)
      simp only [h1]
      exact fun h => Option.noConfusion h

/-- Witness for C20: the key `a` with `R = 2` goes to partition 0. -/
theorem ihash_partition_in_range_witness :
    (0 : Int) < 2 ∧ ihash "a" = 1678518572 ∧ Int.tmod (ihash "a") 2 = 0 ∧
    (0 ≤ Int.tmod (ihash "a") 2 ∧ Int.tmod (ihash "a") 2 < 2 ∧
      Int.tmod (ihash "a") 2 = ihash "a" % 2) :=
  ⟨by decide, by decide, by decide,
    (ihash_partition_in_range "a" 2 (by decide)).2.2.2.2.2.2.2.1⟩

/-- Witness for C15: while map 0 of the one-file job is held by a worker, the
request made at 5 ns returns Idle and leaves the reaped state. -/
theorem requestTask_idle_iff_witness :
    (RequestTask (run (MakeCoordinator ["f"] 1) heldCalls) 5).2.1.Typ = TaskNone ∧
    (RequestTask (run (MakeCoordinator ["f"] 1) heldCalls) 5).1 =
      { maps := reap 5 (run (MakeCoordinator ["f"] 1) heldCalls).maps,
        reduces := reap 5 (run (MakeCoordinator ["f"] 1) heldCalls).reduces,
        nReduce := (run (MakeCoordinator ["f"] 1) heldCalls).nReduce,
        done := (run (MakeCoordinator ["f"] 1) heldCalls).done } :=
  ⟨by decide, (requestTask_idle_iff (run (MakeCoordinator ["f"] 1) heldCalls) 5).2.1
    (by decide)⟩

/-- Witness for C18: in the two-file job with map 0 held since time 0, the
request at 5 ns hands out map 1, which was `Pending`. -/
theorem requestTask_single_holder_witness :
    (RequestTask (run (MakeCoordinator ["a", "b"] 1) heldCalls) 5).2.1.Typ = TaskMap ∧
    ∃ (i : Nat) (t0 : taskInfo),
      (run (MakeCoordinator ["a", "b"] 1) heldCalls).maps[i]? = some t0 ∧
      t0.MapID = (RequestTask (run (MakeCoordinator ["a", "b"] 1) heldCalls) 5).2.1.MapID ∧
      (reapTask 5 t0).State = Pending ∧ t0.State ≠ Done ∧
      ¬ (t0.State = Running ∧ 5 - t0.Start ≤ 10000000000) ∧
      (RequestTask (run (MakeCoordinator ["a", "b"] 1) heldCalls) 5).1.maps =
        (reap 5 (run (MakeCoordinator ["a", "b"] 1) heldCalls).maps).set i
          { reapTask 5 t0 with State := Running, Start := 5 } ∧
      (RequestTask (run (MakeCoordinator ["a", "b"] 1) heldCalls) 5).1.reduces =
        reap 5 (run (MakeCoordinator ["a", "b"] 1) heldCalls).reduces :=
  ⟨by decide, (requestTask_single_holder (run (MakeCoordinator ["a", "b"] 1) heldCalls) 5).1
    (by decide)⟩

/-- Witness for C17: after map 0 of the two-file job was handed out, the
tables still hold two Map tasks and one Reduce task. -/
theorem task_table_shape_witness :
    (run (MakeCoordinator ["a", "b"] 1) heldCalls).maps.length = 2 ∧
    (run (MakeCoordinator ["a", "b"] 1) heldCalls).reduces.length = 1 ∧
    (RequestTask (run (MakeCoordinator ["a", "b"] 1) heldCalls) 5).2.1.MapID = 1 :=
  ⟨(task_table_shape ["a", "b"] 1 heldCalls 5).1, (task_table_shape ["a", "b"] 1 heldCalls 5).2.1,
    by decide⟩

end mr
